import Mathlib

/-!
Shallow embedding of the core of the BIND 9 TLS-session infrastructure:
the Robin Hood hashmap with incremental rehashing (`lib/isc/hashmap.c`),
the TLS context cache, the ALPN protocol scan and the TLS protocol-version
mask helper.  Machine integers are modelled as `Nat` (sizes and positions are
masked with `% 2^bits`, mirroring the C `& hashmask`).  Loops are modelled
with explicit fuel; an exhausted fuel yields `none`, standing for a
non-terminating (or assertion-failing) execution, which never happens in the
states reachable through the public API.
-/

namespace Bind9

/-- `APPROX_90_PERCENT(x)` from hashmap.c: `((x)*921) >> 10`. -/
def APPROX_90_PERCENT (x : Nat) : Nat := (x * 921) >>> 10

/-- `APPROX_40_PERCENT(x)` from hashmap.c: `((x)*409) >> 10`. -/
def APPROX_40_PERCENT (x : Nat) : Nat := (x * 409) >>> 10

/-- `APPROX_20_PERCENT(x)` from hashmap.c: `((x)*205) >> 10`. -/
def APPROX_20_PERCENT (x : Nat) : Nat := (x * 205) >>> 10

/-- `HASHSIZE(bits)` from hashmap.c: `UINT64_C(1) << bits`. -/
def HASHSIZE (bits : Nat) : Nat := 1 <<< bits

/-- `HASHMAP_MIN_BITS` from hashmap.c. -/
def HASHMAP_MIN_BITS : Nat := 1

/-- `HASHMAP_MAX_BITS` from hashmap.c. -/
def HASHMAP_MAX_BITS : Nat := 32

/-- Modelled from the spec: `isc_hash_bits32` (declared in `isc/hash.h`, not
among the provided sources) computes the per-table home slot by high-bits
extraction: `hashval >> (32 - bits)`. -/
def isc_hash_bits32 (val bits : Nat) : Nat := val >>> (32 - bits)

/-- Modelled from the spec: ASCII case folding of a single byte, used by
case-insensitive key comparison (`isc/ascii.h` is not among the provided
sources; the spec prescribes ASCII fold on compare). -/
def asciiLower (b : Nat) : Nat := if 65 ≤ b ∧ b ≤ 90 then b + 32 else b

/-- Modelled from the spec: `isc_ascii_lowerequal` compares two byte strings
after ASCII case folding. -/
def isc_ascii_lowerequal (k1 k2 : List Nat) : Bool :=
  k1.map asciiLower == k2.map asciiLower

/-- `hashmap_node_t`: key bytes, opaque value handle, 32-bit hash, probe
sequence length.  The C `keysize` field is the length of `key`. -/
structure HNode where
  key : List Nat
  value : Nat
  hashval : Nat
  psl : Nat
  deriving DecidableEq, Repr

/-- `hashmap_table_t`.  `size` and `hashmask` are derived from `hashbits`
(`size = 2^hashbits`, `hashmask = size - 1`); a table with `hashbits = 0`
(`HASHMAP_NO_BITS`) stands for the C `table == NULL` state, matching
`hashmap_create_table`/`hashmap_free_table` which set both fields together.
An empty slot (`node->key == NULL`) is `none`. -/
structure HTable where
  hashbits : Nat
  slots : Nat → Option HNode

/-- A freed / never-created table (`hashbits = HASHMAP_NO_BITS`). -/
def HTable.nullTable : HTable := ⟨0, fun _ => none⟩

/-- `struct isc_hashmap`: two tables for incremental rehashing, the active
index, the rehash iterator and the live count. -/
structure Hashmap where
  case_sensitive : Bool
  hindex : Bool
  hiter : Nat
  count : Nat
  tab0 : HTable
  tab1 : HTable

/-- `hashmap->tables[idx]` with `idx` modelled as a `Bool`. -/
def Hashmap.tab (m : Hashmap) : Bool → HTable
  | false => m.tab0
  | true => m.tab1

/-- Functional update of `hashmap->tables[idx]`. -/
def Hashmap.setTab (m : Hashmap) (idx : Bool) (t : HTable) : Hashmap :=
  match idx with
  | false => { m with tab0 := t }
  | true => { m with tab1 := t }

/-- `hashmap_nexttable`: the other table index. -/
def hashmap_nexttable (idx : Bool) : Bool := !idx

/-- `rehashing_in_progress`: the non-active table is present. -/
def rehashing_in_progress (m : Hashmap) : Bool :=
  (m.tab (hashmap_nexttable m.hindex)).hashbits != 0

/-- `try_nexttable`. -/
def try_nexttable (m : Hashmap) (idx : Bool) : Bool :=
  idx == m.hindex && rehashing_in_progress m

/-- `hashmap_match`: same 32-bit hash, same key size, and byte equality
(exact or ASCII-case-folded). -/
def hashmap_match (cs : Bool) (node : HNode) (hashval : Nat) (key : List Nat) : Bool :=
  node.hashval == hashval && node.key.length == key.length &&
    (if cs then node.key == key else isc_ascii_lowerequal node.key key)

/-- Pointwise update of a slot array. -/
def updSlot (s : Nat → Option HNode) (p : Nat) (v : Option HNode) : Nat → Option HNode :=
  fun q => if q = p then v else s q

/-- The probe loop of `hashmap_find`: probe from distance `psl`, stop at an
empty slot or at a slot whose stored psl is below the probe distance
(Robin Hood invariant); on a key match return the probe distance and the
node.  The outer `Option` is fuel exhaustion. -/
def hashmap_find_loop (cs : Bool) (t : HTable) (hashval : Nat) (key : List Nat)
    (hash : Nat) : Nat → Nat → Option (Option (Nat × HNode))
  | 0, _ => none
  | fuel+1, psl =>
    let pos := (hash + psl) % HASHSIZE t.hashbits
    match t.slots pos with
    | none => some none
    | some node =>
      if psl > node.psl then some none
      else if hashmap_match cs node hashval key then some (some (psl, node))
      else hashmap_find_loop cs t hashval key hash fuel (psl + 1)

/-- One-table search of `hashmap_find` (the body before `nexttable:` retry). -/
def hashmap_find_table (cs : Bool) (t : HTable) (hashval : Nat) (key : List Nat) :
    Option (Option (Nat × HNode)) :=
  hashmap_find_loop cs t hashval key (isc_hash_bits32 hashval t.hashbits)
    (HASHSIZE t.hashbits + 2) 0

/-- `hashmap_find`: search the table `idx`; on a miss retry on the other
table when `try_nexttable` allows it.  Returns the table index, probe
distance and node of the match. -/
def hashmap_find2 (m : Hashmap) (hashval : Nat) (key : List Nat) (idx : Bool) :
    Option (Option (Bool × Nat × HNode)) :=
  match hashmap_find_table m.case_sensitive (m.tab idx) hashval key with
  | none => none
  | some (some (psl, node)) => some (some (idx, psl, node))
  | some none =>
    if try_nexttable m idx then
      match hashmap_find_table m.case_sensitive (m.tab (!idx)) hashval key with
      | none => none
      | some (some (psl, node)) => some (some (!idx, psl, node))
      | some none => some none
    else some none

/-- `isc_hashmap_find` with `hashvalp == NULL`: the hash is computed from the
key by the map's hash function `H`.  Inner `none` is `ISC_R_NOTFOUND`; on
success the stored value is produced via `*valuep`. -/
def isc_hashmap_find (H : List Nat → Nat) (m : Hashmap) (key : List Nat) :
    Option (Option Nat) :=
  (hashmap_find2 m (H key) key m.hindex).map (fun r => r.map (fun x => x.2.2.value))

/-- The backward-shift loop of `hashmap_delete_node`: while the next slot is
non-empty with a positive psl, decrement its psl and copy it one slot back;
finally clear the current entry slot. -/
def delete_shift_loop (n : Nat) (slots : Nat → Option HNode) (entry pos : Nat) :
    Nat → Option (Nat → Option HNode)
  | 0 => none
  | fuel+1 =>
    let pos' := (pos + 1) % n
    match slots pos' with
    | none => some (updSlot slots entry none)
    | some node =>
      if node.psl = 0 then some (updSlot slots entry none)
      else
        let node' : HNode := { node with psl := node.psl - 1 }
        delete_shift_loop n (updSlot (updSlot slots pos' (some node')) entry (some node')) pos' pos' fuel

/-- `hashmap_delete_node`: decrement the count and run the backward-shift
loop on table `idx`, starting from the found entry at probe distance `psl`
(the C walks `pos` from `hash + psl`, masking on each step). -/
def hashmap_delete_node (m : Hashmap) (entryPos : Nat) (hashval psl : Nat)
    (idx : Bool) : Option Hashmap :=
  let t := m.tab idx
  let n := HASHSIZE t.hashbits
  let hash := isc_hash_bits32 hashval t.hashbits
  match delete_shift_loop n t.slots entryPos (hash + psl) (n * n + n + 2) with
  | none => none
  | some slots' =>
    some (Hashmap.setTab { m with count := m.count - 1 } idx { t with slots := slots' })

/-- The displacement loop of `hashmap_add`: carry a candidate node; at an
empty slot store it (success); on a duplicate report it (false = EXISTS);
at a richer slot swap the candidate with the occupant; advance. -/
def hashmap_add_loop (cs : Bool) (n : Nat) (hashval : Nat) (key : List Nat)
    (hash : Nat) : Nat → Nat → HNode → (Nat → Option HNode) →
    Option (Bool × (Nat → Option HNode))
  | 0, _, _, _ => none
  | fuel+1, psl, node, slots =>
    let pos := (hash + psl) % n
    match slots pos with
    | none => some (true, updSlot slots pos (some node))
    | some current =>
      if hashmap_match cs current hashval key then some (false, slots)
      else
        let sw := node.psl > current.psl
        let slots' := if sw then updSlot slots pos (some node) else slots
        let node' := if sw then current else node
        hashmap_add_loop cs n hashval key hash fuel (psl + 1)
          { node' with psl := node'.psl + 1 } slots'

/-- `hashmap_add` (static): insert into table `idx`; `true` is
`ISC_R_SUCCESS` (count incremented), `false` is `ISC_R_EXISTS`.
`hashmap_node_init` REQUIREs `keysize <= UINT16_MAX`. -/
def hashmap_add_m (m : Hashmap) (hashval : Nat) (key : List Nat) (value : Nat)
    (idx : Bool) : Option (Bool × Hashmap) :=
  if key.length > 65535 then none
  else
    let t := m.tab idx
    let n := HASHSIZE t.hashbits
    let hash := isc_hash_bits32 hashval t.hashbits
    let node0 : HNode := ⟨key, value, hashval, 0⟩
    match hashmap_add_loop m.case_sensitive n hashval key hash (n + 2) 0 node0 t.slots with
    | none => none
    | some (true, slots') =>
      some (true, Hashmap.setTab { m with count := m.count + 1 } idx { t with slots := slots' })
    | some (false, _) => some (false, m)

/-- The scan in `hashmap_rehash_one` advancing `hiter` to the first
non-empty slot (or to `oldsize`). -/
def rehash_scan_loop (n : Nat) (slots : Nat → Option HNode) : Nat → Nat → Nat
  | 0, hiter => hiter
  | fuel+1, hiter =>
    if hiter < n then
      match slots hiter with
      | none => rehash_scan_loop n slots fuel (hiter + 1)
      | some _ => hiter
    else hiter

/-- `hashmap_rehash_one`: advance `hiter` to the first non-empty source
slot; if the source is exhausted, free it and reset `hiter`; otherwise move
that node into the active table (backward-shift delete from the source, then
ordinary insertion re-hashed by the new bits; the insertion must succeed). -/
def hashmap_rehash_one (m : Hashmap) : Option Hashmap :=
  let oldidx := hashmap_nexttable m.hindex
  let told := m.tab oldidx
  let oldsize := HASHSIZE told.hashbits
  let hiter' := rehash_scan_loop oldsize told.slots oldsize m.hiter
  if hiter' = oldsize then
    some { Hashmap.setTab m oldidx HTable.nullTable with hiter := 0 }
  else
    match told.slots hiter' with
    | none => none
    | some node =>
      let m1 := { m with hiter := hiter' }
      match hashmap_delete_node m1 hiter' node.hashval node.psl oldidx with
      | none => none
      | some m2 =>
        match hashmap_add_m m2 node.hashval node.key node.value m2.hindex with
        | none => none
        | some (true, m3) => some m3
        | some (false, _) => none

/-- The loop of `grow_bits`: increase `newbits` while the count exceeds 40%
of the would-be capacity. -/
def grow_bits_loop (count : Nat) : Nat → Nat → Nat
  | 0, newbits => newbits
  | fuel+1, newbits =>
    if count > APPROX_40_PERCENT (HASHSIZE newbits) then
      grow_bits_loop count fuel (newbits + 1)
    else newbits

/-- `grow_bits`: smallest width above the current one whose capacity keeps
the count at or below 40%, capped at `HASHMAP_MAX_BITS`. -/
def grow_bits (m : Hashmap) : Nat :=
  let newbits := grow_bits_loop m.count (m.count + 34) ((m.tab m.hindex).hashbits + 1)
  if newbits > HASHMAP_MAX_BITS then HASHMAP_MAX_BITS else newbits

/-- `shrink_bits`: one bit fewer, clamped to `HASHMAP_MIN_BITS`. -/
def shrink_bits (m : Hashmap) : Nat :=
  let newbits := (m.tab m.hindex).hashbits - 1
  if newbits ≤ HASHMAP_MIN_BITS then HASHMAP_MIN_BITS else newbits

/-- `hashmap_create_table`: a zeroed table of `2^bits` slots. -/
def hashmap_create_table (m : Hashmap) (idx : Bool) (bits : Nat) : Hashmap :=
  m.setTab idx ⟨bits, fun _ => none⟩

/-- `hashmap_rehash_start_grow`: when the grown width is larger, allocate
the secondary table and make it active. -/
def hashmap_rehash_start_grow (m : Hashmap) : Hashmap :=
  let oldbits := (m.tab m.hindex).hashbits
  let newbits := grow_bits m
  if newbits > oldbits then
    { hashmap_create_table m (hashmap_nexttable m.hindex) newbits with
      hindex := hashmap_nexttable m.hindex }
  else m

/-- `hashmap_rehash_start_shrink`. -/
def hashmap_rehash_start_shrink (m : Hashmap) : Hashmap :=
  let oldbits := (m.tab m.hindex).hashbits
  let newbits := shrink_bits m
  if newbits < oldbits then
    { hashmap_create_table m (hashmap_nexttable m.hindex) newbits with
      hindex := hashmap_nexttable m.hindex }
  else m

/-- `over_threshold`: the count exceeds 90% of the active capacity; never
true at the maximum width. -/
def over_threshold (m : Hashmap) : Bool :=
  let bits := (m.tab m.hindex).hashbits
  if bits = HASHMAP_MAX_BITS then false
  else m.count > APPROX_90_PERCENT (HASHSIZE bits)

/-- `under_threshold`: the count is below 20% of the active capacity; never
true at the minimum width. -/
def under_threshold (m : Hashmap) : Bool :=
  let bits := (m.tab m.hindex).hashbits
  if bits = HASHMAP_MIN_BITS then false
  else m.count < APPROX_20_PERCENT (HASHSIZE bits)

/-- Result codes surfaced by the map (subset of `isc_result_t`). -/
inductive HmRes where
  | success
  | notFound
  | rexists
  deriving DecidableEq, Repr

/-- `isc_hashmap_add` with `hashvalp == NULL`: one migration step or a grow
start first, then a duplicate check in the source table during rehashing,
then the ordinary insertion into the active table. -/
def isc_hashmap_add (H : List Nat → Nat) (m : Hashmap) (key : List Nat)
    (value : Nat) : Option (HmRes × Hashmap) :=
  if key.length > 65535 then none
  else
    let hashval := H key
    let step1 : Option Hashmap :=
      if rehashing_in_progress m then hashmap_rehash_one m
      else if over_threshold m then hashmap_rehash_one (hashmap_rehash_start_grow m)
      else some m
    match step1 with
    | none => none
    | some m1 =>
      let proceed : Option (HmRes × Hashmap) :=
        match hashmap_add_m m1 hashval key value m1.hindex with
        | none => none
        | some (true, m2) => some (.success, m2)
        | some (false, m2) => some (.rexists, m2)
      if rehashing_in_progress m1 then
        match hashmap_find_table m1.case_sensitive
            (m1.tab (hashmap_nexttable m1.hindex)) hashval key with
        | none => none
        | some (some _) => some (.rexists, m1)
        | some none => proceed
      else proceed

/-- `isc_hashmap_delete` with `hashvalp == NULL`: one migration step or a
shrink start first, then a two-table search and a backward-shift delete. -/
def isc_hashmap_delete (H : List Nat → Nat) (m : Hashmap) (key : List Nat) :
    Option (HmRes × Hashmap) :=
  if key.length > 65535 then none
  else
    let hashval := H key
    let step1 : Option Hashmap :=
      if rehashing_in_progress m then hashmap_rehash_one m
      else if under_threshold m then hashmap_rehash_one (hashmap_rehash_start_shrink m)
      else some m
    match step1 with
    | none => none
    | some m1 =>
      match hashmap_find2 m1 hashval key m1.hindex with
      | none => none
      | some none => some (.notFound, m1)
      | some (some (idx, psl, _)) =>
        let t := m1.tab idx
        let entryPos := (isc_hash_bits32 hashval t.hashbits + psl) % HASHSIZE t.hashbits
        match hashmap_delete_node m1 entryPos hashval psl idx with
        | none => none
        | some m2 => some (.success, m2)

/-- `isc_hashmap_create`: REQUIREs `bits` in `[HASHMAP_MIN_BITS,
HASHMAP_MAX_BITS]`; table 0 is created and active, table 1 absent. -/
def isc_hashmap_create (cs : Bool) (bits : Nat) : Option Hashmap :=
  if HASHMAP_MIN_BITS ≤ bits ∧ bits ≤ HASHMAP_MAX_BITS then
    some { case_sensitive := cs, hindex := false, hiter := 0, count := 0,
           tab0 := ⟨bits, fun _ => none⟩, tab1 := HTable.nullTable }
  else none

/-- `isc_hashmap_count`. -/
def isc_hashmap_count (m : Hashmap) : Nat := m.count

/-- `isc_hashmap_iter_delcurrent_next`, by its effect on the map. An
iterator in contract is positioned on table `idx` — the active table, or
(having advanced through `try_nexttable`) the source table while a rehash
is in progress — at a slot `i` inside that table holding the current node
(`REQUIRE(iter->cur != NULL)`); a position that no in-contract iterator can
hold is `none`. The call deletes the current node with
`hashmap_delete_node(hashmap, node, node->hashval, node->psl, iter->hindex)`
— no threshold check and no migration step — and then only advances the
iterator, which reads the tables without mutating them. -/
def isc_hashmap_iter_delcurrent_next (m : Hashmap) (idx : Bool) (i : Nat) :
    Option Hashmap :=
  if idx == m.hindex || try_nexttable m m.hindex then
    if i < HASHSIZE (m.tab idx).hashbits then
      match (m.tab idx).slots i with
      | some node => hashmap_delete_node m i node.hashval node.psl idx
      | none => none
    else none
  else none

/-- A public mutating operation on the map: add, delete, or delete-current
through an iterator positioned at `(idx, i)`. -/
inductive HmOp where
  | add (key : List Nat) (value : Nat)
  | del (key : List Nat)
  | iterDel (idx : Bool) (i : Nat)

/-- Apply one public operation, keeping only the post-state. -/
def applyOp (H : List Nat → Nat) (m : Hashmap) : HmOp → Option Hashmap
  | .add key value => (isc_hashmap_add H m key value).map Prod.snd
  | .del key => (isc_hashmap_delete H m key).map Prod.snd
  | .iterDel idx i => isc_hashmap_iter_delcurrent_next m idx i

/-- Run a sequence of public operations from a fresh map. -/
def execOps (H : List Nat → Nat) (cs : Bool) (bits : Nat) (ops : List HmOp) :
    Option Hashmap :=
  match isc_hashmap_create cs bits with
  | none => none
  | some m0 => ops.foldlM (applyOp H) m0

end Bind9

namespace Bind9

/-! ### Table-level well-formedness predicates -/

/-- A stored node is well formed: its psl is under the capacity, it sits at
distance `psl` from its home slot, and its key size fits in 16 bits. -/
def goodNode (b p : Nat) (x : HNode) : Prop :=
  x.psl < HASHSIZE b ∧ p = (isc_hash_bits32 x.hashval b + x.psl) % HASHSIZE b ∧
    x.key.length ≤ 65535

/-- All stored nodes are well formed. -/
def slotsGood (b : Nat) (s : Nat → Option HNode) : Prop :=
  ∀ p, p < HASHSIZE b → ∀ x, s p = some x → goodNode b p x

/-- The local Robin Hood link: a slot with a positive psl has an occupied
predecessor whose psl is at most one smaller. -/
def slotsChain (b : Nat) (s : Nat → Option HNode) : Prop :=
  ∀ p, p < HASHSIZE b → ∀ x, s ((p + 1) % HASHSIZE b) = some x → 0 < x.psl →
    ∃ y, s p = some y ∧ x.psl ≤ y.psl + 1

/-- No two distinct slots hold matching keys. -/
def slotsUniq (cs : Bool) (b : Nat) (s : Nat → Option HNode) : Prop :=
  ∀ p, p < HASHSIZE b → ∀ q, q < HASHSIZE b → p ≠ q → ∀ x y,
    s p = some x → s q = some y → hashmap_match cs x y.hashval y.key = false

/-- Full per-table invariant. -/
structure TableWF (cs : Bool) (b : Nat) (s : Nat → Option HNode) : Prop where
  good : slotsGood b s
  chain : slotsChain b s
  uniq : slotsUniq cs b s

/-- The table stores value `v` under a node matching `(hv, k)`. -/
def keyVal (cs : Bool) (b : Nat) (s : Nat → Option HNode) (hv : Nat) (k : List Nat)
    (v : Nat) : Prop :=
  ∃ p, p < HASHSIZE b ∧ ∃ x, s p = some x ∧ hashmap_match cs x hv k = true ∧ x.value = v

/-- No node of the table matches `(hv, k)`. -/
def keyAbsent (cs : Bool) (b : Nat) (s : Nat → Option HNode) (hv : Nat)
    (k : List Nat) : Prop :=
  ∀ p, p < HASHSIZE b → ∀ x, s p = some x → hashmap_match cs x hv k = false

/-! ### Basic facts about matching and positions -/

theorem match_hashval {cs : Bool} {x : HNode} {hv : Nat} {k : List Nat}
    (h : hashmap_match cs x hv k = true) : x.hashval = hv := by
  unfold hashmap_match at h
  simp only [Bool.and_eq_true, beq_iff_eq] at h
  exact h.1.1

theorem match_refl (cs : Bool) (x : HNode) : hashmap_match cs x x.hashval x.key = true := by
  unfold hashmap_match
  cases cs <;> simp [isc_ascii_lowerequal]

theorem match_trans {cs : Bool} {x y : HNode} {hv : Nat} {k : List Nat}
    (hx : hashmap_match cs x hv k = true) (hy : hashmap_match cs y hv k = true) :
    hashmap_match cs x y.hashval y.key = true := by
  cases cs <;>
    simp only [hashmap_match, Bool.and_eq_true, beq_iff_eq, isc_ascii_lowerequal,
      if_true, if_false, Bool.false_eq_true, reduceIte] at hx hy ⊢ <;>
    exact ⟨⟨hx.1.1.trans hy.1.1.symm, hx.1.2.trans hy.1.2.symm⟩, hx.2.trans hy.2.symm⟩

theorem match_symm {cs : Bool} {x y : HNode}
    (h : hashmap_match cs x y.hashval y.key = true) :
    hashmap_match cs y x.hashval x.key = true :=
  match_trans (match_refl cs y) h

theorem hashsize_pos (b : Nat) : 0 < HASHSIZE b := by
  simp [HASHSIZE, Nat.shiftLeft_eq]

theorem hashsize_eq (b : Nat) : HASHSIZE b = 2 ^ b := by
  simp [HASHSIZE, Nat.shiftLeft_eq]

theorem pos_lt (h i b : Nat) : (h + i) % HASHSIZE b < HASHSIZE b :=
  Nat.mod_lt _ (hashsize_pos b)

theorem pos_succ {n : Nat} (h i : Nat) : ((h + i) % n + 1) % n = (h + (i + 1)) % n := by
  rw [Nat.mod_add_mod, Nat.add_assoc]

theorem pos_inj {n : Nat} (h : Nat) {i j : Nat} (hi : i < n) (hj : j < n)
    (he : (h + i) % n = (h + j) % n) : i = j := by
  have : i % n = j % n := Nat.ModEq.add_left_cancel' h he
  rwa [Nat.mod_eq_of_lt hi, Nat.mod_eq_of_lt hj] at this

/-! ### The probe-path lemma -/

theorem probe_path {b : Nat} {s : Nat → Option HNode} (hch : slotsChain b s) (h : Nat) :
    ∀ i d x, s ((h + d) % HASHSIZE b) = some x → d ≤ x.psl → i ≤ d →
      ∃ y, s ((h + (d - i)) % HASHSIZE b) = some y ∧ d - i ≤ y.psl := by
  intro i
  induction i with
  | zero => intro d x hx hpsl _; exact ⟨x, by simpa using hx, by simpa using hpsl⟩
  | succ i ih =>
    intro d x hx hpsl hid
    obtain ⟨y, hy, hypsl⟩ := ih d x hx hpsl (Nat.le_of_succ_le hid)
    have hdi : 1 ≤ d - i := by omega
    have hypos : 0 < y.psl := by omega
    have hsucc : ((h + (d - (i + 1))) % HASHSIZE b + 1) % HASHSIZE b =
        (h + (d - i)) % HASHSIZE b := by
      rw [pos_succ]
      congr 2
      omega
    obtain ⟨z, hz, hzpsl⟩ := hch ((h + (d - (i + 1))) % HASHSIZE b)
      (pos_lt _ _ _) y (by rw [hsucc]; exact hy) hypos
    exact ⟨z, hz, by omega⟩

/-- Along the probe path of any present key, every earlier slot is occupied
with a psl at least the probe distance. -/
theorem probe_occupied {cs : Bool} {b : Nat} {s : Nat → Option HNode}
    (hg : slotsGood b s) (hch : slotsChain b s) {hv : Nat} {k : List Nat}
    {p : Nat} {x : HNode} (hp : p < HASHSIZE b) (hx : s p = some x)
    (hm : hashmap_match cs x hv k = true) :
    ∀ j ≤ x.psl, ∃ y, s ((isc_hash_bits32 hv b + j) % HASHSIZE b) = some y ∧ j ≤ y.psl := by
  intro j hj
  obtain ⟨-, hpos, -⟩ := hg p hp x hx
  have hhv : x.hashval = hv := match_hashval hm
  have hx' : s ((isc_hash_bits32 hv b + x.psl) % HASHSIZE b) = some x := by
    rw [← hhv, ← hpos]; exact hx
  have := probe_path hch (isc_hash_bits32 hv b) (x.psl - j) x.psl x hx' le_rfl (by omega)
  simpa [Nat.sub_sub_self hj] using this

end Bind9

namespace Bind9

/-! ### Characterization of the find loop -/

theorem find_loop_succ (cs : Bool) (t : HTable) (hv : Nat) (k : List Nat)
    (h fuel psl : Nat) :
    hashmap_find_loop cs t hv k h (fuel + 1) psl =
      match t.slots ((h + psl) % HASHSIZE t.hashbits) with
      | none => some none
      | some node =>
        if psl > node.psl then some none
        else if hashmap_match cs node hv k then some (some (psl, node))
        else hashmap_find_loop cs t hv k h fuel (psl + 1) := rfl

theorem find_loop_succ_none {cs : Bool} {t : HTable} {hv : Nat} {k : List Nat}
    {h psl : Nat} (fuel : Nat)
    (hs : t.slots ((h + psl) % HASHSIZE t.hashbits) = none) :
    hashmap_find_loop cs t hv k h (fuel + 1) psl = some none := by
  rw [find_loop_succ, hs]

theorem find_loop_succ_some {cs : Bool} {t : HTable} {hv : Nat} {k : List Nat}
    {h psl : Nat} {node : HNode} (fuel : Nat)
    (hs : t.slots ((h + psl) % HASHSIZE t.hashbits) = some node) :
    hashmap_find_loop cs t hv k h (fuel + 1) psl =
      if psl > node.psl then some none
      else if hashmap_match cs node hv k then some (some (psl, node))
      else hashmap_find_loop cs t hv k h fuel (psl + 1) := by
  rw [find_loop_succ, hs]

theorem find_loop_absent {cs : Bool} {t : HTable} {hv : Nat} {k : List Nat}
    (hg : slotsGood t.hashbits t.slots)
    (habs : keyAbsent cs t.hashbits t.slots hv k) (h : Nat) :
    ∀ fuel psl, psl ≤ HASHSIZE t.hashbits →
      HASHSIZE t.hashbits + 1 ≤ psl + fuel →
      hashmap_find_loop cs t hv k h fuel psl = some none := by
  intro fuel
  induction fuel with
  | zero => intro psl h1 h2; omega
  | succ fuel ih =>
    intro psl h1 h2
    cases hs : t.slots ((h + psl) % HASHSIZE t.hashbits) with
    | none => exact find_loop_succ_none fuel hs
    | some x =>
      rw [find_loop_succ_some fuel hs]
      have hm := habs _ (pos_lt _ _ _) x hs
      have hxp := (hg _ (pos_lt _ _ _) x hs).1
      by_cases hlt : psl > x.psl
      · simp [hlt]
      · rw [if_neg hlt, hm]
        simp only [Bool.false_eq_true, if_false]
        exact ih (psl + 1) (by omega) (by omega)

theorem find_loop_found {cs : Bool} {t : HTable} {hv : Nat} {k : List Nat}
    {p : Nat} {x : HNode} (hw : TableWF cs t.hashbits t.slots)
    (hp : p < HASHSIZE t.hashbits) (hx : t.slots p = some x)
    (hm : hashmap_match cs x hv k = true) :
    ∀ fuel psl, psl ≤ x.psl → x.psl + 1 ≤ psl + fuel →
      hashmap_find_loop cs t hv k (isc_hash_bits32 hv t.hashbits) fuel psl =
        some (some (x.psl, x)) := by
  have hhv : x.hashval = hv := match_hashval hm
  have hposx : p = (isc_hash_bits32 hv t.hashbits + x.psl) % HASHSIZE t.hashbits := by
    have := (hw.good p hp x hx).2.1
    rwa [hhv] at this
  have hxpsl : x.psl < HASHSIZE t.hashbits := (hw.good p hp x hx).1
  intro fuel
  induction fuel with
  | zero => intro psl h1 h2; omega
  | succ fuel ih =>
    intro psl h1 h2
    obtain ⟨y, hy, hypsl⟩ := probe_occupied hw.good hw.chain hp hx hm psl h1
    rw [find_loop_succ_some fuel hy]
    have hnlt : ¬ psl > y.psl := by omega
    rw [if_neg hnlt]
    by_cases heq : psl = x.psl
    · subst heq
      have : y = x := by
        rw [← hposx] at hy
        rw [hy] at hx
        exact (Option.some.injEq _ _).mp hx
      subst this
      rw [if_pos hm]
    · have hpsllt : psl < x.psl := by omega
      have hmf : hashmap_match cs y hv k = false := by
        by_contra hc
        have hmy : hashmap_match cs y hv k = true := by
          revert hc; cases hashmap_match cs y hv k <;> simp
        have hne : ((isc_hash_bits32 hv t.hashbits + psl) % HASHSIZE t.hashbits) ≠ p := by
          rw [hposx]
          intro hcontra
          exact heq (pos_inj _ (by omega) hxpsl hcontra)
        have := hw.uniq _ (pos_lt _ _ _) p hp hne y x hy hx
        rw [match_trans hmy hm] at this
        exact Bool.noConfusion this
      rw [hmf]
      simp only [Bool.false_eq_true, if_false]
      exact ih (psl + 1) (by omega) (by omega)

theorem find_table_eq_none {cs : Bool} {t : HTable} {hv : Nat} {k : List Nat}
    (hg : slotsGood t.hashbits t.slots)
    (habs : keyAbsent cs t.hashbits t.slots hv k) :
    hashmap_find_table cs t hv k = some none :=
  find_loop_absent hg habs _ _ 0 (by omega) (by omega)

theorem find_table_eq_found {cs : Bool} {t : HTable} {hv : Nat} {k : List Nat}
    {p : Nat} {x : HNode} (hw : TableWF cs t.hashbits t.slots)
    (hp : p < HASHSIZE t.hashbits) (hx : t.slots p = some x)
    (hm : hashmap_match cs x hv k = true) :
    hashmap_find_table cs t hv k = some (some (x.psl, x)) := by
  have hxpsl : x.psl < HASHSIZE t.hashbits := (hw.good p hp x hx).1
  exact find_loop_found hw hp hx hm _ 0 (by omega) (by omega)

end Bind9

namespace Bind9

/-! ### Occupancy counting -/

/-- Number of occupied slots among the first `n`. -/
def occT (n : Nat) (s : Nat → Option HNode) : Nat :=
  ((Finset.range n).filter (fun p => (s p).isSome)).card

theorem occT_congr {n : Nat} {s s' : Nat → Option HNode}
    (h : ∀ p, p < n → (s p).isSome = (s' p).isSome) : occT n s = occT n s' := by
  unfold occT
  congr 1
  apply Finset.filter_congr
  intro p hp
  simp only [Finset.mem_range] at hp
  rw [h p hp]

theorem occT_le (n : Nat) (s : Nat → Option HNode) : occT n s ≤ n := by
  calc occT n s ≤ (Finset.range n).card := Finset.card_filter_le _ _
  _ = n := Finset.card_range n

theorem occT_zero {n : Nat} {s : Nat → Option HNode}
    (h : ∀ p, p < n → s p = none) : occT n s = 0 := by
  unfold occT
  rw [Finset.card_eq_zero, Finset.filter_eq_empty_iff]
  intro p hp
  simp only [Finset.mem_range] at hp
  rw [h p hp]
  simp

theorem occT_add_one {n pe : Nat} {s s' : Nat → Option HNode} (hpe : pe < n)
    (hempty : s pe = none) (hsame : ∀ p, p ≠ pe → (s' p).isSome = (s p).isSome)
    (hfill : (s' pe).isSome = true) : occT n s' = occT n s + 1 := by
  unfold occT
  have hset : (Finset.range n).filter (fun p => (s' p).isSome) =
      insert pe ((Finset.range n).filter (fun p => (s p).isSome)) := by
    ext q
    simp only [Finset.mem_filter, Finset.mem_range, Finset.mem_insert]
    constructor
    · intro ⟨hq, hq2⟩
      by_cases hqe : q = pe
      · exact Or.inl hqe
      · exact Or.inr ⟨hq, by rw [← hsame q hqe]; exact hq2⟩
    · intro hq
      rcases hq with hq | ⟨hq1, hq2⟩
      · subst hq; exact ⟨hpe, hfill⟩
      · refine ⟨hq1, ?_⟩
        have hqe : q ≠ pe := by
          intro hcon; subst hcon; rw [hempty] at hq2; simp at hq2
        rw [hsame q hqe]; exact hq2
  rw [hset, Finset.card_insert_of_not_mem]
  simp only [Finset.mem_filter, Finset.mem_range, not_and]
  intro _
  rw [hempty]
  simp

theorem occT_sub_one {n pe : Nat} {s s' : Nat → Option HNode} (hpe : pe < n)
    (hfull : (s pe).isSome = true) (hsame : ∀ p, p ≠ pe → (s' p).isSome = (s p).isSome)
    (hclear : s' pe = none) : occT n s = occT n s' + 1 :=
  occT_add_one hpe hclear (fun p hp => (hsame p hp).symm) hfull

theorem occT_lt_exists_empty {n : Nat} {s : Nat → Option HNode}
    (h : occT n s < n) : ∃ p, p < n ∧ s p = none := by
  by_contra hc
  push_neg at hc
  have : ∀ p ∈ Finset.range n, (s p).isSome := by
    intro p hp
    simp only [Finset.mem_range] at hp
    have := hc p hp
    cases hs : s p
    · exact absurd hs this
    · simp
  have : (Finset.range n).filter (fun p => (s p).isSome) = Finset.range n :=
    Finset.filter_eq_self.mpr (by intro p hp; simp [this p hp])
  unfold occT at h
  rw [this, Finset.card_range] at h
  exact lt_irrefl n h

/-! ### Existence of a first empty slot on the probe path -/

theorem exists_dist {n : Nat} (hn : 0 < n) (h p : Nat) (hp : p < n) :
    ∃ i, i < n ∧ (h + i) % n = p := by
  have hdm := Nat.div_add_mod h n
  have hmod : h % n < n := Nat.mod_lt _ hn
  by_cases hle : h % n ≤ p
  · refine ⟨p - h % n, by omega, ?_⟩
    have : h + (p - h % n) = n * (h / n) + p := by omega
    rw [this, Nat.mul_add_mod]
    exact Nat.mod_eq_of_lt hp
  · refine ⟨p + n - h % n, by omega, ?_⟩
    have h2 : h + (p + n - h % n) = n * (h / n) + (n + p) := by omega
    rw [h2, Nat.mul_add_mod, Nat.add_mod_left]
    exact Nat.mod_eq_of_lt hp

theorem exists_first_empty {b : Nat} {s : Nat → Option HNode} (h : Nat)
    (hne : ∃ p, p < HASHSIZE b ∧ s p = none) :
    ∃ e, e < HASHSIZE b ∧ s ((h + e) % HASHSIZE b) = none ∧
      ∀ i, i < e → (s ((h + i) % HASHSIZE b)).isSome := by
  obtain ⟨p, hp, hnone⟩ := hne
  obtain ⟨i0, hi0, heq⟩ := exists_dist (hashsize_pos b) h p hp
  have hex : ∃ i, s ((h + i) % HASHSIZE b) = none := ⟨i0, by rw [heq]; exact hnone⟩
  classical
  refine ⟨Nat.find hex, ?_, Nat.find_spec hex, ?_⟩
  · exact lt_of_le_of_lt (Nat.find_min' hex (by rw [heq]; exact hnone)) hi0
  · intro i hi
    have := Nat.find_min hex hi
    cases hs : s ((h + i) % HASHSIZE b)
    · exact absurd hs this
    · simp

end Bind9

namespace Bind9

/-! ### Small helpers for slot updates and neighbouring positions -/

theorem updSlot_eq (s : Nat → Option HNode) (p : Nat) (v : Option HNode) :
    updSlot s p v p = v := by simp [updSlot]

theorem updSlot_ne (s : Nat → Option HNode) (p : Nat) (v : Option HNode) {q : Nat}
    (h : q ≠ p) : updSlot s p v q = s q := by simp [updSlot, h]

theorem succ_mod_inj {n p q : Nat} (hp : p < n) (hq : q < n)
    (h : (p + 1) % n = (q + 1) % n) : p = q := by
  have hp1 : p + 1 = n ∨ p + 1 < n := by omega
  have hq1 : q + 1 = n ∨ q + 1 < n := by omega
  rcases hp1 with hp1 | hp1 <;> rcases hq1 with hq1 | hq1
  · omega
  · rw [hp1, Nat.mod_self, Nat.mod_eq_of_lt hq1] at h; omega
  · rw [hq1, Nat.mod_self, Nat.mod_eq_of_lt hp1] at h; omega
  · rw [Nat.mod_eq_of_lt hp1, Nat.mod_eq_of_lt hq1] at h; omega

theorem pos_pred_succ {n : Nat} (h i : Nat) (hi : 1 ≤ i) :
    ((h + (i - 1)) % n + 1) % n = (h + i) % n := by
  rw [pos_succ]
  congr 2
  omega

theorem match_false_symm {cs : Bool} {x y : HNode}
    (h : hashmap_match cs x y.hashval y.key = false) :
    hashmap_match cs y x.hashval x.key = false := by
  cases hm : hashmap_match cs y x.hashval x.key
  · rfl
  · rw [match_symm hm] at h; exact Bool.noConfusion h

/-! ### Characterization of the insertion loop -/

theorem add_loop_succ (cs : Bool) (n hv : Nat) (k : List Nat) (h fuel psl : Nat)
    (node : HNode) (slots : Nat → Option HNode) :
    hashmap_add_loop cs n hv k h (fuel + 1) psl node slots =
      match slots ((h + psl) % n) with
      | none => some (true, updSlot slots ((h + psl) % n) (some node))
      | some current =>
        if hashmap_match cs current hv k then some (false, slots)
        else
          hashmap_add_loop cs n hv k h fuel (psl + 1)
            { (if node.psl > current.psl then current else node) with
              psl := (if node.psl > current.psl then current else node).psl + 1 }
            (if node.psl > current.psl then updSlot slots ((h + psl) % n) (some node)
             else slots) := rfl

theorem add_loop_succ_none {cs : Bool} {n hv : Nat} {k : List Nat} {h psl : Nat}
    {node : HNode} {slots : Nat → Option HNode} (fuel : Nat)
    (hs : slots ((h + psl) % n) = none) :
    hashmap_add_loop cs n hv k h (fuel + 1) psl node slots =
      some (true, updSlot slots ((h + psl) % n) (some node)) := by
  rw [add_loop_succ, hs]

theorem add_loop_succ_some {cs : Bool} {n hv : Nat} {k : List Nat} {h psl : Nat}
    {node current : HNode} {slots : Nat → Option HNode} (fuel : Nat)
    (hs : slots ((h + psl) % n) = some current) :
    hashmap_add_loop cs n hv k h (fuel + 1) psl node slots =
      if hashmap_match cs current hv k then some (false, slots)
      else
        hashmap_add_loop cs n hv k h fuel (psl + 1)
          { (if node.psl > current.psl then current else node) with
            psl := (if node.psl > current.psl then current else node).psl + 1 }
          (if node.psl > current.psl then updSlot slots ((h + psl) % n) (some node)
           else slots) := by
  rw [add_loop_succ, hs]

theorem add_loop_found {cs : Bool} {b hv : Nat} {k : List Nat} {p : Nat} {x : HNode}
    {s : Nat → Option HNode} (hw : TableWF cs b s) (hp : p < HASHSIZE b)
    (hx : s p = some x) (hm : hashmap_match cs x hv k = true) :
    ∀ fuel psl node, node.psl = psl → psl ≤ x.psl → x.psl + 1 ≤ psl + fuel →
      hashmap_add_loop cs (HASHSIZE b) hv k (isc_hash_bits32 hv b) fuel psl node s =
        some (false, s) := by
  have hhv : x.hashval = hv := match_hashval hm
  have hposx : p = (isc_hash_bits32 hv b + x.psl) % HASHSIZE b := by
    have := (hw.good p hp x hx).2.1
    rwa [hhv] at this
  have hxpsl : x.psl < HASHSIZE b := (hw.good p hp x hx).1
  intro fuel
  induction fuel with
  | zero => intro psl node h0 h1 h2; omega
  | succ fuel ih =>
    intro psl node h0 h1 h2
    obtain ⟨y, hy, hypsl⟩ := probe_occupied hw.good hw.chain hp hx hm psl h1
    rw [add_loop_succ_some fuel hy]
    by_cases heq : psl = x.psl
    · subst heq
      have hyx : y = x := by
        rw [← hposx] at hy
        rw [hy] at hx
        exact (Option.some.injEq _ _).mp hx
      subst hyx
      rw [if_pos hm]
    · have hmf : hashmap_match cs y hv k = false := by
        by_contra hc
        have hmy : hashmap_match cs y hv k = true := by
          revert hc; cases hashmap_match cs y hv k <;> simp
        have hne : ((isc_hash_bits32 hv b + psl) % HASHSIZE b) ≠ p := by
          rw [hposx]
          intro hcontra
          exact heq (pos_inj _ (by omega) hxpsl hcontra)
        have := hw.uniq _ (pos_lt _ _ _) p hp hne y x hy hx
        rw [match_trans hmy hm] at this
        exact Bool.noConfusion this
      rw [hmf]
      simp only [Bool.false_eq_true, if_false]
      have hnsw : ¬ node.psl > y.psl := by omega
      rw [if_neg hnsw, if_neg hnsw]
      exact ih (psl + 1) _ (by simp [h0]) (by omega) (by omega)

end Bind9

namespace Bind9

theorem match_psl_irrel (cs : Bool) (x : HNode) (hv p' : Nat) (k : List Nat) :
    hashmap_match cs { x with psl := p' } hv k = hashmap_match cs x hv k := rfl

/-- Loop invariant of the displacement insertion (`hashmap_add`): position
`j` on the probe path from `h`, candidate `c`, current slots `s`, first
empty slot of the original `s0` at probe distance `e`. -/
structure AddLoopInv (cs : Bool) (b hv : Nat) (k : List Nat) (v h : Nat)
    (s0 : Nat → Option HNode) (e j : Nat) (c : HNode)
    (s : Nat → Option HNode) : Prop where
  jle : j ≤ e
  good : slotsGood b s
  chain : slotsChain b s
  uniqS : slotsUniq cs b s
  cpos : (h + j) % HASHSIZE b = (isc_hash_bits32 c.hashval b + c.psl) % HASHSIZE b
  cpsl : c.psl ≤ j
  clen : c.key.length ≤ 65535
  clink : 0 < c.psl → ∃ y, s ((h + (j - 1)) % HASHSIZE b) = some y ∧ c.psl ≤ y.psl + 1
  ahead : ∀ i, j ≤ i → i ≤ e → s ((h + i) % HASHSIZE b) = s0 ((h + i) % HASHSIZE b)
  occup : ∀ p, (s p).isSome = (s0 p).isSome
  cuniq : ∀ p, p < HASHSIZE b → ∀ x, s p = some x →
    hashmap_match cs x c.hashval c.key = false
  content : ∀ hv' k' v', (keyVal cs b s hv' k' v' ∨
      (hashmap_match cs c hv' k' = true ∧ c.value = v')) ↔
    (keyVal cs b s0 hv' k' v' ∨
      (hashmap_match cs (⟨k, v, hv, 0⟩ : HNode) hv' k' = true ∧ v' = v))

theorem addinv_step_noswap {cs : Bool} {b hv : Nat} {k : List Nat} {v h : Nat}
    {s0 : Nat → Option HNode} {e j : Nat} {c current : HNode} {s : Nat → Option HNode}
    (inv : AddLoopInv cs b hv k v h s0 e j c s)
    (hcur : s ((h + j) % HASHSIZE b) = some current)
    (hje : j < e)
    (hnsw : ¬ c.psl > current.psl) :
    AddLoopInv cs b hv k v h s0 e (j + 1) { c with psl := c.psl + 1 } s := by
  have hcpsl := inv.cpsl
  refine
    { jle := by omega
      good := inv.good
      chain := inv.chain
      uniqS := inv.uniqS
      cpos := ?_
      cpsl := by show c.psl + 1 ≤ j + 1; omega
      clen := inv.clen
      clink := ?_
      ahead := fun i hi1 hi2 => inv.ahead i (by omega) hi2
      occup := inv.occup
      cuniq := fun p hp x hx => inv.cuniq p hp x hx
      content := ?_ }
  · have h2 := congrArg (fun z => (z + 1) % HASHSIZE b) inv.cpos
    simp only [] at h2
    rw [pos_succ, pos_succ] at h2
    exact h2
  · intro _
    refine ⟨current, ?_, ?_⟩
    · have hj : j + 1 - 1 = j := rfl
      rw [hj]
      exact hcur
    · show c.psl + 1 ≤ current.psl + 1
      omega
  · intro hv' k' v'
    rw [match_psl_irrel]
    exact inv.content hv' k' v'

theorem addinv_step_swap {cs : Bool} {b hv : Nat} {k : List Nat} {v h : Nat}
    {s0 : Nat → Option HNode} {e j : Nat} {c current : HNode} {s : Nat → Option HNode}
    (inv : AddLoopInv cs b hv k v h s0 e j c s)
    (hcur : s ((h + j) % HASHSIZE b) = some current)
    (hje : j < e) (he : e < HASHSIZE b)
    (hsw : c.psl > current.psl) :
    AddLoopInv cs b hv k v h s0 e (j + 1) { current with psl := current.psl + 1 }
      (updSlot s ((h + j) % HASHSIZE b) (some c)) := by
  have hn := hashsize_pos b
  have hposlt : (h + j) % HASHSIZE b < HASHSIZE b := pos_lt _ _ _
  have hgcur := inv.good _ hposlt current hcur
  have hcpsl := inv.cpsl
  refine
    { jle := by omega
      good := ?_
      chain := ?_
      uniqS := ?_
      cpos := ?_
      cpsl := by show current.psl + 1 ≤ j + 1; omega
      clen := hgcur.2.2
      clink := ?_
      ahead := ?_
      occup := ?_
      cuniq := ?_
      content := ?_ }
  · -- good
    intro p hp x hx
    by_cases hpe : p = (h + j) % HASHSIZE b
    · subst hpe
      rw [updSlot_eq] at hx
      cases hx
      exact ⟨by omega, by rw [← inv.cpos], inv.clen⟩
    · rw [updSlot_ne _ _ _ hpe] at hx
      exact inv.good p hp x hx
  · -- chain
    intro p hp z hz hzpsl
    by_cases hA : (p + 1) % HASHSIZE b = (h + j) % HASHSIZE b
    · rw [hA, updSlot_eq] at hz
      cases hz
      by_cases hpe : p = (h + j) % HASHSIZE b
      · subst hpe
        exact ⟨c, by rw [updSlot_eq], by omega⟩
      · have hj1 : 1 ≤ j := by
          have : 0 < c.psl := hzpsl
          omega
        have hpeq : p = (h + (j - 1)) % HASHSIZE b := by
          apply succ_mod_inj hp (pos_lt _ _ _)
          rw [hA, pos_pred_succ _ _ hj1]
        obtain ⟨y, hy, hyp⟩ := inv.clink hzpsl
        refine ⟨y, ?_, hyp⟩
        rw [hpeq, updSlot_ne]
        · exact hy
        · rw [← hpeq]; exact hpe
    · rw [updSlot_ne _ _ _ hA] at hz
      obtain ⟨y, hy, hyp⟩ := inv.chain p hp z hz hzpsl
      by_cases hpe : p = (h + j) % HASHSIZE b
      · refine ⟨c, ?_, ?_⟩
        · rw [hpe, updSlot_eq]
        · rw [hpe] at hy
          rw [hcur] at hy
          cases hy
          omega
      · exact ⟨y, by rw [updSlot_ne _ _ _ hpe]; exact hy, hyp⟩
  · -- uniq
    intro p hp q hq hpq x y hx hy
    by_cases hpe : p = (h + j) % HASHSIZE b
    · subst hpe
      rw [updSlot_eq] at hx
      cases hx
      have hqe : q ≠ (h + j) % HASHSIZE b := Ne.symm hpq
      rw [updSlot_ne _ _ _ hqe] at hy
      exact match_false_symm (inv.cuniq q hq y hy)
    · rw [updSlot_ne _ _ _ hpe] at hx
      by_cases hqe : q = (h + j) % HASHSIZE b
      · subst hqe
        rw [updSlot_eq] at hy
        cases hy
        exact inv.cuniq p hp x hx
      · rw [updSlot_ne _ _ _ hqe] at hy
        exact inv.uniqS p hp q hq hpq x y hx hy
  · -- cpos
    have h2 := congrArg (fun z => (z + 1) % HASHSIZE b) hgcur.2.1
    simp only [] at h2
    rw [pos_succ, pos_succ] at h2
    exact h2
  · -- clink
    intro _
    refine ⟨c, ?_, ?_⟩
    · have hj : j + 1 - 1 = j := rfl
      rw [hj, updSlot_eq]
    · show current.psl + 1 ≤ c.psl + 1
      omega
  · -- ahead
    intro i hi1 hi2
    have hne : (h + i) % HASHSIZE b ≠ (h + j) % HASHSIZE b := by
      intro hc
      have := pos_inj h (lt_of_le_of_lt hi2 he) (lt_trans hje he) hc
      omega
    rw [updSlot_ne _ _ _ hne]
    exact inv.ahead i (by omega) hi2
  · -- occup
    intro p
    by_cases hpe : p = (h + j) % HASHSIZE b
    · subst hpe
      rw [updSlot_eq, ← inv.occup, hcur]
      rfl
    · rw [updSlot_ne _ _ _ hpe]
      exact inv.occup p
  · -- cuniq
    intro p hp x hx
    show hashmap_match cs x current.hashval current.key = false
    by_cases hpe : p = (h + j) % HASHSIZE b
    · subst hpe
      rw [updSlot_eq] at hx
      cases hx
      exact match_false_symm (inv.cuniq _ hposlt current hcur)
    · rw [updSlot_ne _ _ _ hpe] at hx
      exact inv.uniqS p hp _ hposlt hpe x current hx hcur
  · -- content
    intro hv' k' v'
    rw [← inv.content hv' k' v']
    rw [match_psl_irrel]
    show (keyVal cs b (updSlot s ((h + j) % HASHSIZE b) (some c)) hv' k' v' ∨
        (hashmap_match cs current hv' k' = true ∧ current.value = v')) ↔ _
    constructor
    · rintro (⟨p, hp, x, hx, hmx, hvx⟩ | ⟨hmc, hvc⟩)
      · by_cases hpe : p = (h + j) % HASHSIZE b
        · subst hpe
          rw [updSlot_eq] at hx
          cases hx
          exact Or.inr ⟨hmx, hvx⟩
        · rw [updSlot_ne _ _ _ hpe] at hx
          exact Or.inl ⟨p, hp, x, hx, hmx, hvx⟩
      · exact Or.inl ⟨_, hposlt, current, hcur, hmc, hvc⟩
    · rintro (⟨p, hp, x, hx, hmx, hvx⟩ | ⟨hmc, hvc⟩)
      · by_cases hpe : p = (h + j) % HASHSIZE b
        · subst hpe
          rw [hcur] at hx
          cases hx
          exact Or.inr ⟨hmx, hvx⟩
        · exact Or.inl ⟨p, hp, x, by rw [updSlot_ne _ _ _ hpe]; exact hx, hmx, hvx⟩
      · exact Or.inl ⟨_, hposlt, c, by rw [updSlot_eq], hmc, hvc⟩

end Bind9

namespace Bind9

theorem addinv_deposit {cs : Bool} {b hv : Nat} {k : List Nat} {v h : Nat}
    {s0 : Nat → Option HNode} {e : Nat} {c : HNode} {s : Nat → Option HNode}
    (inv : AddLoopInv cs b hv k v h s0 e e c s) (he : e < HASHSIZE b)
    (hse : s ((h + e) % HASHSIZE b) = none) :
    TableWF cs b (updSlot s ((h + e) % HASHSIZE b) (some c)) ∧
    (∀ hv' k' v', keyVal cs b (updSlot s ((h + e) % HASHSIZE b) (some c)) hv' k' v' ↔
      (keyVal cs b s0 hv' k' v' ∨
        (hashmap_match cs (⟨k, v, hv, 0⟩ : HNode) hv' k' = true ∧ v' = v))) ∧
    (∀ p, p ≠ (h + e) % HASHSIZE b →
      ((updSlot s ((h + e) % HASHSIZE b) (some c)) p).isSome = (s0 p).isSome) ∧
    ((updSlot s ((h + e) % HASHSIZE b) (some c)) ((h + e) % HASHSIZE b)).isSome = true ∧
    s0 ((h + e) % HASHSIZE b) = none := by
  have hn := hashsize_pos b
  have hposlt : (h + e) % HASHSIZE b < HASHSIZE b := pos_lt _ _ _
  have hcpsl := inv.cpsl
  have hs0e : s0 ((h + e) % HASHSIZE b) = none := by
    have := inv.occup ((h + e) % HASHSIZE b)
    rw [hse] at this
    cases hs0 : s0 ((h + e) % HASHSIZE b)
    · rfl
    · rw [hs0] at this; exact Bool.noConfusion this
  refine ⟨⟨?_, ?_, ?_⟩, ?_, ?_, by rw [updSlot_eq]; rfl, hs0e⟩
  · -- good
    intro p hp x hx
    by_cases hpe : p = (h + e) % HASHSIZE b
    · subst hpe
      rw [updSlot_eq] at hx
      cases hx
      exact ⟨by omega, by rw [← inv.cpos], inv.clen⟩
    · rw [updSlot_ne _ _ _ hpe] at hx
      exact inv.good p hp x hx
  · -- chain
    intro p hp z hz hzpsl
    by_cases hA : (p + 1) % HASHSIZE b = (h + e) % HASHSIZE b
    · rw [hA, updSlot_eq] at hz
      cases hz
      by_cases hpe : p = (h + e) % HASHSIZE b
      · subst hpe
        exact ⟨c, by rw [updSlot_eq], by omega⟩
      · have hj1 : 1 ≤ e := by
          have : 0 < c.psl := hzpsl
          omega
        have hpeq : p = (h + (e - 1)) % HASHSIZE b := by
          apply succ_mod_inj hp (pos_lt _ _ _)
          rw [hA, pos_pred_succ _ _ hj1]
        obtain ⟨y, hy, hyp⟩ := inv.clink hzpsl
        refine ⟨y, ?_, hyp⟩
        rw [hpeq, updSlot_ne]
        · exact hy
        · rw [← hpeq]; exact hpe
    · rw [updSlot_ne _ _ _ hA] at hz
      obtain ⟨y, hy, hyp⟩ := inv.chain p hp z hz hzpsl
      by_cases hpe : p = (h + e) % HASHSIZE b
      · rw [hpe, hse] at hy
        exact Option.noConfusion hy
      · exact ⟨y, by rw [updSlot_ne _ _ _ hpe]; exact hy, hyp⟩
  · -- uniq
    intro p hp q hq hpq x y hx hy
    by_cases hpe : p = (h + e) % HASHSIZE b
    · subst hpe
      rw [updSlot_eq] at hx
      cases hx
      have hqe : q ≠ (h + e) % HASHSIZE b := Ne.symm hpq
      rw [updSlot_ne _ _ _ hqe] at hy
      exact match_false_symm (inv.cuniq q hq y hy)
    · rw [updSlot_ne _ _ _ hpe] at hx
      by_cases hqe : q = (h + e) % HASHSIZE b
      · subst hqe
        rw [updSlot_eq] at hy
        cases hy
        exact inv.cuniq p hp x hx
      · rw [updSlot_ne _ _ _ hqe] at hy
        exact inv.uniqS p hp q hq hpq x y hx hy
  · -- content
    intro hv' k' v'
    rw [← inv.content hv' k' v']
    constructor
    · rintro ⟨p, hp, x, hx, hmx, hvx⟩
      by_cases hpe : p = (h + e) % HASHSIZE b
      · subst hpe
        rw [updSlot_eq] at hx
        cases hx
        exact Or.inr ⟨hmx, hvx⟩
      · rw [updSlot_ne _ _ _ hpe] at hx
        exact Or.inl ⟨p, hp, x, hx, hmx, hvx⟩
    · rintro (⟨p, hp, x, hx, hmx, hvx⟩ | ⟨hmc, hvc⟩)
      · by_cases hpe : p = (h + e) % HASHSIZE b
        · subst hpe
          rw [hse] at hx
          exact Option.noConfusion hx
        · exact ⟨p, hp, x, by rw [updSlot_ne _ _ _ hpe]; exact hx, hmx, hvx⟩
      · exact ⟨_, hposlt, c, by rw [updSlot_eq], hmc, hvc⟩
  · -- occupancy off the filled slot
    intro p hpe
    rw [updSlot_ne _ _ _ hpe]
    exact inv.occup p

theorem add_loop_insert {cs : Bool} {b hv : Nat} {k : List Nat} {v h : Nat}
    {s0 : Nat → Option HNode} {e : Nat}
    (he : e < HASHSIZE b)
    (hse : s0 ((h + e) % HASHSIZE b) = none)
    (hocc : ∀ i, i < e → (s0 ((h + i) % HASHSIZE b)).isSome = true)
    (habs : keyAbsent cs b s0 hv k) :
    ∀ fuel j c s, AddLoopInv cs b hv k v h s0 e j c s → e + 1 ≤ j + fuel →
      ∃ s', hashmap_add_loop cs (HASHSIZE b) hv k h fuel j c s = some (true, s') ∧
        TableWF cs b s' ∧
        (∀ hv' k' v', keyVal cs b s' hv' k' v' ↔
          (keyVal cs b s0 hv' k' v' ∨
            (hashmap_match cs (⟨k, v, hv, 0⟩ : HNode) hv' k' = true ∧ v' = v))) ∧
        (∀ p, p ≠ (h + e) % HASHSIZE b → (s' p).isSome = (s0 p).isSome) ∧
        (s' ((h + e) % HASHSIZE b)).isSome = true ∧
        s0 ((h + e) % HASHSIZE b) = none := by
  intro fuel
  induction fuel with
  | zero =>
    intro j c s inv hfuel
    have := inv.jle
    omega
  | succ fuel ih =>
    intro j c s inv hfuel
    cases hs : s ((h + j) % HASHSIZE b) with
    | none =>
      have hje : j = e := by
        by_contra hne
        have hjlt : j < e := lt_of_le_of_ne inv.jle hne
        have h1 := inv.ahead j le_rfl (le_of_lt hjlt)
        have h2 := hocc j hjlt
        rw [← h1, hs] at h2
        exact Bool.noConfusion h2
      subst hje
      obtain ⟨hwf, hcont, hoff, hfill, hs0e⟩ := addinv_deposit inv he hs
      exact ⟨_, add_loop_succ_none fuel hs, hwf, hcont, hoff, hfill, hs0e⟩
    | some current =>
      have hje : j < e := by
        rcases lt_or_eq_of_le inv.jle with h1 | h1
        · exact h1
        · subst h1
          have := inv.ahead j le_rfl le_rfl
          rw [hs, hse] at this
          exact Option.noConfusion this
      have hmf : hashmap_match cs current hv k = false := by
        have h1 := inv.ahead j le_rfl (le_of_lt hje)
        rw [hs] at h1
        exact habs _ (pos_lt _ _ _) current h1.symm
      rw [add_loop_succ_some fuel hs, hmf]
      simp only [Bool.false_eq_true, if_false]
      by_cases hsw : c.psl > current.psl
      · rw [if_pos hsw, if_pos hsw]
        exact ih (j + 1) _ _ (addinv_step_swap inv hs hje he hsw) (by omega)
      · rw [if_neg hsw, if_neg hsw]
        exact ih (j + 1) _ _ (addinv_step_noswap inv hs hje hsw) (by omega)

end Bind9

namespace Bind9

theorem add_m_eq (M : Hashmap) (idx : Bool) (hv : Nat) (k : List Nat) (v : Nat)
    (h : ¬ k.length > 65535) :
    hashmap_add_m M hv k v idx =
      match hashmap_add_loop M.case_sensitive (HASHSIZE (M.tab idx).hashbits) hv k
          (isc_hash_bits32 hv (M.tab idx).hashbits) (HASHSIZE (M.tab idx).hashbits + 2) 0
          ⟨k, v, hv, 0⟩ (M.tab idx).slots with
      | none => none
      | some (true, slots') => some (true, Hashmap.setTab { M with count := M.count + 1 }
          idx { M.tab idx with slots := slots' })
      | some (false, _) => some (false, M) := by
  unfold hashmap_add_m
  rw [if_neg h]

theorem add_m_insert {M : Hashmap} {idx : Bool} {hv : Nat} {k : List Nat} {v : Nat}
    (hw : TableWF M.case_sensitive (M.tab idx).hashbits (M.tab idx).slots)
    (habs : keyAbsent M.case_sensitive (M.tab idx).hashbits (M.tab idx).slots hv k)
    (hklen : k.length ≤ 65535)
    (hroom : occT (HASHSIZE (M.tab idx).hashbits) (M.tab idx).slots <
      HASHSIZE (M.tab idx).hashbits) :
    ∃ s', hashmap_add_m M hv k v idx =
        some (true, Hashmap.setTab { M with count := M.count + 1 } idx
          { M.tab idx with slots := s' }) ∧
      TableWF M.case_sensitive (M.tab idx).hashbits s' ∧
      (∀ hv' k' v', keyVal M.case_sensitive (M.tab idx).hashbits s' hv' k' v' ↔
        (keyVal M.case_sensitive (M.tab idx).hashbits (M.tab idx).slots hv' k' v' ∨
          (hashmap_match M.case_sensitive (⟨k, v, hv, 0⟩ : HNode) hv' k' = true ∧ v' = v))) ∧
      occT (HASHSIZE (M.tab idx).hashbits) s' =
        occT (HASHSIZE (M.tab idx).hashbits) (M.tab idx).slots + 1 := by
  set cs := M.case_sensitive
  set b := (M.tab idx).hashbits
  set s0 := (M.tab idx).slots with hs0def
  set h := isc_hash_bits32 hv b
  obtain ⟨pe, hpe, hpen⟩ := occT_lt_exists_empty hroom
  obtain ⟨e, he, hse, hocc⟩ := exists_first_empty h ⟨pe, hpe, hpen⟩
  have hinv : AddLoopInv cs b hv k v h s0 e 0 ⟨k, v, hv, 0⟩ s0 := by
    refine
      { jle := Nat.zero_le e
        good := hw.good
        chain := hw.chain
        uniqS := hw.uniq
        cpos := rfl
        cpsl := le_rfl
        clen := hklen
        clink := by intro hc; exact absurd hc (by simp)
        ahead := fun i _ _ => rfl
        occup := fun p => rfl
        cuniq := fun p hp x hx => habs p hp x hx
        content := ?_ }
    intro hv' k' v'
    constructor
    · rintro (hkv | ⟨hm, hveq⟩)
      · exact Or.inl hkv
      · exact Or.inr ⟨hm, hveq.symm⟩
    · rintro (hkv | ⟨hm, hveq⟩)
      · exact Or.inl hkv
      · exact Or.inr ⟨hm, hveq.symm⟩
  obtain ⟨s', hloop, hwf', hcont', hoff, hfill, hs0e⟩ :=
    add_loop_insert he hse (fun i hi => hocc i hi) habs (HASHSIZE b + 2) 0 _ _ hinv
      (by omega)
  refine ⟨s', ?_, hwf', hcont', ?_⟩
  · rw [add_m_eq M idx hv k v (by omega), hloop]
  · exact occT_add_one (pos_lt _ _ _) hs0e hoff hfill

theorem add_m_found {M : Hashmap} {idx : Bool} {hv : Nat} {k : List Nat} {v : Nat}
    {p : Nat} {x : HNode}
    (hw : TableWF M.case_sensitive (M.tab idx).hashbits (M.tab idx).slots)
    (hp : p < HASHSIZE (M.tab idx).hashbits) (hx : (M.tab idx).slots p = some x)
    (hm : hashmap_match M.case_sensitive x hv k = true) (hklen : k.length ≤ 65535) :
    hashmap_add_m M hv k v idx = some (false, M) := by
  have hxpsl : x.psl < HASHSIZE (M.tab idx).hashbits := (hw.good p hp x hx).1
  rw [add_m_eq M idx hv k v (by omega),
    add_loop_found hw hp hx hm (HASHSIZE (M.tab idx).hashbits + 2) 0 _ rfl (by omega)
      (by omega)]

end Bind9

namespace Bind9

/-! ### The backward-shift deletion -/

/-- Total psl mass of the first `n` slots; the termination measure of the
backward-shift loop. -/
def pslSum (n : Nat) (s : Nat → Option HNode) : Nat :=
  (Finset.range n).sum (fun p => ((s p).map HNode.psl).getD 0)

theorem pslSum_upd {n p : Nat} (hp : p < n) (s : Nat → Option HNode) (v : Option HNode) :
    pslSum n (updSlot s p v) + ((s p).map HNode.psl).getD 0 =
      pslSum n s + (v.map HNode.psl).getD 0 := by
  unfold pslSum
  have hmem : p ∈ Finset.range n := Finset.mem_range.mpr hp
  rw [Finset.sum_eq_sum_diff_singleton_add hmem
      (fun q => (((updSlot s p v) q).map HNode.psl).getD 0),
    Finset.sum_eq_sum_diff_singleton_add hmem
      (fun q => ((s q).map HNode.psl).getD 0)]
  have hcong : ∀ q ∈ Finset.range n \ {p},
      (((updSlot s p v) q).map HNode.psl).getD 0 = ((s q).map HNode.psl).getD 0 := by
    intro q hq
    rw [Finset.mem_sdiff, Finset.mem_singleton] at hq
    rw [updSlot_ne _ _ _ hq.2]
  rw [Finset.sum_congr rfl hcong, updSlot_eq]
  ring

theorem pslSum_le {b : Nat} {s : Nat → Option HNode} (hg : slotsGood b s) :
    pslSum (HASHSIZE b) s ≤ HASHSIZE b * HASHSIZE b := by
  unfold pslSum
  calc (Finset.range (HASHSIZE b)).sum (fun p => ((s p).map HNode.psl).getD 0)
      ≤ (Finset.range (HASHSIZE b)).sum (fun _ => HASHSIZE b) := by
        apply Finset.sum_le_sum
        intro p hp
        rw [Finset.mem_range] at hp
        cases hs : s p with
        | none => exact Nat.zero_le _
        | some x =>
          exact le_of_lt (hg p hp x hs).1
  _ = HASHSIZE b * HASHSIZE b := by
        rw [Finset.sum_const, Finset.card_range, smul_eq_mul]

theorem succ_mod_of_mod {n pos entry : Nat} (h : pos % n = entry) :
    (pos + 1) % n = (entry + 1) % n := by
  subst h
  exact (Nat.mod_add_mod pos n 1).symm

theorem pred_succ_self {n entry : Nat} (h2 : 2 ≤ n) (he : entry < n) :
    ((entry + (n - 1)) % n + 1) % n = entry := by
  rw [Nat.mod_add_mod]
  have : entry + (n - 1) + 1 = entry + n := by omega
  rw [this, Nat.add_mod_right]
  exact Nat.mod_eq_of_lt he

theorem succ_pred_self {n entry : Nat} (h2 : 2 ≤ n) (he : entry < n) :
    ((entry + 1) % n + (n - 1)) % n = entry := by
  rw [Nat.mod_add_mod]
  have : entry + 1 + (n - 1) = entry + n := by omega
  rw [this, Nat.add_mod_right]
  exact Nat.mod_eq_of_lt he

theorem succ_ne_self {n entry : Nat} (h2 : 2 ≤ n) (he : entry < n) :
    (entry + 1) % n ≠ entry := by
  intro hc
  by_cases h1 : entry + 1 < n
  · rw [Nat.mod_eq_of_lt h1] at hc
    omega
  · have : entry + 1 = n := by omega
    rw [this, Nat.mod_self] at hc
    omega

/-- Loop invariant of the backward-shift deletion: `s` still holds a
duplicate at `entry` (the C overwrites or clears it before returning), so
all assertions are about the view with `entry` cleared; `s0` is the table
before the deletion and `x0` the deleted node. -/
structure DelInv (cs : Bool) (b : Nat) (s0 : Nat → Option HNode) (x0 : HNode)
    (s : Nat → Option HNode) (entry : Nat) : Prop where
  entry_lt : entry < HASHSIZE b
  dso : (s0 entry).isSome = true
  doff : ∀ p, p ≠ entry → (s p).isSome = (s0 p).isSome
  dlow : ∀ p, p < HASHSIZE b → s0 p = none → (updSlot s entry none) p = none
  dgood : slotsGood b (updSlot s entry none)
  dchainx : ∀ p, p < HASHSIZE b → ∀ z,
    (updSlot s entry none) ((p + 1) % HASHSIZE b) = some z → 0 < z.psl →
    p = entry ∨ ∃ y, (updSlot s entry none) p = some y ∧ z.psl ≤ y.psl + 1
  duniq : slotsUniq cs b (updSlot s entry none)
  dF : ∀ z, s ((entry + 1) % HASHSIZE b) = some z → 2 ≤ z.psl →
    ∃ y, (updSlot s entry none) ((entry + (HASHSIZE b - 1)) % HASHSIZE b) = some y ∧
      z.psl ≤ y.psl + 2
  dcontent : ∀ hv' k' v', keyVal cs b (updSlot s entry none) hv' k' v' ↔
    (keyVal cs b s0 hv' k' v' ∧ hashmap_match cs x0 hv' k' = false)

end Bind9

namespace Bind9

theorem delinv_init {cs : Bool} {b : Nat} {s0 : Nat → Option HNode} {x0 : HNode}
    {e0 : Nat} (hw : TableWF cs b s0) (he0 : e0 < HASHSIZE b)
    (hx0 : s0 e0 = some x0) (hn2 : 2 ≤ HASHSIZE b) :
    DelInv cs b s0 x0 s0 e0 := by
  refine
    { entry_lt := he0
      dso := by rw [hx0]; rfl
      doff := fun p _ => rfl
      dlow := ?_
      dgood := ?_
      dchainx := ?_
      duniq := ?_
      dF := ?_
      dcontent := ?_ }
  · intro p hp hnone
    by_cases hpe : p = e0
    · subst hpe; rw [updSlot_eq]
    · rw [updSlot_ne _ _ _ hpe]; exact hnone
  · intro p hp x hx
    by_cases hpe : p = e0
    · subst hpe; rw [updSlot_eq] at hx; exact Option.noConfusion hx
    · rw [updSlot_ne _ _ _ hpe] at hx; exact hw.good p hp x hx
  · intro p hp z hz hzpsl
    by_cases hA : (p + 1) % HASHSIZE b = e0
    · rw [hA, updSlot_eq] at hz; exact Option.noConfusion hz
    · rw [updSlot_ne _ _ _ hA] at hz
      obtain ⟨y, hy, hb⟩ := hw.chain p hp z hz hzpsl
      by_cases hpe : p = e0
      · exact Or.inl hpe
      · exact Or.inr ⟨y, by rw [updSlot_ne _ _ _ hpe]; exact hy, hb⟩
  · intro p hp q hq hpq x y hx hy
    by_cases hpe : p = e0
    · subst hpe; rw [updSlot_eq] at hx; exact Option.noConfusion hx
    · by_cases hqe : q = e0
      · subst hqe; rw [updSlot_eq] at hy; exact Option.noConfusion hy
      · rw [updSlot_ne _ _ _ hpe] at hx
        rw [updSlot_ne _ _ _ hqe] at hy
        exact hw.uniq p hp q hq hpq x y hx hy
  · intro z hz hz2
    obtain ⟨y1, hy1, hb1⟩ := hw.chain e0 he0 z hz (by omega)
    rw [hx0] at hy1
    cases hy1
    have hx0psl : 0 < x0.psl := by omega
    have hpred : ((e0 + (HASHSIZE b - 1)) % HASHSIZE b + 1) % HASHSIZE b = e0 :=
      pred_succ_self hn2 he0
    obtain ⟨y, hy, hb⟩ := hw.chain ((e0 + (HASHSIZE b - 1)) % HASHSIZE b)
      (Nat.mod_lt _ (by omega)) x0 (by rw [hpred]; exact hx0) hx0psl
    have hpne : (e0 + (HASHSIZE b - 1)) % HASHSIZE b ≠ e0 := by
      intro hc
      rw [hc] at hpred
      exact succ_ne_self hn2 he0 hpred
    refine ⟨y, by rw [updSlot_ne _ _ _ hpne]; exact hy, by omega⟩
  · intro hv' k' v'
    constructor
    · rintro ⟨p, hp, x, hx, hmx, hvx⟩
      have hpe : p ≠ e0 := by
        intro hc; subst hc; rw [updSlot_eq] at hx; exact Option.noConfusion hx
      rw [updSlot_ne _ _ _ hpe] at hx
      refine ⟨⟨p, hp, x, hx, hmx, hvx⟩, ?_⟩
      cases hm0 : hashmap_match cs x0 hv' k'
      · rfl
      · have := hw.uniq p hp e0 he0 hpe x x0 hx hx0
        rw [match_trans hmx hm0] at this
        exact Bool.noConfusion this
    · rintro ⟨⟨p, hp, x, hx, hmx, hvx⟩, hnm⟩
      have hpe : p ≠ e0 := by
        intro hc; subst hc
        rw [hx0] at hx
        cases hx
        rw [hmx] at hnm
        exact Bool.noConfusion hnm
      exact ⟨p, hp, x, by rw [updSlot_ne _ _ _ hpe]; exact hx, hmx, hvx⟩

end Bind9

namespace Bind9

theorem delinv_step {cs : Bool} {b : Nat} {s0 : Nat → Option HNode} {x0 z : HNode}
    {s : Nat → Option HNode} {entry : Nat}
    (inv : DelInv cs b s0 x0 s entry) (hn2 : 2 ≤ HASHSIZE b)
    (hz : s ((entry + 1) % HASHSIZE b) = some z) (hzpsl : 0 < z.psl) :
    DelInv cs b s0 x0
      (updSlot (updSlot s ((entry + 1) % HASHSIZE b)
        (some { z with psl := z.psl - 1 })) entry (some { z with psl := z.psl - 1 }))
      ((entry + 1) % HASHSIZE b) := by
  have hentry := inv.entry_lt
  have hnpos : 0 < HASHSIZE b := by omega
  have hqe : (entry + 1) % HASHSIZE b ≠ entry := succ_ne_self hn2 hentry
  have hqlt : (entry + 1) % HASHSIZE b < HASHSIZE b := Nat.mod_lt _ hnpos
  set q := (entry + 1) % HASHSIZE b with hqdef
  set z' : HNode := { z with psl := z.psl - 1 } with hz'def
  have hz'psl : z'.psl = z.psl - 1 := rfl
  have hz'hv : z'.hashval = z.hashval := rfl
  have hz'key : z'.key = z.key := rfl
  have hz'val : z'.value = z.value := rfl
  set s2 := updSlot (updSlot s q (some z')) entry (some z') with hs2def
  have hz_s' : updSlot s entry none q = some z := by
    rw [updSlot_ne _ _ _ hqe]; exact hz
  have hzgood := inv.dgood q hqlt z hz_s'
  have hs2' : ∀ p, updSlot s2 q none p =
      if p = q then none else if p = entry then some z'
      else updSlot s entry none p := by
    intro p
    by_cases h1 : p = q
    · simp [updSlot, h1]
    · by_cases h2 : p = entry
      · simp [updSlot, hs2def, h1, h2]
    
      · simp [updSlot, hs2def, h1, h2]
  have hs2eval : ∀ p, p ≠ q → p ≠ entry → s2 p = s p := by
    intro p h1 h2
    simp [hs2def, updSlot, h1, h2]
  have hs2entry : s2 entry = some z' := by simp [hs2def, updSlot]
  refine
    { entry_lt := hqlt
      dso := ?_
      doff := ?_
      dlow := ?_
      dgood := ?_
      dchainx := ?_
      duniq := ?_
      dF := ?_
      dcontent := ?_ }
  · -- dso
    rw [← inv.doff q hqe, hz]; rfl
  · -- doff
    intro p hpq
    by_cases hpe : p = entry
    · subst hpe
      rw [hs2entry]
      exact inv.dso.symm
    · rw [hs2eval p hpq hpe]
      exact inv.doff p hpe
  · -- dlow
    intro p hp hnone
    rw [hs2' p]
    by_cases h1 : p = q
    · rw [if_pos h1]
    · rw [if_neg h1]
      by_cases h2 : p = entry
      · exfalso
        have := inv.dso
        rw [h2] at hnone
        rw [hnone] at this
        exact Bool.noConfusion this
      · rw [if_neg h2]
        exact inv.dlow p hp hnone
  · -- dgood
    intro p hp x hx
    rw [hs2' p] at hx
    by_cases h1 : p = q
    · rw [if_pos h1] at hx; exact Option.noConfusion hx
    · rw [if_neg h1] at hx
      by_cases h2 : p = entry
      · rw [if_pos h2] at hx
        cases hx
        subst h2
        have hzlt : z.psl < HASHSIZE b := hzgood.1
        refine ⟨by rw [hz'psl]; omega, ?_, by rw [hz'key]; exact hzgood.2.2⟩
        rw [hz'hv, hz'psl]
        have hq1 : q = (isc_hash_bits32 z.hashval b + z.psl) % HASHSIZE b := hzgood.2.1
        have hq2 : ((isc_hash_bits32 z.hashval b + (z.psl - 1)) % HASHSIZE b + 1) %
            HASHSIZE b = (isc_hash_bits32 z.hashval b + z.psl) % HASHSIZE b :=
          pos_pred_succ _ _ hzpsl
        apply succ_mod_inj hp (pos_lt _ _ _)
        rw [hq2, ← hq1, ← hqdef]
      · rw [if_neg h2] at hx
        exact inv.dgood p hp x hx
  · -- dchainx
    intro p hp w hw hwpsl
    by_cases hpq : p = q
    · exact Or.inl hpq
    · right
      rw [hs2' ((p + 1) % HASHSIZE b)] at hw
      by_cases hA : (p + 1) % HASHSIZE b = q
      · rw [if_pos hA] at hw; exact Option.noConfusion hw
      · rw [if_neg hA] at hw
        by_cases hB : (p + 1) % HASHSIZE b = entry
        · rw [if_pos hB] at hw
          cases hw
          rw [hz'psl] at hwpsl
          have hz2 : 2 ≤ z.psl := by omega
          obtain ⟨y, hy, hb⟩ := inv.dF z hz hz2
          have hpne : p ≠ entry := by
            intro hc
            rw [hc] at hB
            exact hqe (hqdef ▸ hB)
          have hpeq : p = (entry + (HASHSIZE b - 1)) % HASHSIZE b := by
            apply succ_mod_inj hp (Nat.mod_lt _ hnpos)
            rw [hB, pred_succ_self hn2 hentry]
          refine ⟨y, ?_, by rw [hz'psl]; omega⟩
          rw [hs2' p, if_neg hpq, if_neg hpne, hpeq]
          exact hy
        · rw [if_neg hB] at hw
          rcases inv.dchainx p hp w hw hwpsl with hpe | ⟨y, hy, hb⟩
          · exfalso
            rw [hpe] at hA
            exact hA hqdef.symm
          · have hpne : p ≠ entry := by
              intro hc
              rw [hc, updSlot_eq] at hy
              exact Option.noConfusion hy
            refine ⟨y, ?_, hb⟩
            rw [hs2' p, if_neg hpq, if_neg hpne]
            exact hy
  · -- duniq
    intro p1 hp1 p2 hp2 hp12 x y hx hy
    rw [hs2' p1] at hx
    rw [hs2' p2] at hy
    by_cases h1q : p1 = q
    · rw [if_pos h1q] at hx; exact Option.noConfusion hx
    · rw [if_neg h1q] at hx
      by_cases h2q : p2 = q
      · rw [if_pos h2q] at hy; exact Option.noConfusion hy
      · rw [if_neg h2q] at hy
        by_cases h1e : p1 = entry
        · rw [if_pos h1e] at hx
          cases hx
          by_cases h2e : p2 = entry
          · exact absurd (h1e.trans h2e.symm) hp12
          · rw [if_neg h2e] at hy
            have := inv.duniq q hqlt p2 hp2 (fun hc => h2q hc.symm) z y hz_s' hy
            exact this
        · rw [if_neg h1e] at hx
          by_cases h2e : p2 = entry
          · rw [if_pos h2e] at hy
            cases hy
            have := inv.duniq p1 hp1 q hqlt h1q x z hx hz_s'
            exact this
          · rw [if_neg h2e] at hy
            exact inv.duniq p1 hp1 p2 hp2 hp12 x y hx hy
  · -- dF
    intro w hw hw2
    have hpredq : (q + (HASHSIZE b - 1)) % HASHSIZE b = entry := by
      rw [hqdef]
      exact succ_pred_self hn2 hentry
    have hentry_ne_q : entry ≠ q := fun hc => hqe hc.symm
    refine ⟨z', ?_, ?_⟩
    · rw [hs2' ((q + (HASHSIZE b - 1)) % HASHSIZE b), hpredq, if_neg hentry_ne_q,
        if_pos rfl]
    · -- w.psl ≤ z'.psl + 2
      rw [hz'psl]
      by_cases hre : (q + 1) % HASHSIZE b = entry
      · rw [hre, hs2entry] at hw
        cases hw
        rw [hz'psl] at hw2 ⊢
        omega
      · by_cases hrq : (q + 1) % HASHSIZE b = q
        · rw [hrq] at hw
          have : s2 q = some z' := by
            simp [hs2def, updSlot, hentry_ne_q.symm]
          rw [this] at hw
          cases hw
          rw [hz'psl] at hw2 ⊢
          omega
        · rw [hs2eval _ hrq hre] at hw
          have hw' : updSlot s entry none ((q + 1) % HASHSIZE b) = some w := by
            rw [updSlot_ne _ _ _ hre]
            exact hw
          rcases inv.dchainx q hqlt w hw' (by omega) with hce | ⟨y1, hy1, hb1⟩
          · exact absurd hce hqe
          · rw [hz_s'] at hy1
            cases hy1
            omega
  · -- dcontent
    intro hv' k' v'
    rw [← inv.dcontent hv' k' v']
    constructor
    · rintro ⟨p, hp, x, hx, hmx, hvx⟩
      rw [hs2' p] at hx
      by_cases h1 : p = q
      · rw [if_pos h1] at hx; exact Option.noConfusion hx
      · rw [if_neg h1] at hx
        by_cases h2 : p = entry
        · rw [if_pos h2] at hx
          cases hx
          exact ⟨q, hqlt, z, hz_s', hmx, hvx⟩
        · rw [if_neg h2] at hx
          exact ⟨p, hp, x, hx, hmx, hvx⟩
    · rintro ⟨p, hp, x, hx, hmx, hvx⟩
      by_cases h1 : p = q
      · subst h1
        rw [hz_s'] at hx
        cases hx
        refine ⟨entry, hentry, z', ?_, hmx, hvx⟩
        rw [hs2' entry, if_neg (fun hc => hqe hc.symm), if_pos rfl]
      · by_cases h2 : p = entry
        · subst h2
          rw [updSlot_eq] at hx
          exact Option.noConfusion hx
        · refine ⟨p, hp, x, ?_, hmx, hvx⟩
          rw [hs2' p, if_neg h1, if_neg h2]
          exact hx

end Bind9

namespace Bind9

theorem del_loop_succ (n : Nat) (slots : Nat → Option HNode) (entry pos fuel : Nat) :
    delete_shift_loop n slots entry pos (fuel + 1) =
      match slots ((pos + 1) % n) with
      | none => some (updSlot slots entry none)
      | some node =>
        if node.psl = 0 then some (updSlot slots entry none)
        else delete_shift_loop n
          (updSlot (updSlot slots ((pos + 1) % n) (some { node with psl := node.psl - 1 }))
            entry (some { node with psl := node.psl - 1 })) ((pos + 1) % n)
          ((pos + 1) % n) fuel := rfl

theorem del_loop_succ_none {n : Nat} {slots : Nat → Option HNode} {entry pos : Nat}
    (fuel : Nat) (hs : slots ((pos + 1) % n) = none) :
    delete_shift_loop n slots entry pos (fuel + 1) = some (updSlot slots entry none) := by
  rw [del_loop_succ, hs]

theorem del_loop_succ_some {n : Nat} {slots : Nat → Option HNode} {entry pos : Nat}
    {node : HNode} (fuel : Nat) (hs : slots ((pos + 1) % n) = some node) :
    delete_shift_loop n slots entry pos (fuel + 1) =
      if node.psl = 0 then some (updSlot slots entry none)
      else delete_shift_loop n
        (updSlot (updSlot slots ((pos + 1) % n) (some { node with psl := node.psl - 1 }))
          entry (some { node with psl := node.psl - 1 })) ((pos + 1) % n)
        ((pos + 1) % n) fuel := by
  rw [del_loop_succ, hs]

theorem delinv_finish {cs : Bool} {b : Nat} {s0 : Nat → Option HNode} {x0 : HNode}
    {s : Nat → Option HNode} {entry : Nat}
    (inv : DelInv cs b s0 x0 s entry) (hn2 : 2 ≤ HASHSIZE b)
    (hbreak : s ((entry + 1) % HASHSIZE b) = none ∨
      ∃ z, s ((entry + 1) % HASHSIZE b) = some z ∧ z.psl = 0) :
    TableWF cs b (updSlot s entry none) ∧
    (∀ hv' k' v', keyVal cs b (updSlot s entry none) hv' k' v' ↔
      (keyVal cs b s0 hv' k' v' ∧ hashmap_match cs x0 hv' k' = false)) ∧
    entry < HASHSIZE b ∧ (s0 entry).isSome = true ∧
    (updSlot s entry none) entry = none ∧
    (∀ p, p ≠ entry → ((updSlot s entry none) p).isSome = (s0 p).isSome) ∧
    (∀ p, p < HASHSIZE b → s0 p = none → (updSlot s entry none) p = none) := by
  have hqe : (entry + 1) % HASHSIZE b ≠ entry := succ_ne_self hn2 inv.entry_lt
  refine ⟨⟨inv.dgood, ?_, inv.duniq⟩, inv.dcontent, inv.entry_lt, inv.dso,
    updSlot_eq _ _ _, ?_, inv.dlow⟩
  · -- chain
    intro p hp w hw hwpsl
    rcases inv.dchainx p hp w hw hwpsl with hpe | hgoal
    · exfalso
      subst hpe
      rw [updSlot_ne _ _ _ hqe] at hw
      rcases hbreak with hb1 | ⟨z, hb1, hb2⟩
      · rw [hb1] at hw; exact Option.noConfusion hw
      · rw [hb1] at hw
        cases hw
        omega
    · exact hgoal
  · intro p hpe
    rw [updSlot_ne _ _ _ hpe]
    exact inv.doff p hpe

theorem del_loop_run {cs : Bool} {b : Nat} {s0 : Nat → Option HNode} {x0 : HNode}
    (hn2 : 2 ≤ HASHSIZE b) :
    ∀ fuel s entry pos, DelInv cs b s0 x0 s entry → pos % HASHSIZE b = entry →
      pslSum (HASHSIZE b) (updSlot s entry none) + 1 ≤ fuel →
      ∃ sf pf, delete_shift_loop (HASHSIZE b) s entry pos fuel = some sf ∧
        TableWF cs b sf ∧
        (∀ hv' k' v', keyVal cs b sf hv' k' v' ↔
          (keyVal cs b s0 hv' k' v' ∧ hashmap_match cs x0 hv' k' = false)) ∧
        pf < HASHSIZE b ∧ (s0 pf).isSome = true ∧ sf pf = none ∧
        (∀ p, p ≠ pf → (sf p).isSome = (s0 p).isSome) ∧
        (∀ p, p < HASHSIZE b → s0 p = none → sf p = none) := by
  intro fuel
  induction fuel with
  | zero => intro s entry pos inv hpos hfuel; omega
  | succ fuel ih =>
    intro s entry pos inv hpos hfuel
    have hq : (pos + 1) % HASHSIZE b = (entry + 1) % HASHSIZE b := succ_mod_of_mod hpos
    cases hz : s ((entry + 1) % HASHSIZE b) with
    | none =>
      rw [del_loop_succ_none fuel (by rw [hq]; exact hz)]
      obtain ⟨hwf, hcont, h1, h2, h3, h4, h5⟩ := delinv_finish inv hn2 (Or.inl hz)
      exact ⟨updSlot s entry none, entry, rfl, hwf, hcont, h1, h2, h3, h4, h5⟩
    | some z =>
      rw [del_loop_succ_some fuel (by rw [hq]; exact hz), hq]
      by_cases hz0 : z.psl = 0
      · rw [if_pos hz0]
        obtain ⟨hwf, hcont, h1, h2, h3, h4, h5⟩ :=
          delinv_finish inv hn2 (Or.inr ⟨z, hz, hz0⟩)
        exact ⟨updSlot s entry none, entry, rfl, hwf, hcont, h1, h2, h3, h4, h5⟩
      · rw [if_neg hz0]
        have hzpsl : 0 < z.psl := by omega
        have hentry := inv.entry_lt
        have hnpos : 0 < HASHSIZE b := by omega
        have hqe : (entry + 1) % HASHSIZE b ≠ entry := succ_ne_self hn2 hentry
        have hqlt : (entry + 1) % HASHSIZE b < HASHSIZE b := Nat.mod_lt _ hnpos
        have hinv2 := delinv_step inv hn2 hz hzpsl
        have hBeq : updSlot (updSlot (updSlot s ((entry + 1) % HASHSIZE b)
              (some { z with psl := z.psl - 1 })) entry
              (some { z with psl := z.psl - 1 })) ((entry + 1) % HASHSIZE b) none =
            updSlot (updSlot (updSlot s entry none) entry
              (some { z with psl := z.psl - 1 })) ((entry + 1) % HASHSIZE b) none := by
          funext p
          by_cases hA : p = (entry + 1) % HASHSIZE b
          · simp [updSlot, hA]
          · by_cases hB : p = entry <;> simp [updSlot, hA, hB]
        have hsum1 := pslSum_upd hentry (updSlot s entry none)
          (some { z with psl := z.psl - 1 })
        rw [updSlot_eq] at hsum1
        have hsum2 := pslSum_upd hqlt
          (updSlot (updSlot s entry none) entry (some { z with psl := z.psl - 1 })) none
        have hAq : (updSlot (updSlot s entry none) entry
            (some { z with psl := z.psl - 1 })) ((entry + 1) % HASHSIZE b) = some z := by
          rw [updSlot_ne _ _ _ hqe, updSlot_ne _ _ _ hqe]
          exact hz
        rw [hAq] at hsum2
        have hfuel2 : pslSum (HASHSIZE b)
            (updSlot (updSlot (updSlot s ((entry + 1) % HASHSIZE b)
              (some { z with psl := z.psl - 1 })) entry
              (some { z with psl := z.psl - 1 })) ((entry + 1) % HASHSIZE b) none) + 1 ≤
            fuel := by
          rw [hBeq]
          simp only [Option.map_some', Option.getD_some, Option.map_none',
            Option.getD_none] at hsum1 hsum2
          omega
        exact ih _ _ _ hinv2 (Nat.mod_eq_of_lt hqlt) hfuel2

end Bind9

namespace Bind9

theorem delete_node_eq (M : Hashmap) (idx : Bool) (entryPos hashval psl : Nat) :
    hashmap_delete_node M entryPos hashval psl idx =
      match delete_shift_loop (HASHSIZE (M.tab idx).hashbits) (M.tab idx).slots entryPos
          (isc_hash_bits32 hashval (M.tab idx).hashbits + psl)
          (HASHSIZE (M.tab idx).hashbits * HASHSIZE (M.tab idx).hashbits +
            HASHSIZE (M.tab idx).hashbits + 2) with
      | none => none
      | some slots' => some (Hashmap.setTab { M with count := M.count - 1 } idx
          { M.tab idx with slots := slots' }) := rfl

theorem delete_node_run {M : Hashmap} {idx : Bool} {hashval psl : Nat} {x0 : HNode}
    (hw : TableWF M.case_sensitive (M.tab idx).hashbits (M.tab idx).slots)
    (hn2 : 2 ≤ HASHSIZE (M.tab idx).hashbits)
    (hx0 : (M.tab idx).slots ((isc_hash_bits32 hashval (M.tab idx).hashbits + psl) %
      HASHSIZE (M.tab idx).hashbits) = some x0) :
    ∃ sf, hashmap_delete_node M ((isc_hash_bits32 hashval (M.tab idx).hashbits + psl) %
        HASHSIZE (M.tab idx).hashbits) hashval psl idx =
      some (Hashmap.setTab { M with count := M.count - 1 } idx
        { M.tab idx with slots := sf }) ∧
      TableWF M.case_sensitive (M.tab idx).hashbits sf ∧
      (∀ hv' k' v', keyVal M.case_sensitive (M.tab idx).hashbits sf hv' k' v' ↔
        (keyVal M.case_sensitive (M.tab idx).hashbits (M.tab idx).slots hv' k' v' ∧
          hashmap_match M.case_sensitive x0 hv' k' = false)) ∧
      occT (HASHSIZE (M.tab idx).hashbits) sf + 1 =
        occT (HASHSIZE (M.tab idx).hashbits) (M.tab idx).slots ∧
      (∀ p, p < HASHSIZE (M.tab idx).hashbits → (M.tab idx).slots p = none →
        sf p = none) := by
  have hinv := delinv_init hw (pos_lt _ _ _) hx0 hn2
  have hfuel : pslSum (HASHSIZE (M.tab idx).hashbits)
      (updSlot (M.tab idx).slots ((isc_hash_bits32 hashval (M.tab idx).hashbits + psl) %
        HASHSIZE (M.tab idx).hashbits) none) + 1 ≤
      HASHSIZE (M.tab idx).hashbits * HASHSIZE (M.tab idx).hashbits +
        HASHSIZE (M.tab idx).hashbits + 2 := by
    have h1 := pslSum_upd (pos_lt (isc_hash_bits32 hashval (M.tab idx).hashbits) psl
      (M.tab idx).hashbits) (M.tab idx).slots none
    rw [hx0] at h1
    have h2 := pslSum_le hw.good
    simp only [Option.map_some', Option.getD_some, Option.map_none',
      Option.getD_none] at h1
    omega
  obtain ⟨sf, pf, hloop, hwf, hcont, hpf, hpfso, hpfnone, hoff, hlow⟩ :=
    del_loop_run hn2 _ (M.tab idx).slots _ _ hinv rfl hfuel
  refine ⟨sf, ?_, hwf, hcont, ?_, hlow⟩
  · rw [delete_node_eq, hloop]
  · exact (occT_sub_one hpf hpfso hoff hpfnone).symm

theorem scan_succ_lt_none {n : Nat} {slots : Nat → Option HNode} {start : Nat}
    (fuel : Nat) (h : start < n) (hs : slots start = none) :
    rehash_scan_loop n slots (fuel + 1) start = rehash_scan_loop n slots fuel (start + 1) := by
  conv_lhs => rw [rehash_scan_loop]
  rw [if_pos h, hs]

theorem scan_succ_lt_some {n : Nat} {slots : Nat → Option HNode} {start : Nat} {x : HNode}
    (fuel : Nat) (h : start < n) (hs : slots start = some x) :
    rehash_scan_loop n slots (fuel + 1) start = start := by
  conv_lhs => rw [rehash_scan_loop]
  rw [if_pos h, hs]

theorem scan_succ_ge {n : Nat} {slots : Nat → Option HNode} {start : Nat}
    (fuel : Nat) (h : ¬ start < n) :
    rehash_scan_loop n slots (fuel + 1) start = start := by
  conv_lhs => rw [rehash_scan_loop]
  rw [if_neg h]

theorem scan_spec {n : Nat} {slots : Nat → Option HNode} :
    ∀ fuel start, start ≤ n → n ≤ start + fuel →
      start ≤ rehash_scan_loop n slots fuel start ∧
      rehash_scan_loop n slots fuel start ≤ n ∧
      (∀ i, start ≤ i → i < rehash_scan_loop n slots fuel start → slots i = none) ∧
      (rehash_scan_loop n slots fuel start < n →
        ∃ x, slots (rehash_scan_loop n slots fuel start) = some x) := by
  intro fuel
  induction fuel with
  | zero =>
    intro start h1 h2
    have : start = n := by omega
    unfold rehash_scan_loop
    exact ⟨le_rfl, by omega, fun i hi1 hi2 => by omega, fun hc => by omega⟩
  | succ fuel ih =>
    intro start h1 h2
    by_cases hlt : start < n
    · cases hs : slots start with
      | none =>
        rw [scan_succ_lt_none fuel hlt hs]
        obtain ⟨g1, g2, g3, g4⟩ := ih (start + 1) (by omega) (by omega)
        refine ⟨by omega, g2, ?_, g4⟩
        intro i hi1 hi2
        by_cases hie : i = start
        · subst hie; exact hs
        · exact g3 i (by omega) hi2
      | some x =>
        rw [scan_succ_lt_some fuel hlt hs]
        exact ⟨le_rfl, by omega, fun i hi1 hi2 => by omega, fun _ => ⟨x, hs⟩⟩
    · rw [scan_succ_ge fuel hlt]
      exact ⟨le_rfl, by omega, fun i hi1 hi2 => by omega, fun hc => by omega⟩

end Bind9

namespace Bind9

/-! ### Map-level invariant and content -/

theorem tab_setTab_same (m : Hashmap) (idx : Bool) (t : HTable) :
    (m.setTab idx t).tab idx = t := by
  cases idx <;> rfl

theorem tab_setTab_other (m : Hashmap) (idx : Bool) (t : HTable) :
    (m.setTab idx t).tab (!idx) = m.tab (!idx) := by
  cases idx <;> rfl

theorem setTab_cs (m : Hashmap) (idx : Bool) (t : HTable) :
    (m.setTab idx t).case_sensitive = m.case_sensitive := by
  cases idx <;> rfl

theorem setTab_hindex (m : Hashmap) (idx : Bool) (t : HTable) :
    (m.setTab idx t).hindex = m.hindex := by
  cases idx <;> rfl

theorem setTab_hiter (m : Hashmap) (idx : Bool) (t : HTable) :
    (m.setTab idx t).hiter = m.hiter := by
  cases idx <;> rfl

theorem setTab_count (m : Hashmap) (idx : Bool) (t : HTable) :
    (m.setTab idx t).count = m.count := by
  cases idx <;> rfl

/-- The global well-formedness invariant of reachable hashmap states. -/
structure MapWF (m : Hashmap) : Prop where
  abits_lo : 1 ≤ (m.tab m.hindex).hashbits
  abits_hi : (m.tab m.hindex).hashbits ≤ 32
  awf : TableWF m.case_sensitive (m.tab m.hindex).hashbits (m.tab m.hindex).slots
  steady : (m.tab (!m.hindex)).hashbits = 0 →
    (∀ p, (m.tab (!m.hindex)).slots p = none) ∧ m.hiter = 0 ∧
    m.count = occT (HASHSIZE (m.tab m.hindex).hashbits) (m.tab m.hindex).slots ∧
    ((m.tab m.hindex).hashbits ≤ 31 →
      m.count ≤ max (HASHSIZE (m.tab m.hindex).hashbits - 1)
        (APPROX_90_PERCENT (HASHSIZE (m.tab m.hindex).hashbits) + 1))
  rehash : (m.tab (!m.hindex)).hashbits ≠ 0 →
    1 ≤ (m.tab (!m.hindex)).hashbits ∧ (m.tab (!m.hindex)).hashbits ≤ 32 ∧
    TableWF m.case_sensitive (m.tab (!m.hindex)).hashbits (m.tab (!m.hindex)).slots ∧
    (∀ p, p < HASHSIZE (m.tab (!m.hindex)).hashbits → ∀ x,
      (m.tab (!m.hindex)).slots p = some x →
      keyAbsent m.case_sensitive (m.tab m.hindex).hashbits (m.tab m.hindex).slots
        x.hashval x.key) ∧
    (∀ p, p < m.hiter → (m.tab (!m.hindex)).slots p = none) ∧
    m.hiter ≤ HASHSIZE (m.tab (!m.hindex)).hashbits ∧
    m.count = occT (HASHSIZE (m.tab m.hindex).hashbits) (m.tab m.hindex).slots +
      occT (HASHSIZE (m.tab (!m.hindex)).hashbits) (m.tab (!m.hindex)).slots ∧
    m.count + occT (HASHSIZE (m.tab (!m.hindex)).hashbits) (m.tab (!m.hindex)).slots + 2 ≤
      HASHSIZE (m.tab m.hindex).hashbits

/-- The abstract content: some table of the map stores `v` under `(hv, k)`. -/
def mapKV (m : Hashmap) (hv : Nat) (k : List Nat) (v : Nat) : Prop :=
  keyVal m.case_sensitive (m.tab m.hindex).hashbits (m.tab m.hindex).slots hv k v ∨
  keyVal m.case_sensitive (m.tab (!m.hindex)).hashbits (m.tab (!m.hindex)).slots hv k v

/-- The abstract absence: no table of the map matches `(hv, k)`. -/
def mapAbs (m : Hashmap) (hv : Nat) (k : List Nat) : Prop :=
  keyAbsent m.case_sensitive (m.tab m.hindex).hashbits (m.tab m.hindex).slots hv k ∧
  keyAbsent m.case_sensitive (m.tab (!m.hindex)).hashbits (m.tab (!m.hindex)).slots hv k

theorem absent_of_no_kv {cs : Bool} {b : Nat} {s : Nat → Option HNode} {hv : Nat}
    {k : List Nat} (h : ∀ v, ¬ keyVal cs b s hv k v) : keyAbsent cs b s hv k := by
  intro p hp x hx
  cases hm : hashmap_match cs x hv k
  · rfl
  · exact absurd ⟨p, hp, x, hx, hm, rfl⟩ (h x.value)

theorem no_kv_of_absent {cs : Bool} {b : Nat} {s : Nat → Option HNode} {hv : Nat}
    {k : List Nat} (h : keyAbsent cs b s hv k) : ∀ v, ¬ keyVal cs b s hv k v := by
  rintro v ⟨p, hp, x, hx, hm, hval⟩
  rw [h p hp x hx] at hm
  exact Bool.noConfusion hm

theorem rehashing_eqv (m : Hashmap) :
    rehashing_in_progress m = true ↔ (m.tab (!m.hindex)).hashbits ≠ 0 := by
  unfold rehashing_in_progress hashmap_nexttable
  simp [bne_iff_ne]

theorem try_next_self (m : Hashmap) :
    try_nexttable m m.hindex = rehashing_in_progress m := by
  unfold try_nexttable
  simp

theorem find2_eq_found {m : Hashmap} {hv : Nat} {k : List Nat} {idx : Bool}
    {psl : Nat} {x : HNode}
    (h : hashmap_find_table m.case_sensitive (m.tab idx) hv k = some (some (psl, x))) :
    hashmap_find2 m hv k idx = some (some (idx, psl, x)) := by
  unfold hashmap_find2
  rw [h]

theorem find2_eq_none_steady {m : Hashmap} {hv : Nat} {k : List Nat} {idx : Bool}
    (h1 : hashmap_find_table m.case_sensitive (m.tab idx) hv k = some none)
    (h2 : try_nexttable m idx = false) :
    hashmap_find2 m hv k idx = some none := by
  unfold hashmap_find2
  rw [h1]
  simp [h2]

theorem find2_eq_found_old {m : Hashmap} {hv : Nat} {k : List Nat} {idx : Bool}
    {psl : Nat} {x : HNode}
    (h1 : hashmap_find_table m.case_sensitive (m.tab idx) hv k = some none)
    (h2 : try_nexttable m idx = true)
    (h3 : hashmap_find_table m.case_sensitive (m.tab (!idx)) hv k = some (some (psl, x))) :
    hashmap_find2 m hv k idx = some (some (!idx, psl, x)) := by
  unfold hashmap_find2
  rw [h1]
  simp only [h2, if_true]
  rw [h3]

theorem find2_eq_none_both {m : Hashmap} {hv : Nat} {k : List Nat} {idx : Bool}
    (h1 : hashmap_find_table m.case_sensitive (m.tab idx) hv k = some none)
    (h2 : try_nexttable m idx = true)
    (h3 : hashmap_find_table m.case_sensitive (m.tab (!idx)) hv k = some none) :
    hashmap_find2 m hv k idx = some none := by
  unfold hashmap_find2
  rw [h1]
  simp only [h2, if_true]
  rw [h3]

/-- A present key is found by the two-table search, with its stored node. -/
theorem find2_present {m : Hashmap} {hv : Nat} {k : List Nat} {v : Nat}
    (hwf : MapWF m) (hkv : mapKV m hv k v) :
    ∃ idx2 psl x, hashmap_find2 m hv k m.hindex = some (some (idx2, psl, x)) ∧
      hashmap_match m.case_sensitive x hv k = true ∧ x.value = v ∧
      (m.tab idx2).slots ((isc_hash_bits32 hv (m.tab idx2).hashbits + psl) %
        HASHSIZE (m.tab idx2).hashbits) = some x ∧ psl = x.psl := by
  rcases hkv with ⟨p, hp, x, hx, hm, hval⟩ | ⟨p, hp, x, hx, hm, hval⟩
  · have hft := find_table_eq_found hwf.awf hp hx hm
    refine ⟨m.hindex, x.psl, x, find2_eq_found hft, hm, hval, ?_, rfl⟩
    have hpos := (hwf.awf.good p hp x hx).2.1
    rw [match_hashval hm] at hpos
    rw [← hpos]
    exact hx
  · have hob : (m.tab (!m.hindex)).hashbits ≠ 0 := by
      intro hc
      rw [(hwf.steady hc).1 p] at hx
      exact Option.noConfusion hx
    obtain ⟨holo, hohi, howf, hdisj, hpre, hhit, hcnt, hrs⟩ := hwf.rehash hob
    have habs : keyAbsent m.case_sensitive (m.tab m.hindex).hashbits
        (m.tab m.hindex).slots hv k := by
      intro q hq y hy
      cases hmy : hashmap_match m.case_sensitive y hv k
      · rfl
      · have := hdisj p hp x hx q hq y hy
        rw [match_trans hmy hm] at this
        exact Bool.noConfusion this
    have hft1 := find_table_eq_none hwf.awf.good habs
    have htry : try_nexttable m m.hindex = true := by
      rw [try_next_self, rehashing_eqv]
      exact hob
    have hft2 := find_table_eq_found howf hp hx hm
    refine ⟨!m.hindex, x.psl, x, find2_eq_found_old hft1 htry hft2, hm, hval, ?_, rfl⟩
    have hpos := (howf.good p hp x hx).2.1
    rw [match_hashval hm] at hpos
    rw [← hpos]
    exact hx

/-- An absent key is reported as such by the two-table search. -/
theorem find2_absent {m : Hashmap} {hv : Nat} {k : List Nat}
    (hwf : MapWF m) (habs : mapAbs m hv k) :
    hashmap_find2 m hv k m.hindex = some none := by
  have hft1 := find_table_eq_none hwf.awf.good habs.1
  cases hre : rehashing_in_progress m with
  | false =>
    exact find2_eq_none_steady hft1 (by rw [try_next_self]; exact hre)
  | true =>
    obtain ⟨holo, hohi, howf, _⟩ := hwf.rehash ((rehashing_eqv m).mp hre)
    exact find2_eq_none_both hft1 (by rw [try_next_self]; exact hre)
      (find_table_eq_none howf.good habs.2)

theorem isc_find_present {H : List Nat → Nat} {m : Hashmap} {k : List Nat} {v : Nat}
    (hwf : MapWF m) (hkv : mapKV m (H k) k v) :
    isc_hashmap_find H m k = some (some v) := by
  obtain ⟨idx2, psl, x, hf, hm, hval, _, _⟩ := find2_present hwf hkv
  unfold isc_hashmap_find
  rw [hf]
  simp [hval]

theorem isc_find_absent {H : List Nat → Nat} {m : Hashmap} {k : List Nat}
    (hwf : MapWF m) (habs : mapAbs m (H k) k) :
    isc_hashmap_find H m k = some none := by
  unfold isc_hashmap_find
  rw [find2_absent hwf habs]
  rfl

end Bind9

namespace Bind9

theorem tab_upd_hiter (m : Hashmap) (h : Nat) (idx : Bool) :
    ({ m with hiter := h } : Hashmap).tab idx = m.tab idx := by
  cases idx <;> rfl

theorem occT_pos {n p : Nat} {s : Nat → Option HNode} (hp : p < n)
    (hocc : (s p).isSome = true) : 1 ≤ occT n s := by
  unfold occT
  rw [Nat.succ_le, Finset.card_pos]
  exact ⟨p, Finset.mem_filter.mpr ⟨Finset.mem_range.mpr hp, hocc⟩⟩

theorem rehash_one_eq_complete {m : Hashmap}
    (h : rehash_scan_loop (HASHSIZE (m.tab (!m.hindex)).hashbits)
      (m.tab (!m.hindex)).slots
      (HASHSIZE (m.tab (!m.hindex)).hashbits) m.hiter =
      HASHSIZE (m.tab (!m.hindex)).hashbits) :
    hashmap_rehash_one m =
      some { Hashmap.setTab m (!m.hindex) HTable.nullTable with
        hiter := 0 } := by
  simp only [hashmap_rehash_one, hashmap_nexttable]
  rw [if_pos h]

theorem rehash_one_eq_move {m : Hashmap} {node : HNode}
    (hne : ¬ (rehash_scan_loop (HASHSIZE (m.tab (!m.hindex)).hashbits)
      (m.tab (!m.hindex)).slots
      (HASHSIZE (m.tab (!m.hindex)).hashbits) m.hiter =
      HASHSIZE (m.tab (!m.hindex)).hashbits))
    (hnode : (m.tab (!m.hindex)).slots
      (rehash_scan_loop (HASHSIZE (m.tab (!m.hindex)).hashbits)
        (m.tab (!m.hindex)).slots
        (HASHSIZE (m.tab (!m.hindex)).hashbits) m.hiter) = some node) :
    hashmap_rehash_one m =
      match hashmap_delete_node
          { m with hiter := (rehash_scan_loop
            (HASHSIZE (m.tab (!m.hindex)).hashbits)
            (m.tab (!m.hindex)).slots
            (HASHSIZE (m.tab (!m.hindex)).hashbits) m.hiter) }
          (rehash_scan_loop (HASHSIZE (m.tab (!m.hindex)).hashbits)
            (m.tab (!m.hindex)).slots
            (HASHSIZE (m.tab (!m.hindex)).hashbits) m.hiter)
          node.hashval node.psl (!m.hindex) with
      | none => none
      | some m2 =>
        match hashmap_add_m m2 node.hashval node.key node.value m2.hindex with
        | none => none
        | some (true, m3) => some m3
        | some (false, _) => none := by
  simp only [hashmap_rehash_one, hashmap_nexttable]
  rw [if_neg hne, hnode]

end Bind9

namespace Bind9

theorem tab_upd_count (m : Hashmap) (c : Nat) (idx : Bool) :
    ({ m with count := c } : Hashmap).tab idx = m.tab idx := by
  cases idx <;> rfl

/-- The effect of one successful `hashmap_rehash_one` step: well-formedness,
identity of the visible fields and of the abstract content, strict decrease
of the migration measure while rehashing continues, and free room in the
active table once the old table has been freed. -/
def RehashStep (m mf : Hashmap) : Prop :=
  MapWF mf ∧
  mf.case_sensitive = m.case_sensitive ∧ mf.hindex = m.hindex ∧
  mf.count = m.count ∧
  (mf.tab mf.hindex).hashbits = (m.tab m.hindex).hashbits ∧
  (∀ hv k v, mapKV mf hv k v ↔ mapKV m hv k v) ∧
  (rehashing_in_progress mf = true →
    mf.count + occT (HASHSIZE (mf.tab (!mf.hindex)).hashbits)
      (mf.tab (!mf.hindex)).slots + 1 ≤
    m.count + occT (HASHSIZE (m.tab (!m.hindex)).hashbits)
      (m.tab (!m.hindex)).slots) ∧
  (rehashing_in_progress mf = false →
    mf.count + 2 ≤ HASHSIZE (mf.tab mf.hindex).hashbits)

theorem rehash_one_run_complete {m : Hashmap} (hwf : MapWF m)
    (hob : (m.tab (!m.hindex)).hashbits ≠ 0)
    (hrn : rehash_scan_loop (HASHSIZE (m.tab (!m.hindex)).hashbits)
      (m.tab (!m.hindex)).slots (HASHSIZE (m.tab (!m.hindex)).hashbits) m.hiter =
      HASHSIZE (m.tab (!m.hindex)).hashbits) :
    ∃ mf, hashmap_rehash_one m = some mf ∧ RehashStep m mf := by
  obtain ⟨holo, hohi, howf, hdisj, hpre, hhit, hcnt, hrs⟩ := hwf.rehash hob
  obtain ⟨hs1, hs2, hs3, hs4⟩ :=
    @scan_spec (HASHSIZE (m.tab (!m.hindex)).hashbits) (m.tab (!m.hindex)).slots
      (HASHSIZE (m.tab (!m.hindex)).hashbits) m.hiter hhit (by omega)
  rw [hrn] at hs3
  have hallnone : ∀ p, p < HASHSIZE (m.tab (!m.hindex)).hashbits →
      (m.tab (!m.hindex)).slots p = none := by
    intro p hp
    by_cases hpl : p < m.hiter
    · exact hpre p hpl
    · exact hs3 p (by omega) hp
  have hocco : occT (HASHSIZE (m.tab (!m.hindex)).hashbits)
      (m.tab (!m.hindex)).slots = 0 := occT_zero hallnone
  have hmta : ({ Hashmap.setTab m (!m.hindex) HTable.nullTable with
      hiter := 0 } : Hashmap).tab m.hindex = m.tab m.hindex := by
    rw [tab_upd_hiter]
    have h2 := tab_setTab_other m (!m.hindex) HTable.nullTable
    rw [Bool.not_not] at h2
    exact h2
  have hmto : ({ Hashmap.setTab m (!m.hindex) HTable.nullTable with
      hiter := 0 } : Hashmap).tab (!m.hindex) = HTable.nullTable := by
    rw [tab_upd_hiter, tab_setTab_same]
  have hhx : ({ Hashmap.setTab m (!m.hindex) HTable.nullTable with
      hiter := 0 } : Hashmap).hindex = m.hindex :=
    setTab_hindex m (!m.hindex) HTable.nullTable
  have hcs : ({ Hashmap.setTab m (!m.hindex) HTable.nullTable with
      hiter := 0 } : Hashmap).case_sensitive = m.case_sensitive :=
    setTab_cs m (!m.hindex) HTable.nullTable
  have hcount : ({ Hashmap.setTab m (!m.hindex) HTable.nullTable with
      hiter := 0 } : Hashmap).count = m.count :=
    setTab_count m (!m.hindex) HTable.nullTable
  refine ⟨{ Hashmap.setTab m (!m.hindex) HTable.nullTable with hiter := 0 },
    rehash_one_eq_complete hrn, ?_, hcs, hhx, hcount, ?_, ?_, ?_, ?_⟩
  · refine { abits_lo := ?_, abits_hi := ?_, awf := ?_, steady := ?_, rehash := ?_ }
    · rw [hhx, hmta]; exact hwf.abits_lo
    · rw [hhx, hmta]; exact hwf.abits_hi
    · rw [hhx, hmta, hcs]; exact hwf.awf
    · intro _
      rw [hhx, hmta, hmto, hcount]
      refine ⟨fun p => rfl, rfl, by omega, ?_⟩
      intro _
      have : m.count ≤ HASHSIZE (m.tab m.hindex).hashbits - 1 := by omega
      exact this.trans (le_max_left _ _)
    · intro hc
      rw [hhx, hmto] at hc
      exact absurd rfl hc
  · rw [hhx, hmta]
  · intro hv k v
    unfold mapKV
    rw [hhx, hmta, hmto, hcs]
    constructor
    · rintro (h | h)
      · exact Or.inl h
      · obtain ⟨p, hp, x, hx, _⟩ := h
        exact Option.noConfusion hx
    · rintro (h | h)
      · exact Or.inl h
      · obtain ⟨p, hp, x, hx, _⟩ := h
        rw [hallnone p hp] at hx
        exact Option.noConfusion hx
  · intro hc
    have hne := (rehashing_eqv _).mp hc
    rw [hhx, hmto] at hne
    exact absurd rfl hne
  · intro _
    rw [hcount, hhx, hmta]
    omega

end Bind9

namespace Bind9

theorem rehash_one_eq_move2 {m m2 m3 : Hashmap} {node : HNode} {r : Nat}
    (hscan : rehash_scan_loop (HASHSIZE (m.tab (!m.hindex)).hashbits)
      (m.tab (!m.hindex)).slots (HASHSIZE (m.tab (!m.hindex)).hashbits) m.hiter = r)
    (hne : ¬ r = HASHSIZE (m.tab (!m.hindex)).hashbits)
    (hnode : (m.tab (!m.hindex)).slots r = some node)
    (hdel : hashmap_delete_node { m with hiter := r } r node.hashval node.psl
      (!m.hindex) = some m2)
    (hadd : hashmap_add_m m2 node.hashval node.key node.value m2.hindex =
      some (true, m3)) :
    hashmap_rehash_one m = some m3 := by
  subst hscan
  rw [rehash_one_eq_move hne hnode, hdel]
  show (match hashmap_add_m m2 node.hashval node.key node.value m2.hindex with
    | none => none
    | some (true, m3x) => some m3x
    | some (false, _) => none) = some m3
  rw [hadd]

end Bind9

namespace Bind9

theorem rehash_one_run_move {m : Hashmap} {node : HNode} (hwf : MapWF m)
    (hob : (m.tab (!m.hindex)).hashbits ≠ 0)
    (hrn : ¬ rehash_scan_loop (HASHSIZE (m.tab (!m.hindex)).hashbits)
      (m.tab (!m.hindex)).slots (HASHSIZE (m.tab (!m.hindex)).hashbits) m.hiter =
      HASHSIZE (m.tab (!m.hindex)).hashbits)
    (hnode : (m.tab (!m.hindex)).slots
      (rehash_scan_loop (HASHSIZE (m.tab (!m.hindex)).hashbits)
        (m.tab (!m.hindex)).slots (HASHSIZE (m.tab (!m.hindex)).hashbits) m.hiter) =
      some node) :
    ∃ mf, hashmap_rehash_one m = some mf ∧ RehashStep m mf := by
  obtain ⟨holo, hohi, howf, hdisj, hpre, hhit, hcnt, hrs⟩ := hwf.rehash hob
  obtain ⟨hs1, hs2, hs3, hs4⟩ :=
    @scan_spec (HASHSIZE (m.tab (!m.hindex)).hashbits) (m.tab (!m.hindex)).slots
      (HASHSIZE (m.tab (!m.hindex)).hashbits) m.hiter hhit (by omega)
  set r := rehash_scan_loop (HASHSIZE (m.tab (!m.hindex)).hashbits)
    (m.tab (!m.hindex)).slots (HASHSIZE (m.tab (!m.hindex)).hashbits) m.hiter with hr
  have hrlt : r < HASHSIZE (m.tab (!m.hindex)).hashbits := lt_of_le_of_ne hs2 hrn
  obtain ⟨hnpsl, hposeq, hklen⟩ := howf.good r hrlt node hnode
  have hocco1 : 1 ≤ occT (HASHSIZE (m.tab (!m.hindex)).hashbits)
      (m.tab (!m.hindex)).slots :=
    occT_pos hrlt (by rw [hnode]; rfl)
  have htab1 : ∀ idx, ({ m with hiter := r } : Hashmap).tab idx = m.tab idx :=
    fun idx => tab_upd_hiter m r idx
  have hw1 : TableWF ({ m with hiter := r } : Hashmap).case_sensitive
      (({ m with hiter := r } : Hashmap).tab (!m.hindex)).hashbits
      (({ m with hiter := r } : Hashmap).tab (!m.hindex)).slots := by
    rw [htab1]; exact howf
  have hn21 : 2 ≤ HASHSIZE (({ m with hiter := r } : Hashmap).tab (!m.hindex)).hashbits := by
    rw [htab1, hashsize_eq]
    calc 2 = 2 ^ 1 := rfl
    _ ≤ 2 ^ (m.tab (!m.hindex)).hashbits := Nat.pow_le_pow_right (by norm_num) holo
  have hx01 : (({ m with hiter := r } : Hashmap).tab (!m.hindex)).slots
      ((isc_hash_bits32 node.hashval
        (({ m with hiter := r } : Hashmap).tab (!m.hindex)).hashbits + node.psl) %
        HASHSIZE (({ m with hiter := r } : Hashmap).tab (!m.hindex)).hashbits) =
      some node := by
    rw [htab1, ← hposeq]
    exact hnode
  obtain ⟨sf, hdel, hwfo, hconto, hoccd, hlow⟩ := delete_node_run hw1 hn21 hx01
  rw [htab1] at hdel hwfo hconto hoccd hlow
  rw [← hposeq] at hdel
  obtain ⟨m2, hdelm, hm2⟩ : ∃ m2, hashmap_delete_node { m with hiter := r } r
      node.hashval node.psl (!m.hindex) = some m2 ∧
      m2 = Hashmap.setTab { ({ m with hiter := r } : Hashmap) with
        count := ({ m with hiter := r } : Hashmap).count - 1 } (!m.hindex)
        { m.tab (!m.hindex) with slots := sf } := ⟨_, hdel, rfl⟩
  have h2cs : m2.case_sensitive = m.case_sensitive := by
    rw [hm2]; exact setTab_cs _ _ _
  have h2hx : m2.hindex = m.hindex := by
    rw [hm2]; exact setTab_hindex _ _ _
  have h2cnt : m2.count = m.count - 1 := by
    rw [hm2]; exact setTab_count _ _ _
  have h2hit : m2.hiter = r := by
    rw [hm2]; exact setTab_hiter _ _ _
  have h2to : m2.tab (!m.hindex) = { m.tab (!m.hindex) with slots := sf } := by
    rw [hm2]; exact tab_setTab_same _ _ _
  have h2ta : m2.tab m.hindex = m.tab m.hindex := by
    rw [hm2]
    cases hmi : m.hindex <;> rfl
  have hwa2 : TableWF m2.case_sensitive (m2.tab m2.hindex).hashbits
      (m2.tab m2.hindex).slots := by
    rw [h2hx, h2ta, h2cs]; exact hwf.awf
  have habs2 : keyAbsent m2.case_sensitive (m2.tab m2.hindex).hashbits
      (m2.tab m2.hindex).slots node.hashval node.key := by
    rw [h2hx, h2ta, h2cs]
    exact hdisj r hrlt node hnode
  have hroom2 : occT (HASHSIZE (m2.tab m2.hindex).hashbits) (m2.tab m2.hindex).slots <
      HASHSIZE (m2.tab m2.hindex).hashbits := by
    rw [h2hx, h2ta]
    omega
  obtain ⟨s2, hadd, hwfa, hconta, hocca⟩ := add_m_insert hwa2 habs2 hklen hroom2
  obtain ⟨mf, haddf, hmf⟩ : ∃ mf, hashmap_add_m m2 node.hashval node.key node.value
      m2.hindex = some (true, mf) ∧
      mf = Hashmap.setTab { m2 with count := m2.count + 1 } m2.hindex
        { m2.tab m2.hindex with slots := s2 } := ⟨_, hadd, rfl⟩
  rw [h2hx, h2ta] at hwfa hconta hocca
  rw [h2cs] at hwfa hconta
  have hfcs : mf.case_sensitive = m.case_sensitive := by
    rw [hmf]; exact (setTab_cs _ _ _).trans h2cs
  have hfhx : mf.hindex = m.hindex := by
    rw [hmf]; exact (setTab_hindex _ _ _).trans h2hx
  have hfcnt1 : mf.count = m2.count + 1 := by
    rw [hmf]; exact setTab_count _ _ _
  have hfcnt : mf.count = m.count := by
    rw [hfcnt1, h2cnt]; omega
  have hfhit : mf.hiter = r := by
    rw [hmf]; exact (setTab_hiter _ _ _).trans h2hit
  have hfta : mf.tab m.hindex = { m.tab m.hindex with slots := s2 } := by
    have h0 : mf.tab m2.hindex = { m2.tab m2.hindex with slots := s2 } := by
      rw [hmf]; exact tab_setTab_same _ _ _
    rw [h2hx, h2ta] at h0
    exact h0
  have hfto : mf.tab (!m.hindex) = { m.tab (!m.hindex) with slots := sf } := by
    have h0 : mf.tab (!m2.hindex) = m2.tab (!m2.hindex) := by
      rw [hmf, tab_setTab_other]
      exact tab_upd_count _ _ _
    rw [h2hx, h2to] at h0
    exact h0
  refine ⟨mf, rehash_one_eq_move2 hr.symm hrn hnode hdelm haddf, ?_,
    hfcs, hfhx, hfcnt, ?_, ?_, ?_, ?_⟩
  · -- MapWF mf
    refine { abits_lo := ?_, abits_hi := ?_, awf := ?_, steady := ?_, rehash := ?_ }
    · rw [hfhx, hfta]; exact hwf.abits_lo
    · rw [hfhx, hfta]; exact hwf.abits_hi
    · rw [hfcs, hfhx, hfta]; exact hwfa
    · intro hc
      rw [hfhx, hfto] at hc
      exact absurd hc hob
    · intro _
      refine ⟨?_, ?_, ?_, ?_, ?_, ?_, ?_, ?_⟩
      · rw [hfhx, hfto]; exact holo
      · rw [hfhx, hfto]; exact hohi
      · rw [hfcs, hfhx, hfto]; exact hwfo
      · rw [hfcs, hfhx, hfto, hfta]
        intro p hp x hx
        have hkvf : keyVal m.case_sensitive (m.tab (!m.hindex)).hashbits sf
            x.hashval x.key x.value := ⟨p, hp, x, hx, match_refl _ _, rfl⟩
        obtain ⟨hkv0, hnm⟩ := (hconto x.hashval x.key x.value).mp hkvf
        apply absent_of_no_kv
        intro v hv
        rcases (hconta x.hashval x.key v).mp hv with hkva | ⟨hm0, _⟩
        · obtain ⟨q, hq, y, hy, hmy, _⟩ := hkv0
          obtain ⟨q2, hq2, z, hz, hmz, _⟩ := hkva
          have hfalse := hdisj q hq y hy q2 hq2 z hz
          have htrue := match_trans hmz hmy
          rw [htrue] at hfalse
          exact Bool.noConfusion hfalse
        · have htrue : hashmap_match m.case_sensitive node x.hashval x.key = true := hm0
          rw [htrue] at hnm
          exact Bool.noConfusion hnm
      · rw [hfhit, hfhx, hfto]
        intro p hp
        show sf p = none
        refine hlow p (by omega) ?_
        by_cases hpl : p < m.hiter
        · exact hpre p hpl
        · exact hs3 p (by omega) hp
      · rw [hfhit, hfhx, hfto]
        show r ≤ HASHSIZE (m.tab (!m.hindex)).hashbits
        omega
      · rw [hfcnt, hfhx, hfta, hfto]
        show m.count = occT (HASHSIZE (m.tab m.hindex).hashbits) s2 +
          occT (HASHSIZE (m.tab (!m.hindex)).hashbits) sf
        omega
      · rw [hfcnt, hfhx, hfta, hfto]
        show m.count + occT (HASHSIZE (m.tab (!m.hindex)).hashbits) sf + 2 ≤
          HASHSIZE (m.tab m.hindex).hashbits
        omega
  · rw [hfhx, hfta]
  · intro hv k v
    unfold mapKV
    rw [hfcs, hfhx, hfta, hfto]
    show (keyVal m.case_sensitive (m.tab m.hindex).hashbits s2 hv k v ∨
        keyVal m.case_sensitive (m.tab (!m.hindex)).hashbits sf hv k v) ↔ _
    constructor
    · rintro (h | h)
      · rcases (hconta hv k v).mp h with hkv | ⟨hm0, hveq⟩
        · exact Or.inl hkv
        · exact Or.inr ⟨r, hrlt, node, hnode, hm0, hveq.symm⟩
      · exact Or.inr ((hconto hv k v).mp h).1
    · rintro (h | h)
      · exact Or.inl ((hconta hv k v).mpr (Or.inl h))
      · cases hmn : hashmap_match m.case_sensitive node hv k
        · exact Or.inr ((hconto hv k v).mpr ⟨h, hmn⟩)
        · obtain ⟨q, hq, y, hy, hmy, hval⟩ := h
          by_cases hqr : q = r
          · rw [hqr, hnode] at hy
            have hyn : y = node := Option.some.inj hy.symm
            refine Or.inl ((hconta hv k v).mpr (Or.inr ⟨hmn, ?_⟩))
            rw [← hval, hyn]
          · have hfalse := howf.uniq q hq r hrlt hqr y node hy hnode
            have htrue := match_trans hmy hmn
            rw [htrue] at hfalse
            exact Bool.noConfusion hfalse
  · intro _
    rw [hfcnt, hfhx, hfto]
    show m.count + occT (HASHSIZE (m.tab (!m.hindex)).hashbits) sf + 1 ≤
      m.count + occT (HASHSIZE (m.tab (!m.hindex)).hashbits)
        (m.tab (!m.hindex)).slots
    omega
  · intro hc
    have hbne : (mf.tab (!mf.hindex)).hashbits ≠ 0 := by
      rw [hfhx, hfto]
      exact hob
    rw [(rehashing_eqv mf).mpr hbne] at hc
    exact Bool.noConfusion hc

end Bind9

namespace Bind9

theorem rehash_one_run {m : Hashmap} (hwf : MapWF m)
    (hre : rehashing_in_progress m = true) :
    ∃ mf, hashmap_rehash_one m = some mf ∧ RehashStep m mf := by
  have hob := (rehashing_eqv m).mp hre
  obtain ⟨holo, hohi, howf, hdisj, hpre, hhit, hcnt, hrs⟩ := hwf.rehash hob
  by_cases hrn : rehash_scan_loop (HASHSIZE (m.tab (!m.hindex)).hashbits)
      (m.tab (!m.hindex)).slots (HASHSIZE (m.tab (!m.hindex)).hashbits) m.hiter =
      HASHSIZE (m.tab (!m.hindex)).hashbits
  · exact rehash_one_run_complete hwf hob hrn
  · obtain ⟨hs1, hs2, hs3, hs4⟩ :=
      @scan_spec (HASHSIZE (m.tab (!m.hindex)).hashbits) (m.tab (!m.hindex)).slots
        (HASHSIZE (m.tab (!m.hindex)).hashbits) m.hiter hhit (by omega)
    obtain ⟨node, hnode⟩ := hs4 (lt_of_le_of_ne hs2 hrn)
    exact rehash_one_run_move hwf hob hrn hnode

end Bind9

namespace Bind9

theorem approx90_div (x : Nat) : APPROX_90_PERCENT x = x * 921 / 1024 := by
  simp [APPROX_90_PERCENT, Nat.shiftRight_eq_div_pow]

theorem approx40_div (x : Nat) : APPROX_40_PERCENT x = x * 409 / 1024 := by
  simp [APPROX_40_PERCENT, Nat.shiftRight_eq_div_pow]

theorem approx20_div (x : Nat) : APPROX_20_PERCENT x = x * 205 / 1024 := by
  simp [APPROX_20_PERCENT, Nat.shiftRight_eq_div_pow]

theorem hashsize_two_le {b : Nat} (hb : 1 ≤ b) : 2 ≤ HASHSIZE b := by
  rw [hashsize_eq]
  calc 2 = 2 ^ 1 := rfl
  _ ≤ 2 ^ b := Nat.pow_le_pow_right (by norm_num) hb

theorem hashsize_mono {a b : Nat} (h : a ≤ b) : HASHSIZE a ≤ HASHSIZE b := by
  rw [hashsize_eq, hashsize_eq]
  exact Nat.pow_le_pow_right (by norm_num) h

theorem hashsize_split {b : Nat} (hb : 1 ≤ b) :
    HASHSIZE b = 2 * HASHSIZE (b - 1) := by
  have hb' : b - 1 + 1 = b := by omega
  calc HASHSIZE b = 2 ^ b := hashsize_eq b
  _ = 2 ^ (b - 1 + 1) := by rw [hb']
  _ = 2 ^ (b - 1) * 2 := pow_succ 2 (b - 1)
  _ = 2 * HASHSIZE (b - 1) := by rw [hashsize_eq]; ring

theorem approx90_lt {b : Nat} (hb : 1 ≤ b) :
    APPROX_90_PERCENT (HASHSIZE b) < HASHSIZE b := by
  have h2 := hashsize_two_le hb
  rw [approx90_div]
  omega

theorem approx90_succ_le {b : Nat} (hb : 1 ≤ b) :
    APPROX_90_PERCENT (HASHSIZE b) + 1 ≤ HASHSIZE b := by
  have h2 := hashsize_two_le hb
  rw [approx90_div]
  omega

theorem approx90_succ_le_pred {b : Nat} (hb : 4 ≤ b) :
    APPROX_90_PERCENT (HASHSIZE b) + 1 ≤ HASHSIZE b - 1 := by
  have h16 : 16 ≤ HASHSIZE b := by
    rw [hashsize_eq]
    calc 16 = 2 ^ 4 := rfl
    _ ≤ 2 ^ b := Nat.pow_le_pow_right (by norm_num) hb
  rw [approx90_div]
  omega

theorem approx40_room {b : Nat} (hb : 2 ≤ b) :
    2 * APPROX_40_PERCENT (HASHSIZE b) + 2 ≤ HASHSIZE b := by
  by_cases hb4 : 4 ≤ b
  · have h16 : 16 ≤ HASHSIZE b := by
      rw [hashsize_eq]
      calc 16 = 2 ^ 4 := rfl
      _ ≤ 2 ^ b := Nat.pow_le_pow_right (by norm_num) hb4
    rw [approx40_div]
    omega
  · have : b = 2 ∨ b = 3 := by omega
    rcases this with h | h <;> subst h <;> decide

theorem approx20_room {b : Nat} (hb : 1 ≤ b) :
    2 * APPROX_20_PERCENT (HASHSIZE b) ≤ HASHSIZE (b - 1) := by
  have hsplit := hashsize_split hb
  rw [approx20_div]
  omega

theorem steady_cap {b count : Nat} (hb1 : 1 ≤ b) (hb : b ≤ 31)
    (hc : count ≤ max (HASHSIZE b - 1) (APPROX_90_PERCENT (HASHSIZE b) + 1)) :
    count + count + 2 ≤ HASHSIZE 32 := by
  have hm31 : HASHSIZE b ≤ HASHSIZE 31 := hashsize_mono hb
  have h32 : HASHSIZE 32 = 2 * HASHSIZE 31 := hashsize_split (by norm_num)
  have hcb : count ≤ HASHSIZE b := by
    rcases le_max_iff.mp hc with h | h
    · omega
    · exact h.trans (approx90_succ_le hb1)
  by_cases hb4 : 4 ≤ b
  · have hcb1 : count ≤ HASHSIZE b - 1 := by
      rcases le_max_iff.mp hc with h | h
      · exact h
      · exact h.trans (approx90_succ_le_pred hb4)
    have h2 := hashsize_two_le hb1
    omega
  · have : HASHSIZE b ≤ HASHSIZE 3 := hashsize_mono (by omega)
    have h8 : HASHSIZE 3 = 8 := by decide
    have h31 : 1024 ≤ HASHSIZE 31 := by
      rw [hashsize_eq]
      calc 1024 = 2 ^ 10 := rfl
      _ ≤ 2 ^ 31 := Nat.pow_le_pow_right (by norm_num) (by norm_num)
    omega

end Bind9

namespace Bind9

theorem grow_loop_zero (count nb : Nat) : grow_bits_loop count 0 nb = nb := by
  conv_lhs => rw [grow_bits_loop]

theorem grow_loop_succ (count fuel nb : Nat) :
    grow_bits_loop count (fuel + 1) nb =
      if count > APPROX_40_PERCENT (HASHSIZE nb) then
        grow_bits_loop count fuel (nb + 1)
      else nb := by
  conv_lhs => rw [grow_bits_loop]

theorem grow_loop_ge (count : Nat) : ∀ fuel nb, nb ≤ grow_bits_loop count fuel nb := by
  intro fuel
  induction fuel with
  | zero => intro nb; rw [grow_loop_zero]
  | succ fuel ih =>
    intro nb
    rw [grow_loop_succ]
    by_cases h : count > APPROX_40_PERCENT (HASHSIZE nb)
    · rw [if_pos h]
      exact (Nat.le_succ nb).trans (ih (nb + 1))
    · rw [if_neg h]

theorem grow_loop_exit (count : Nat) : ∀ fuel nb,
    count ≤ APPROX_40_PERCENT (HASHSIZE (nb + fuel)) →
    count ≤ APPROX_40_PERCENT (HASHSIZE (grow_bits_loop count fuel nb)) := by
  intro fuel
  induction fuel with
  | zero =>
    intro nb h
    rw [grow_loop_zero]
    simpa using h
  | succ fuel ih =>
    intro nb h
    rw [grow_loop_succ]
    by_cases hc : count > APPROX_40_PERCENT (HASHSIZE nb)
    · rw [if_pos hc]
      apply ih
      have heq : nb + 1 + fuel = nb + (fuel + 1) := by omega
      rw [heq]
      exact h
    · rw [if_neg hc]
      omega

theorem grow_loop_min (count : Nat) : ∀ fuel nb c, nb ≤ c →
    c < grow_bits_loop count fuel nb →
    count > APPROX_40_PERCENT (HASHSIZE c) := by
  intro fuel
  induction fuel with
  | zero =>
    intro nb c h1 h2
    rw [grow_loop_zero] at h2
    omega
  | succ fuel ih =>
    intro nb c h1 h2
    rw [grow_loop_succ] at h2
    by_cases hc : count > APPROX_40_PERCENT (HASHSIZE nb)
    · rw [if_pos hc] at h2
      by_cases hce : c = nb
      · subst hce; exact hc
      · exact ih (nb + 1) c (by omega) h2
    · rw [if_neg hc] at h2
      omega

theorem grow_fuel_ok (count start : Nat) :
    count ≤ APPROX_40_PERCENT (HASHSIZE (start + (count + 34))) := by
  rw [approx40_div, hashsize_eq]
  have h1 : count < 2 ^ count := Nat.lt_pow_self (by norm_num) count
  have h2 : 2 ^ (count + 4) ≤ 2 ^ (start + (count + 34)) :=
    Nat.pow_le_pow_right (by norm_num) (by omega)
  have h3 : 2 ^ (count + 4) = 16 * 2 ^ count := by rw [pow_add]; ring
  omega

theorem grow_bits_eq (m : Hashmap) :
    grow_bits m =
      if grow_bits_loop m.count (m.count + 34) ((m.tab m.hindex).hashbits + 1) >
          HASHMAP_MAX_BITS then HASHMAP_MAX_BITS
      else grow_bits_loop m.count (m.count + 34) ((m.tab m.hindex).hashbits + 1) := rfl

theorem grow_bits_spec {m : Hashmap} (hlt : (m.tab m.hindex).hashbits ≤ 31) :
    (m.tab m.hindex).hashbits < grow_bits m ∧ grow_bits m ≤ 32 ∧
    (grow_bits m = 32 ∨ m.count ≤ APPROX_40_PERCENT (HASHSIZE (grow_bits m))) := by
  rw [grow_bits_eq]
  have hmax : HASHMAP_MAX_BITS = 32 := rfl
  have hge := grow_loop_ge m.count (m.count + 34) ((m.tab m.hindex).hashbits + 1)
  by_cases hcap : grow_bits_loop m.count (m.count + 34)
      ((m.tab m.hindex).hashbits + 1) > HASHMAP_MAX_BITS
  · rw [if_pos hcap, hmax]
    exact ⟨by omega, le_rfl, Or.inl rfl⟩
  · rw [if_neg hcap]
    refine ⟨by omega, by omega, Or.inr ?_⟩
    have hfu := grow_fuel_ok m.count ((m.tab m.hindex).hashbits + 1)
    exact grow_loop_exit m.count (m.count + 34) ((m.tab m.hindex).hashbits + 1) hfu

end Bind9

namespace Bind9

theorem tab_upd_hindex (m : Hashmap) (i : Bool) (idx : Bool) :
    ({ m with hindex := i } : Hashmap).tab idx = m.tab idx := by
  cases idx <;> rfl

theorem TableWF_empty (cs : Bool) (b : Nat) :
    TableWF cs b (fun _ => none) := by
  refine { good := ?_, chain := ?_, uniq := ?_ }
  · intro p hp x hx
    exact Option.noConfusion hx
  · intro p hp x hx
    exact Option.noConfusion hx
  · intro p hp q hq hpq x y hx
    exact Option.noConfusion hx

theorem over_true {m : Hashmap} (h : over_threshold m = true) :
    (m.tab m.hindex).hashbits ≠ HASHMAP_MAX_BITS ∧
    APPROX_90_PERCENT (HASHSIZE (m.tab m.hindex).hashbits) < m.count := by
  simp only [over_threshold] at h
  by_cases hb : (m.tab m.hindex).hashbits = HASHMAP_MAX_BITS
  · rw [if_pos hb] at h
    exact Bool.noConfusion h
  · rw [if_neg hb] at h
    exact ⟨hb, by exact_mod_cast of_decide_eq_true h⟩

theorem under_true {m : Hashmap} (h : under_threshold m = true) :
    (m.tab m.hindex).hashbits ≠ HASHMAP_MIN_BITS ∧
    m.count < APPROX_20_PERCENT (HASHSIZE (m.tab m.hindex).hashbits) := by
  simp only [under_threshold] at h
  by_cases hb : (m.tab m.hindex).hashbits = HASHMAP_MIN_BITS
  · rw [if_pos hb] at h
    exact Bool.noConfusion h
  · rw [if_neg hb] at h
    exact ⟨hb, by exact_mod_cast of_decide_eq_true h⟩

theorem start_grow_eq (m : Hashmap) :
    hashmap_rehash_start_grow m =
      if grow_bits m > (m.tab m.hindex).hashbits then
        { m.setTab (!m.hindex) (⟨grow_bits m, fun _ => none⟩ : HTable) with
          hindex := !m.hindex }
      else m := rfl

theorem start_shrink_eq (m : Hashmap) :
    hashmap_rehash_start_shrink m =
      if shrink_bits m < (m.tab m.hindex).hashbits then
        { m.setTab (!m.hindex) (⟨shrink_bits m, fun _ => none⟩ : HTable) with
          hindex := !m.hindex }
      else m := rfl

theorem shrink_bits_eq {m : Hashmap} (hb : 2 ≤ (m.tab m.hindex).hashbits) :
    shrink_bits m = (m.tab m.hindex).hashbits - 1 := by
  simp only [shrink_bits, HASHMAP_MIN_BITS]
  by_cases h : (m.tab m.hindex).hashbits - 1 ≤ 1
  · rw [if_pos h]
    omega
  · rw [if_neg h]

end Bind9

namespace Bind9

theorem start_fresh_wf {m : Hashmap} {nb : Nat} {mg : Hashmap} (hwf : MapWF m)
    (hst : (m.tab (!m.hindex)).hashbits = 0)
    (hmg : mg = { m.setTab (!m.hindex) (⟨nb, fun _ => none⟩ : HTable) with
      hindex := !m.hindex })
    (hb1 : 1 ≤ nb) (hb32 : nb ≤ 32)
    (hrs : m.count + m.count + 2 ≤ HASHSIZE nb) :
    MapWF mg ∧ rehashing_in_progress mg = true ∧
    mg.case_sensitive = m.case_sensitive ∧ mg.count = m.count ∧
    (mg.tab mg.hindex).hashbits = nb ∧
    (∀ hv k v, mapKV mg hv k v ↔ mapKV m hv k v) := by
  obtain ⟨hall, hhit0, hcc, hN⟩ := hwf.steady hst
  have hghx : mg.hindex = !m.hindex := by rw [hmg]
  have hgcs : mg.case_sensitive = m.case_sensitive := by
    rw [hmg]; exact setTab_cs _ _ _
  have hgcnt : mg.count = m.count := by rw [hmg]; exact setTab_count _ _ _
  have hghit : mg.hiter = m.hiter := by rw [hmg]; exact setTab_hiter _ _ _
  have hgta : mg.tab (!m.hindex) = (⟨nb, fun _ => none⟩ : HTable) := by
    rw [hmg, tab_upd_hindex]; exact tab_setTab_same _ _ _
  have hgto : mg.tab m.hindex = m.tab m.hindex := by
    rw [hmg, tab_upd_hindex]
    have h2 := tab_setTab_other m (!m.hindex) (⟨nb, fun _ => none⟩ : HTable)
    rw [Bool.not_not] at h2
    exact h2
  have hz : occT (HASHSIZE nb) (fun _ => none) = 0 := occT_zero (fun p _ => rfl)
  refine ⟨⟨?_, ?_, ?_, ?_, ?_⟩, ?_, hgcs, hgcnt, ?_, ?_⟩
  · rw [hghx, hgta]; exact hb1
  · rw [hghx, hgta]; exact hb32
  · rw [hgcs, hghx, hgta]; exact TableWF_empty m.case_sensitive nb
  · intro hc
    rw [hghx, Bool.not_not, hgto] at hc
    exact absurd hc (by have := hwf.abits_lo; omega)
  · intro _
    refine ⟨?_, ?_, ?_, ?_, ?_, ?_, ?_, ?_⟩
    · rw [hghx, Bool.not_not, hgto]; exact hwf.abits_lo
    · rw [hghx, Bool.not_not, hgto]; exact hwf.abits_hi
    · rw [hgcs, hghx, Bool.not_not, hgto]; exact hwf.awf
    · rw [hgcs, hghx, Bool.not_not, hgto, hgta]
      intro p hp x hx q hq y hy
      exact Option.noConfusion hy
    · rw [hghit, hhit0, hghx, Bool.not_not, hgto]
      intro p hp
      exact absurd hp (Nat.not_lt_zero p)
    · rw [hghit, hhit0, hghx, Bool.not_not, hgto]
      exact Nat.zero_le _
    · rw [hgcnt, hghx, Bool.not_not, hgto, hgta]
      show m.count = occT (HASHSIZE nb) (fun _ => none) +
        occT (HASHSIZE (m.tab m.hindex).hashbits) (m.tab m.hindex).slots
      omega
    · rw [hgcnt, hghx, Bool.not_not, hgto, hgta]
      show m.count + occT (HASHSIZE (m.tab m.hindex).hashbits)
        (m.tab m.hindex).slots + 2 ≤ HASHSIZE nb
      omega
  · refine (rehashing_eqv mg).mpr ?_
    rw [hghx, Bool.not_not, hgto]
    have := hwf.abits_lo
    omega
  · rw [hghx, hgta]
  · intro hv k v
    unfold mapKV
    rw [hgcs, hghx, Bool.not_not, hgto, hgta]
    constructor
    · rintro (h | h)
      · obtain ⟨p, hp, x, hx, _⟩ := h
        exact Option.noConfusion hx
      · exact Or.inl h
    · rintro (h | h)
      · exact Or.inr h
      · obtain ⟨p, hp, x, hx, _⟩ := h
        rw [hall p] at hx
        exact Option.noConfusion hx

theorem start_grow_run {m : Hashmap} (hwf : MapWF m)
    (hst : (m.tab (!m.hindex)).hashbits = 0)
    (hov : over_threshold m = true) :
    MapWF (hashmap_rehash_start_grow m) ∧
    rehashing_in_progress (hashmap_rehash_start_grow m) = true ∧
    (hashmap_rehash_start_grow m).case_sensitive = m.case_sensitive ∧
    (hashmap_rehash_start_grow m).count = m.count ∧
    ((hashmap_rehash_start_grow m).tab
      (hashmap_rehash_start_grow m).hindex).hashbits = grow_bits m ∧
    (∀ hv k v, mapKV (hashmap_rehash_start_grow m) hv k v ↔ mapKV m hv k v) := by
  obtain ⟨hbne, h90⟩ := over_true hov
  have hmax : HASHMAP_MAX_BITS = 32 := rfl
  rw [hmax] at hbne
  have hb31 : (m.tab m.hindex).hashbits ≤ 31 := by
    have := hwf.abits_hi; omega
  obtain ⟨hgt, hle32, hor⟩ := grow_bits_spec hb31
  obtain ⟨hall, hhit0, hcc, hN⟩ := hwf.steady hst
  have hrs : m.count + m.count + 2 ≤ HASHSIZE (grow_bits m) := by
    rcases hor with h32 | h40
    · rw [h32]
      exact steady_cap hwf.abits_lo hb31 (hN hb31)
    · have hroom := approx40_room (show 2 ≤ grow_bits m by
        have := hwf.abits_lo; omega)
      omega
  have heq : hashmap_rehash_start_grow m = { m.setTab (!m.hindex)
      (⟨grow_bits m, fun _ => none⟩ : HTable) with hindex := !m.hindex } := by
    rw [start_grow_eq, if_pos hgt]
  rw [heq]
  exact start_fresh_wf hwf hst rfl (by have := hwf.abits_lo; omega) hle32 hrs

theorem start_shrink_run {m : Hashmap} (hwf : MapWF m)
    (hst : (m.tab (!m.hindex)).hashbits = 0)
    (hun : under_threshold m = true) :
    MapWF (hashmap_rehash_start_shrink m) ∧
    rehashing_in_progress (hashmap_rehash_start_shrink m) = true ∧
    (hashmap_rehash_start_shrink m).case_sensitive = m.case_sensitive ∧
    (hashmap_rehash_start_shrink m).count = m.count ∧
    ((hashmap_rehash_start_shrink m).tab
      (hashmap_rehash_start_shrink m).hindex).hashbits = shrink_bits m ∧
    (∀ hv k v, mapKV (hashmap_rehash_start_shrink m) hv k v ↔ mapKV m hv k v) := by
  obtain ⟨hbne, h20⟩ := under_true hun
  have hmin : HASHMAP_MIN_BITS = 1 := rfl
  rw [hmin] at hbne
  have hs2 : 2 ≤ (m.tab m.hindex).hashbits := by
    have := hwf.abits_lo; omega
  have hsb := shrink_bits_eq hs2
  have hlt : shrink_bits m < (m.tab m.hindex).hashbits := by omega
  obtain ⟨hall, hhit0, hcc, hN⟩ := hwf.steady hst
  have hrs : m.count + m.count + 2 ≤ HASHSIZE (shrink_bits m) := by
    have hroom := approx20_room (show 1 ≤ (m.tab m.hindex).hashbits by omega)
    rw [hsb]
    omega
  have heq : hashmap_rehash_start_shrink m = { m.setTab (!m.hindex)
      (⟨shrink_bits m, fun _ => none⟩ : HTable) with hindex := !m.hindex } := by
    rw [start_shrink_eq, if_pos hlt]
  rw [heq]
  exact start_fresh_wf hwf hst rfl (by omega) (by have := hwf.abits_hi; omega) hrs

end Bind9

namespace Bind9

theorem add_step1_run {m : Hashmap} (hwf : MapWF m) :
    ∃ m1, (if rehashing_in_progress m then hashmap_rehash_one m
      else if over_threshold m then
        hashmap_rehash_one (hashmap_rehash_start_grow m)
      else some m) = some m1 ∧
    MapWF m1 ∧ m1.case_sensitive = m.case_sensitive ∧ m1.count = m.count ∧
    (∀ hv k v, mapKV m1 hv k v ↔ mapKV m hv k v) ∧
    (rehashing_in_progress m1 = true →
      m1.count + occT (HASHSIZE (m1.tab (!m1.hindex)).hashbits)
        (m1.tab (!m1.hindex)).slots + 3 ≤ HASHSIZE (m1.tab m1.hindex).hashbits) ∧
    (rehashing_in_progress m1 = false →
      m1.count + 2 ≤ HASHSIZE (m1.tab m1.hindex).hashbits ∨
      (m1 = m ∧ over_threshold m = false ∧ rehashing_in_progress m = false)) := by
  by_cases hre : rehashing_in_progress m = true
  · rw [if_pos hre]
    obtain ⟨mf, hfe, hstep⟩ := rehash_one_run hwf hre
    obtain ⟨hwf1, hcs1, hhx1, hcnt1, hbits1, hcont1, hdec1, hpost1⟩ := hstep
    refine ⟨mf, hfe, hwf1, hcs1, hcnt1, hcont1, ?_, ?_⟩
    · intro hre1
      have hd := hdec1 hre1
      have hob := (rehashing_eqv m).mp hre
      obtain ⟨_, _, _, _, _, _, _, hrs⟩ := hwf.rehash hob
      rw [hbits1]
      omega
    · intro hre1
      exact Or.inl (hpost1 hre1)
  · rw [if_neg hre]
    have hrf : rehashing_in_progress m = false := by
      cases h : rehashing_in_progress m
      · rfl
      · exact absurd h hre
    have hst : (m.tab (!m.hindex)).hashbits = 0 := by
      by_cases h0 : (m.tab (!m.hindex)).hashbits = 0
      · exact h0
      · exact absurd ((rehashing_eqv m).mpr h0) hre
    by_cases hov : over_threshold m = true
    · rw [if_pos hov]
      obtain ⟨hwfg, hreg, hcsg, hcntg, hbitsg, hcontg⟩ := start_grow_run hwf hst hov
      obtain ⟨mf, hfe, hstep⟩ := rehash_one_run hwfg hreg
      obtain ⟨hwf1, hcs1, hhx1, hcnt1, hbits1, hcont1, hdec1, hpost1⟩ := hstep
      refine ⟨mf, hfe, hwf1, hcs1.trans hcsg, hcnt1.trans hcntg, ?_, ?_, ?_⟩
      · intro hv k v
        rw [hcont1 hv k v]
        exact hcontg hv k v
      · intro hre1
        have hd := hdec1 hre1
        have hobg := (rehashing_eqv _).mp hreg
        obtain ⟨_, _, _, _, _, _, _, hrs⟩ := hwfg.rehash hobg
        rw [hbits1]
        omega
      · intro hre1
        exact Or.inl (hpost1 hre1)
    · rw [if_neg hov]
      have hovf : over_threshold m = false := by
        cases h : over_threshold m
        · rfl
        · exact absurd h hov
      refine ⟨m, rfl, hwf, rfl, rfl, fun hv k v => Iff.rfl, ?_, ?_⟩
      · intro hre1
        exact absurd hre1 hre
      · intro _
        exact Or.inr ⟨rfl, hovf, hrf⟩

theorem del_step1_run {m : Hashmap} (hwf : MapWF m) :
    ∃ m1, (if rehashing_in_progress m then hashmap_rehash_one m
      else if under_threshold m then
        hashmap_rehash_one (hashmap_rehash_start_shrink m)
      else some m) = some m1 ∧
    MapWF m1 ∧ m1.case_sensitive = m.case_sensitive ∧ m1.count = m.count ∧
    (∀ hv k v, mapKV m1 hv k v ↔ mapKV m hv k v) := by
  by_cases hre : rehashing_in_progress m = true
  · rw [if_pos hre]
    obtain ⟨mf, hfe, hstep⟩ := rehash_one_run hwf hre
    obtain ⟨hwf1, hcs1, hhx1, hcnt1, hbits1, hcont1, hdec1, hpost1⟩ := hstep
    exact ⟨mf, hfe, hwf1, hcs1, hcnt1, hcont1⟩
  · rw [if_neg hre]
    have hst : (m.tab (!m.hindex)).hashbits = 0 := by
      by_cases h0 : (m.tab (!m.hindex)).hashbits = 0
      · exact h0
      · exact absurd ((rehashing_eqv m).mpr h0) hre
    by_cases hun : under_threshold m = true
    · rw [if_pos hun]
      obtain ⟨hwfg, hreg, hcsg, hcntg, hbitsg, hcontg⟩ := start_shrink_run hwf hst hun
      obtain ⟨mf, hfe, hstep⟩ := rehash_one_run hwfg hreg
      obtain ⟨hwf1, hcs1, hhx1, hcnt1, hbits1, hcont1, hdec1, hpost1⟩ := hstep
      refine ⟨mf, hfe, hwf1, hcs1.trans hcsg, hcnt1.trans hcntg, ?_⟩
      intro hv k v
      rw [hcont1 hv k v]
      exact hcontg hv k v
    · rw [if_neg hun]
      exact ⟨m, rfl, hwf, rfl, rfl, fun hv k v => Iff.rfl⟩

end Bind9

namespace Bind9

theorem isc_add_eq_steady {H : List Nat → Nat} {m m1 : Hashmap} {key : List Nat}
    {value : Nat}
    (hk : ¬ key.length > 65535)
    (hstep : (if rehashing_in_progress m then hashmap_rehash_one m
      else if over_threshold m then
        hashmap_rehash_one (hashmap_rehash_start_grow m)
      else some m) = some m1)
    (hre1 : rehashing_in_progress m1 = false) :
    isc_hashmap_add H m key value =
      match hashmap_add_m m1 (H key) key value m1.hindex with
      | none => none
      | some (true, m2) => some (HmRes.success, m2)
      | some (false, m2) => some (HmRes.rexists, m2) := by
  simp only [isc_hashmap_add, if_neg hk]
  rw [hstep]
  show (if rehashing_in_progress m1 then
      match hashmap_find_table m1.case_sensitive
          (m1.tab (hashmap_nexttable m1.hindex)) (H key) key with
      | none => none
      | some (some _) => some (HmRes.rexists, m1)
      | some none =>
        match hashmap_add_m m1 (H key) key value m1.hindex with
        | none => none
        | some (true, m2) => some (HmRes.success, m2)
        | some (false, m2) => some (HmRes.rexists, m2)
    else
      match hashmap_add_m m1 (H key) key value m1.hindex with
      | none => none
      | some (true, m2) => some (HmRes.success, m2)
      | some (false, m2) => some (HmRes.rexists, m2)) =
      match hashmap_add_m m1 (H key) key value m1.hindex with
      | none => none
      | some (true, m2) => some (HmRes.success, m2)
      | some (false, m2) => some (HmRes.rexists, m2)
  rw [hre1, if_neg Bool.false_ne_true]

theorem isc_add_eq_dup {H : List Nat → Nat} {m m1 : Hashmap} {key : List Nat}
    {value : Nat} {pr : Nat × HNode}
    (hk : ¬ key.length > 65535)
    (hstep : (if rehashing_in_progress m then hashmap_rehash_one m
      else if over_threshold m then
        hashmap_rehash_one (hashmap_rehash_start_grow m)
      else some m) = some m1)
    (hre1 : rehashing_in_progress m1 = true)
    (hfind : hashmap_find_table m1.case_sensitive
      (m1.tab (hashmap_nexttable m1.hindex)) (H key) key = some (some pr)) :
    isc_hashmap_add H m key value = some (HmRes.rexists, m1) := by
  simp only [isc_hashmap_add, if_neg hk]
  rw [hstep]
  show (if rehashing_in_progress m1 then
      match hashmap_find_table m1.case_sensitive
          (m1.tab (hashmap_nexttable m1.hindex)) (H key) key with
      | none => none
      | some (some _) => some (HmRes.rexists, m1)
      | some none =>
        match hashmap_add_m m1 (H key) key value m1.hindex with
        | none => none
        | some (true, m2) => some (HmRes.success, m2)
        | some (false, m2) => some (HmRes.rexists, m2)
    else
      match hashmap_add_m m1 (H key) key value m1.hindex with
      | none => none
      | some (true, m2) => some (HmRes.success, m2)
      | some (false, m2) => some (HmRes.rexists, m2)) = some (HmRes.rexists, m1)
  rw [hre1, if_pos rfl, hfind]

theorem isc_add_eq_nodup {H : List Nat → Nat} {m m1 : Hashmap} {key : List Nat}
    {value : Nat}
    (hk : ¬ key.length > 65535)
    (hstep : (if rehashing_in_progress m then hashmap_rehash_one m
      else if over_threshold m then
        hashmap_rehash_one (hashmap_rehash_start_grow m)
      else some m) = some m1)
    (hre1 : rehashing_in_progress m1 = true)
    (hfind : hashmap_find_table m1.case_sensitive
      (m1.tab (hashmap_nexttable m1.hindex)) (H key) key = some none) :
    isc_hashmap_add H m key value =
      match hashmap_add_m m1 (H key) key value m1.hindex with
      | none => none
      | some (true, m2) => some (HmRes.success, m2)
      | some (false, m2) => some (HmRes.rexists, m2) := by
  simp only [isc_hashmap_add, if_neg hk]
  rw [hstep]
  show (if rehashing_in_progress m1 then
      match hashmap_find_table m1.case_sensitive
          (m1.tab (hashmap_nexttable m1.hindex)) (H key) key with
      | none => none
      | some (some _) => some (HmRes.rexists, m1)
      | some none =>
        match hashmap_add_m m1 (H key) key value m1.hindex with
        | none => none
        | some (true, m2) => some (HmRes.success, m2)
        | some (false, m2) => some (HmRes.rexists, m2)
    else
      match hashmap_add_m m1 (H key) key value m1.hindex with
      | none => none
      | some (true, m2) => some (HmRes.success, m2)
      | some (false, m2) => some (HmRes.rexists, m2)) =
      match hashmap_add_m m1 (H key) key value m1.hindex with
      | none => none
      | some (true, m2) => some (HmRes.success, m2)
      | some (false, m2) => some (HmRes.rexists, m2)
  rw [hre1, if_pos rfl, hfind]

theorem isc_del_eq_missing {H : List Nat → Nat} {m m1 : Hashmap} {key : List Nat}
    (hk : ¬ key.length > 65535)
    (hstep : (if rehashing_in_progress m then hashmap_rehash_one m
      else if under_threshold m then
        hashmap_rehash_one (hashmap_rehash_start_shrink m)
      else some m) = some m1)
    (hfind : hashmap_find2 m1 (H key) key m1.hindex = some none) :
    isc_hashmap_delete H m key = some (HmRes.notFound, m1) := by
  simp only [isc_hashmap_delete, if_neg hk]
  rw [hstep]
  show (match hashmap_find2 m1 (H key) key m1.hindex with
    | none => none
    | some none => some (HmRes.notFound, m1)
    | some (some (idx, psl, _)) =>
      match hashmap_delete_node m1
          ((isc_hash_bits32 (H key) (m1.tab idx).hashbits + psl) %
            HASHSIZE (m1.tab idx).hashbits) (H key) psl idx with
      | none => none
      | some m2 => some (HmRes.success, m2)) = some (HmRes.notFound, m1)
  rw [hfind]

theorem isc_del_eq_found {H : List Nat → Nat} {m m1 m2 : Hashmap} {key : List Nat}
    {idx : Bool} {psl : Nat} {x : HNode}
    (hk : ¬ key.length > 65535)
    (hstep : (if rehashing_in_progress m then hashmap_rehash_one m
      else if under_threshold m then
        hashmap_rehash_one (hashmap_rehash_start_shrink m)
      else some m) = some m1)
    (hfind : hashmap_find2 m1 (H key) key m1.hindex = some (some (idx, psl, x)))
    (hdel : hashmap_delete_node m1
      ((isc_hash_bits32 (H key) (m1.tab idx).hashbits + psl) %
        HASHSIZE (m1.tab idx).hashbits) (H key) psl idx = some m2) :
    isc_hashmap_delete H m key = some (HmRes.success, m2) := by
  simp only [isc_hashmap_delete, if_neg hk]
  rw [hstep]
  show (match hashmap_find2 m1 (H key) key m1.hindex with
    | none => none
    | some none => some (HmRes.notFound, m1)
    | some (some (idxx, pslx, _)) =>
      match hashmap_delete_node m1
          ((isc_hash_bits32 (H key) (m1.tab idxx).hashbits + pslx) %
            HASHSIZE (m1.tab idxx).hashbits) (H key) pslx idxx with
      | none => none
      | some m2x => some (HmRes.success, m2x)) = some (HmRes.success, m2)
  rw [hfind]
  show (match hashmap_delete_node m1
      ((isc_hash_bits32 (H key) (m1.tab idx).hashbits + psl) %
        HASHSIZE (m1.tab idx).hashbits) (H key) psl idx with
    | none => none
    | some m2x => some (HmRes.success, m2x)) = some (HmRes.success, m2)
  rw [hdel]

end Bind9

namespace Bind9

theorem not_rehashing_bits {m : Hashmap} (h : rehashing_in_progress m = false) :
    (m.tab (!m.hindex)).hashbits = 0 := by
  by_cases h0 : (m.tab (!m.hindex)).hashbits = 0
  · exact h0
  · rw [(rehashing_eqv m).mpr h0] at h
    exact Bool.noConfusion h

theorem over_false {m : Hashmap} (h : over_threshold m = false) :
    (m.tab m.hindex).hashbits = HASHMAP_MAX_BITS ∨
    m.count ≤ APPROX_90_PERCENT (HASHSIZE (m.tab m.hindex).hashbits) := by
  simp only [over_threshold] at h
  by_cases hb : (m.tab m.hindex).hashbits = HASHMAP_MAX_BITS
  · exact Or.inl hb
  · rw [if_neg hb] at h
    have := of_decide_eq_false h
    right
    omega

theorem under_false {m : Hashmap} (h : under_threshold m = false) :
    (m.tab m.hindex).hashbits = HASHMAP_MIN_BITS ∨
    APPROX_20_PERCENT (HASHSIZE (m.tab m.hindex).hashbits) ≤ m.count := by
  simp only [under_threshold] at h
  by_cases hb : (m.tab m.hindex).hashbits = HASHMAP_MIN_BITS
  · exact Or.inl hb
  · rw [if_neg hb] at h
    have := of_decide_eq_false h
    right
    omega

theorem mapAbs_iff {m : Hashmap} {hv : Nat} {k : List Nat} :
    mapAbs m hv k ↔ ∀ v, ¬ mapKV m hv k v := by
  constructor
  · rintro ⟨h1, h2⟩ v hkv
    rcases hkv with h | h
    · exact no_kv_of_absent h1 v h
    · exact no_kv_of_absent h2 v h
  · intro h
    constructor
    · exact absent_of_no_kv (fun v hv' => h v (Or.inl hv'))
    · exact absent_of_no_kv (fun v hv' => h v (Or.inr hv'))

theorem add_m_post {m1 m2 : Hashmap} {s2 : Nat → Option HNode}
    (hm2 : m2 = Hashmap.setTab { m1 with count := m1.count + 1 } m1.hindex
      { m1.tab m1.hindex with slots := s2 }) :
    m2.case_sensitive = m1.case_sensitive ∧ m2.hindex = m1.hindex ∧
    m2.count = m1.count + 1 ∧ m2.hiter = m1.hiter ∧
    m2.tab m1.hindex = { m1.tab m1.hindex with slots := s2 } ∧
    m2.tab (!m1.hindex) = m1.tab (!m1.hindex) := by
  refine ⟨?_, ?_, ?_, ?_, ?_, ?_⟩
  · rw [hm2]; exact setTab_cs _ _ _
  · rw [hm2]; exact setTab_hindex _ _ _
  · rw [hm2]; exact setTab_count _ _ _
  · rw [hm2]; exact setTab_hiter _ _ _
  · rw [hm2]; exact tab_setTab_same _ _ _
  · rw [hm2, tab_setTab_other]
    exact tab_upd_count _ _ _

theorem add_m_wf {m1 : Hashmap} {hv : Nat} {key : List Nat} {value : Nat}
    (hwf1 : MapWF m1) (habs1 : mapAbs m1 hv key) (hk : key.length ≤ 65535)
    (hroom : occT (HASHSIZE (m1.tab m1.hindex).hashbits) (m1.tab m1.hindex).slots <
      HASHSIZE (m1.tab m1.hindex).hashbits)
    (hsafe : rehashing_in_progress m1 = true →
      m1.count + occT (HASHSIZE (m1.tab (!m1.hindex)).hashbits)
        (m1.tab (!m1.hindex)).slots + 3 ≤ HASHSIZE (m1.tab m1.hindex).hashbits)
    (hN : rehashing_in_progress m1 = false → (m1.tab m1.hindex).hashbits ≤ 31 →
      m1.count + 1 ≤ max (HASHSIZE (m1.tab m1.hindex).hashbits - 1)
        (APPROX_90_PERCENT (HASHSIZE (m1.tab m1.hindex).hashbits) + 1)) :
    ∃ m2, hashmap_add_m m1 hv key value m1.hindex = some (true, m2) ∧
      MapWF m2 ∧ m2.case_sensitive = m1.case_sensitive ∧ m2.count = m1.count + 1 ∧
      (∀ hv' k' v', mapKV m2 hv' k' v' ↔ (mapKV m1 hv' k' v' ∨
        (hashmap_match m1.case_sensitive (⟨key, value, hv, 0⟩ : HNode) hv' k' = true ∧
          v' = value))) := by
  obtain ⟨s2, hadd, hwfa, hconta, hocca⟩ := add_m_insert hwf1.awf habs1.1 hk hroom
  obtain ⟨m2, haddf, hm2⟩ : ∃ m2, hashmap_add_m m1 hv key value m1.hindex =
      some (true, m2) ∧ m2 = Hashmap.setTab { m1 with count := m1.count + 1 }
        m1.hindex { m1.tab m1.hindex with slots := s2 } := ⟨_, hadd, rfl⟩
  obtain ⟨h2cs, h2hx, h2cnt, h2hit, h2ta, h2to⟩ := add_m_post hm2
  have hcontent : ∀ hv' k' v', mapKV m2 hv' k' v' ↔ (mapKV m1 hv' k' v' ∨
      (hashmap_match m1.case_sensitive (⟨key, value, hv, 0⟩ : HNode) hv' k' = true ∧
        v' = value)) := by
    intro hv' k' v'
    unfold mapKV
    rw [h2cs, h2hx, h2ta, h2to]
    constructor
    · rintro (h | h)
      · rcases (hconta hv' k' v').mp h with hkv | hcl
        · exact Or.inl (Or.inl hkv)
        · exact Or.inr hcl
      · exact Or.inl (Or.inr h)
    · rintro (h | hcl)
      · rcases h with h | h
        · exact Or.inl ((hconta hv' k' v').mpr (Or.inl h))
        · exact Or.inr h
      · exact Or.inl ((hconta hv' k' v').mpr (Or.inr hcl))
  refine ⟨m2, haddf, ?_, h2cs, h2cnt, hcontent⟩
  cases hre1 : rehashing_in_progress m1 with
  | false =>
    have hst1 := not_rehashing_bits hre1
    obtain ⟨hall1, hhit1, hcc1, hN1⟩ := hwf1.steady hst1
    refine ⟨?_, ?_, ?_, ?_, ?_⟩
    · rw [h2hx, h2ta]; exact hwf1.abits_lo
    · rw [h2hx, h2ta]; exact hwf1.abits_hi
    · rw [h2cs, h2hx, h2ta]; exact hwfa
    · intro _
      rw [h2hx, h2to, h2hit, h2cnt]
      refine ⟨hall1, hhit1, ?_, ?_⟩
      · rw [h2ta]
        show m1.count + 1 = occT (HASHSIZE (m1.tab m1.hindex).hashbits) s2
        omega
      · intro hb31
        rw [h2ta]
        rw [h2ta] at hb31
        exact hN hre1 hb31
    · intro hc
      rw [h2hx, h2to] at hc
      exact absurd hst1 hc
  | true =>
    have hob := (rehashing_eqv m1).mp hre1
    obtain ⟨holo, hohi, howf, hdisj, hpre, hhit, hcnt, hrs⟩ := hwf1.rehash hob
    have hs3 := hsafe hre1
    refine ⟨?_, ?_, ?_, ?_, ?_⟩
    · rw [h2hx, h2ta]; exact hwf1.abits_lo
    · rw [h2hx, h2ta]; exact hwf1.abits_hi
    · rw [h2cs, h2hx, h2ta]; exact hwfa
    · intro hc
      rw [h2hx, h2to] at hc
      exact absurd hc hob
    · intro _
      refine ⟨?_, ?_, ?_, ?_, ?_, ?_, ?_, ?_⟩
      · rw [h2hx, h2to]; exact holo
      · rw [h2hx, h2to]; exact hohi
      · rw [h2cs, h2hx, h2to]; exact howf
      · rw [h2cs, h2hx, h2to, h2ta]
        intro p hp x hx
        apply absent_of_no_kv
        intro v hv'
        rcases (hconta x.hashval x.key v).mp hv' with hkv | ⟨hm0, _⟩
        · exact no_kv_of_absent (hdisj p hp x hx) v hkv
        · have hsym := match_symm hm0
          rw [habs1.2 p hp x hx] at hsym
          exact Bool.noConfusion hsym
      · rw [h2hit, h2hx, h2to]; exact hpre
      · rw [h2hit, h2hx, h2to]; exact hhit
      · rw [h2cnt, h2hx, h2ta, h2to]
        show m1.count + 1 = occT (HASHSIZE (m1.tab m1.hindex).hashbits) s2 +
          occT (HASHSIZE (m1.tab (!m1.hindex)).hashbits) (m1.tab (!m1.hindex)).slots
        omega
      · rw [h2cnt, h2hx, h2ta, h2to]
        show m1.count + 1 + occT (HASHSIZE (m1.tab (!m1.hindex)).hashbits)
          (m1.tab (!m1.hindex)).slots + 2 ≤ HASHSIZE (m1.tab m1.hindex).hashbits
        omega

end Bind9

namespace Bind9

theorem isc_add_success {H : List Nat → Nat} {m : Hashmap} {key : List Nat}
    {value : Nat} (hwf : MapWF m) (hk : key.length ≤ 65535)
    (habs : mapAbs m (H key) key)
    (hcap : m.count + 2 ≤ HASHSIZE HASHMAP_MAX_BITS) :
    ∃ m2, isc_hashmap_add H m key value = some (HmRes.success, m2) ∧
      MapWF m2 ∧ m2.case_sensitive = m.case_sensitive ∧
      m2.count = m.count + 1 ∧
      (∀ hv' k' v', mapKV m2 hv' k' v' ↔ (mapKV m hv' k' v' ∨
        (hashmap_match m.case_sensitive (⟨key, value, H key, 0⟩ : HNode) hv' k' =
          true ∧ v' = value))) := by
  obtain ⟨m1, hstep, hwf1, hcs1, hcnt1, hcont1, hub3, hub2⟩ := add_step1_run hwf
  have hk' : ¬ key.length > 65535 := by omega
  have habs1 : mapAbs m1 (H key) key :=
    mapAbs_iff.mpr (fun v hkv => mapAbs_iff.mp habs v ((hcont1 _ _ v).mp hkv))
  have hroom : occT (HASHSIZE (m1.tab m1.hindex).hashbits) (m1.tab m1.hindex).slots <
      HASHSIZE (m1.tab m1.hindex).hashbits := by
    cases hre1 : rehashing_in_progress m1 with
    | true =>
      have h3 := hub3 hre1
      have hob := (rehashing_eqv m1).mp hre1
      obtain ⟨_, _, _, _, _, _, hcnt, _⟩ := hwf1.rehash hob
      omega
    | false =>
      have hst1 := not_rehashing_bits hre1
      obtain ⟨hall1, hhit1, hcc1, hN1⟩ := hwf1.steady hst1
      rcases hub2 hre1 with h | ⟨heq1, hov, hrf⟩
      · omega
      · subst heq1
        rcases over_false hov with h32 | h90
        · have hsz : HASHSIZE (m1.tab m1.hindex).hashbits =
              HASHSIZE HASHMAP_MAX_BITS := by rw [h32]
          omega
        · have hlt90 := approx90_lt hwf1.abits_lo
          omega
  have hN : rehashing_in_progress m1 = false → (m1.tab m1.hindex).hashbits ≤ 31 →
      m1.count + 1 ≤ max (HASHSIZE (m1.tab m1.hindex).hashbits - 1)
        (APPROX_90_PERCENT (HASHSIZE (m1.tab m1.hindex).hashbits) + 1) := by
    intro hre1 hb31
    rcases hub2 hre1 with h | ⟨heq1, hov, hrf⟩
    · refine le_trans ?_ (le_max_left _ _)
      omega
    · subst heq1
      rcases over_false hov with h32 | h90
      · exfalso
        have hmax : HASHMAP_MAX_BITS = 32 := rfl
        omega
      · refine le_trans ?_ (le_max_right _ _)
        omega
  cases hre1 : rehashing_in_progress m1 with
  | true =>
    have hob := (rehashing_eqv m1).mp hre1
    obtain ⟨holo, hohi, howf, _⟩ := hwf1.rehash hob
    have hfo : hashmap_find_table m1.case_sensitive
        (m1.tab (hashmap_nexttable m1.hindex)) (H key) key = some none :=
      find_table_eq_none howf.good habs1.2
    have heq := @isc_add_eq_nodup H m m1 key value hk' hstep hre1 hfo
    obtain ⟨m2, haddf, hwf2, h2cs, h2cnt, h2cont⟩ :=
      add_m_wf hwf1 habs1 hk hroom (fun _ => hub3 hre1) hN
    refine ⟨m2, ?_, hwf2, h2cs.trans hcs1, by omega, ?_⟩
    · rw [heq, haddf]
    · intro hv' k' v'
      rw [h2cont hv' k' v', hcs1]
      exact or_congr (hcont1 hv' k' v') Iff.rfl
  | false =>
    have heq := @isc_add_eq_steady H m m1 key value hk' hstep hre1
    obtain ⟨m2, haddf, hwf2, h2cs, h2cnt, h2cont⟩ :=
      add_m_wf hwf1 habs1 hk hroom
        (fun hc => by rw [hre1] at hc; exact Bool.noConfusion hc) hN
    refine ⟨m2, ?_, hwf2, h2cs.trans hcs1, by omega, ?_⟩
    · rw [heq, haddf]
    · intro hv' k' v'
      rw [h2cont hv' k' v', hcs1]
      exact or_congr (hcont1 hv' k' v') Iff.rfl

end Bind9

namespace Bind9

theorem del_m_post {m1 m2 : Hashmap} {idx : Bool} {sf : Nat → Option HNode}
    (hm2 : m2 = Hashmap.setTab { m1 with count := m1.count - 1 } idx
      { m1.tab idx with slots := sf }) :
    m2.case_sensitive = m1.case_sensitive ∧ m2.hindex = m1.hindex ∧
    m2.count = m1.count - 1 ∧ m2.hiter = m1.hiter ∧
    m2.tab idx = { m1.tab idx with slots := sf } ∧
    m2.tab (!idx) = m1.tab (!idx) := by
  refine ⟨?_, ?_, ?_, ?_, ?_, ?_⟩
  · rw [hm2]; exact setTab_cs _ _ _
  · rw [hm2]; exact setTab_hindex _ _ _
  · rw [hm2]; exact setTab_count _ _ _
  · rw [hm2]; exact setTab_hiter _ _ _
  · rw [hm2]; exact tab_setTab_same _ _ _
  · rw [hm2, tab_setTab_other]
    exact tab_upd_count _ _ _

theorem del_m_wf {m1 : Hashmap} {idx2 : Bool} {hv psl : Nat} {key : List Nat}
    {x : HNode} (hwf1 : MapWF m1)
    (hm : hashmap_match m1.case_sensitive x hv key = true)
    (hslot : (m1.tab idx2).slots ((isc_hash_bits32 hv (m1.tab idx2).hashbits + psl) %
      HASHSIZE (m1.tab idx2).hashbits) = some x) :
    ∃ m2, hashmap_delete_node m1 ((isc_hash_bits32 hv (m1.tab idx2).hashbits + psl) %
        HASHSIZE (m1.tab idx2).hashbits) hv psl idx2 = some m2 ∧
      MapWF m2 ∧ m2.case_sensitive = m1.case_sensitive ∧ m2.count + 1 = m1.count ∧
      (∀ hv' k' v', mapKV m2 hv' k' v' ↔ (mapKV m1 hv' k' v' ∧
        hashmap_match m1.case_sensitive x hv' k' = false)) := by
  have hbineq : ∀ a b : Bool, ¬ a = b → a = !b := by decide
  by_cases hidx : idx2 = m1.hindex
  · subst hidx
    have hn2 : 2 ≤ HASHSIZE (m1.tab m1.hindex).hashbits :=
      hashsize_two_le hwf1.abits_lo
    obtain ⟨sf, hdel, hwfo2, hcont2, hocc2, hlow2⟩ :=
      delete_node_run hwf1.awf hn2 hslot
    obtain ⟨m2, hdelm, hm2⟩ : ∃ m2, hashmap_delete_node m1
        ((isc_hash_bits32 hv (m1.tab m1.hindex).hashbits + psl) %
          HASHSIZE (m1.tab m1.hindex).hashbits) hv psl m1.hindex = some m2 ∧
        m2 = Hashmap.setTab { m1 with count := m1.count - 1 } m1.hindex
          { m1.tab m1.hindex with slots := sf } := ⟨_, hdel, rfl⟩
    obtain ⟨h2cs, h2hx, h2cnt, h2hit, h2ta, h2to⟩ := del_m_post hm2
    have hentry : (isc_hash_bits32 hv (m1.tab m1.hindex).hashbits + psl) %
        HASHSIZE (m1.tab m1.hindex).hashbits <
        HASHSIZE (m1.tab m1.hindex).hashbits :=
      pos_lt _ _ _
    -- the matched class is absent from the old table
    have habso : ∀ hv' k', hashmap_match m1.case_sensitive x hv' k' = true →
        ∀ v', ¬ keyVal m1.case_sensitive (m1.tab (!m1.hindex)).hashbits
          (m1.tab (!m1.hindex)).slots hv' k' v' := by
      intro hv' k' hmx v' hkvo
      obtain ⟨q, hq, y, hy, hmy, _⟩ := hkvo
      cases hre1 : rehashing_in_progress m1 with
      | false =>
        rw [(hwf1.steady (not_rehashing_bits hre1)).1 q] at hy
        exact Option.noConfusion hy
      | true =>
        obtain ⟨_, _, _, hdisj, _⟩ := hwf1.rehash ((rehashing_eqv m1).mp hre1)
        have hda := hdisj q hq y hy
        have htr := match_trans hmx hmy
        rw [hda _ hentry x hslot] at htr
        exact Bool.noConfusion htr
    refine ⟨m2, hdelm, ?_, h2cs, ?_, ?_⟩
    · -- MapWF m2
      cases hre1 : rehashing_in_progress m1 with
      | false =>
        have hst1 := not_rehashing_bits hre1
        obtain ⟨hall1, hhit1, hcc1, hN1⟩ := hwf1.steady hst1
        refine ⟨?_, ?_, ?_, ?_, ?_⟩
        · rw [h2hx, h2ta]; exact hwf1.abits_lo
        · rw [h2hx, h2ta]; exact hwf1.abits_hi
        · rw [h2cs, h2hx, h2ta]; exact hwfo2
        · intro _
          rw [h2hx, h2to, h2hit, h2cnt]
          refine ⟨hall1, hhit1, ?_, ?_⟩
          · rw [h2ta]
            show m1.count - 1 = occT (HASHSIZE (m1.tab m1.hindex).hashbits) sf
            omega
          · intro hb31
            rw [h2ta] at hb31
            rw [h2ta]
            show m1.count - 1 ≤ max (HASHSIZE (m1.tab m1.hindex).hashbits - 1)
              (APPROX_90_PERCENT (HASHSIZE (m1.tab m1.hindex).hashbits) + 1)
            have := hN1 hb31
            omega
        · intro hc
          rw [h2hx, h2to] at hc
          exact absurd hst1 hc
      | true =>
        have hob := (rehashing_eqv m1).mp hre1
        obtain ⟨holo, hohi, howf, hdisj, hpre, hhit, hcnt, hrs⟩ := hwf1.rehash hob
        refine ⟨?_, ?_, ?_, ?_, ?_⟩
        · rw [h2hx, h2ta]; exact hwf1.abits_lo
        · rw [h2hx, h2ta]; exact hwf1.abits_hi
        · rw [h2cs, h2hx, h2ta]; exact hwfo2
        · intro hc
          rw [h2hx, h2to] at hc
          exact absurd hc hob
        · intro _
          refine ⟨?_, ?_, ?_, ?_, ?_, ?_, ?_, ?_⟩
          · rw [h2hx, h2to]; exact holo
          · rw [h2hx, h2to]; exact hohi
          · rw [h2cs, h2hx, h2to]; exact howf
          · rw [h2cs, h2hx, h2to, h2ta]
            intro p hp y hy
            apply absent_of_no_kv
            intro v hv'
            have hkva := ((hcont2 y.hashval y.key v).mp hv').1
            exact no_kv_of_absent (hdisj p hp y hy) v hkva
          · rw [h2hit, h2hx, h2to]; exact hpre
          · rw [h2hit, h2hx, h2to]; exact hhit
          · rw [h2cnt, h2hx, h2ta, h2to]
            show m1.count - 1 = occT (HASHSIZE (m1.tab m1.hindex).hashbits) sf +
              occT (HASHSIZE (m1.tab (!m1.hindex)).hashbits)
                (m1.tab (!m1.hindex)).slots
            omega
          · rw [h2cnt, h2hx, h2ta, h2to]
            show m1.count - 1 + occT (HASHSIZE (m1.tab (!m1.hindex)).hashbits)
              (m1.tab (!m1.hindex)).slots + 2 ≤
              HASHSIZE (m1.tab m1.hindex).hashbits
            omega
    · -- count
      have hoccp : 1 ≤ occT (HASHSIZE (m1.tab m1.hindex).hashbits)
          (m1.tab m1.hindex).slots := occT_pos hentry (by rw [hslot]; rfl)
      have hcges : 1 ≤ m1.count := by
        cases hre1 : rehashing_in_progress m1 with
        | false =>
          obtain ⟨_, _, hcc1, _⟩ := hwf1.steady (not_rehashing_bits hre1)
          omega
        | true =>
          obtain ⟨_, _, _, _, _, _, hcnt, _⟩ :=
            hwf1.rehash ((rehashing_eqv m1).mp hre1)
          omega
      omega
    · -- content
      intro hv' k' v'
      unfold mapKV
      rw [h2cs, h2hx, h2ta, h2to]
      constructor
      · rintro (h | h)
        · obtain ⟨hkv, hnm⟩ := (hcont2 hv' k' v').mp h
          exact ⟨Or.inl hkv, hnm⟩
        · refine ⟨Or.inr h, ?_⟩
          cases hmx : hashmap_match m1.case_sensitive x hv' k'
          · rfl
          · exact absurd h (habso hv' k' hmx v')
      · rintro ⟨h | h, hnm⟩
        · exact Or.inl ((hcont2 hv' k' v').mpr ⟨h, hnm⟩)
        · exact Or.inr h
  · have hidx2 := hbineq idx2 m1.hindex hidx
    subst hidx2
    have h0 : (m1.tab (!m1.hindex)).hashbits ≠ 0 := by
      intro h0
      rw [(hwf1.steady h0).1] at hslot
      exact Option.noConfusion hslot
    obtain ⟨holo, hohi, howf, hdisj, hpre, hhit, hcnt, hrs⟩ := hwf1.rehash h0
    have hn2 : 2 ≤ HASHSIZE (m1.tab (!m1.hindex)).hashbits := hashsize_two_le holo
    obtain ⟨sf, hdel, hwfo2, hcont2, hocc2, hlow2⟩ :=
      delete_node_run howf hn2 hslot
    obtain ⟨m2, hdelm, hm2⟩ : ∃ m2, hashmap_delete_node m1
        ((isc_hash_bits32 hv (m1.tab (!m1.hindex)).hashbits + psl) %
          HASHSIZE (m1.tab (!m1.hindex)).hashbits) hv psl (!m1.hindex) = some m2 ∧
        m2 = Hashmap.setTab { m1 with count := m1.count - 1 } (!m1.hindex)
          { m1.tab (!m1.hindex) with slots := sf } := ⟨_, hdel, rfl⟩
    obtain ⟨h2cs, h2hx, h2cnt, h2hit, h2ta, h2to⟩ := del_m_post hm2
    rw [Bool.not_not] at h2to
    have hentry : (isc_hash_bits32 hv (m1.tab (!m1.hindex)).hashbits + psl) %
        HASHSIZE (m1.tab (!m1.hindex)).hashbits <
        HASHSIZE (m1.tab (!m1.hindex)).hashbits := pos_lt _ _ _
    have hdisjx := hdisj _ hentry x hslot
    refine ⟨m2, hdelm, ?_, h2cs, ?_, ?_⟩
    · refine ⟨?_, ?_, ?_, ?_, ?_⟩
      · rw [h2hx, h2to]; exact hwf1.abits_lo
      · rw [h2hx, h2to]; exact hwf1.abits_hi
      · rw [h2cs, h2hx, h2to]; exact hwf1.awf
      · intro hc
        rw [h2hx, h2ta] at hc
        exact absurd hc h0
      · intro _
        refine ⟨?_, ?_, ?_, ?_, ?_, ?_, ?_, ?_⟩
        · rw [h2hx, h2ta]; exact holo
        · rw [h2hx, h2ta]; exact hohi
        · rw [h2cs, h2hx, h2ta]; exact hwfo2
        · rw [h2cs, h2hx, h2ta, h2to]
          intro p hp y hy
          have hkvy : keyVal m1.case_sensitive (m1.tab (!m1.hindex)).hashbits sf
              y.hashval y.key y.value := ⟨p, hp, y, hy, match_refl _ _, rfl⟩
          obtain ⟨hkvo, _⟩ := (hcont2 y.hashval y.key y.value).mp hkvy
          obtain ⟨q, hq, z, hz, hmz, _⟩ := hkvo
          apply absent_of_no_kv
          intro v hv'
          obtain ⟨q2, hq2, w, hw, hmw, _⟩ := hv'
          have hda := hdisj q hq z hz
          have htr := match_trans hmw hmz
          rw [hda q2 hq2 w hw] at htr
          exact Bool.noConfusion htr
        · rw [h2hit, h2hx, h2ta]
          intro p hp
          exact hlow2 p (by omega) (hpre p hp)
        · rw [h2hit, h2hx, h2ta]
          show m1.hiter ≤ HASHSIZE (m1.tab (!m1.hindex)).hashbits
          exact hhit
        · rw [h2cnt, h2hx, h2ta, h2to]
          show m1.count - 1 = occT (HASHSIZE (m1.tab m1.hindex).hashbits)
            (m1.tab m1.hindex).slots +
            occT (HASHSIZE (m1.tab (!m1.hindex)).hashbits) sf
          omega
        · rw [h2cnt, h2hx, h2ta, h2to]
          show m1.count - 1 + occT (HASHSIZE (m1.tab (!m1.hindex)).hashbits) sf +
            2 ≤ HASHSIZE (m1.tab m1.hindex).hashbits
          omega
    · omega
    · intro hv' k' v'
      unfold mapKV
      rw [h2cs, h2hx, h2ta, h2to]
      constructor
      · rintro (h | h)
        · refine ⟨Or.inl h, ?_⟩
          cases hmx : hashmap_match m1.case_sensitive x hv' k'
          · rfl
          · obtain ⟨q2, hq2, w, hw, hmw, _⟩ := h
            have htr := match_trans hmw hmx
            rw [hdisjx q2 hq2 w hw] at htr
            exact Bool.noConfusion htr
        · obtain ⟨hkv, hnm⟩ := (hcont2 hv' k' v').mp h
          exact ⟨Or.inr hkv, hnm⟩
      · rintro ⟨h | h, hnm⟩
        · exact Or.inl h
        · exact Or.inr ((hcont2 hv' k' v').mpr ⟨h, hnm⟩)

end Bind9

namespace Bind9

theorem isc_add_exists {H : List Nat → Nat} {m : Hashmap} {key : List Nat}
    {value v0 : Nat} (hwf : MapWF m) (hk : key.length ≤ 65535)
    (hkv : mapKV m (H key) key v0) :
    ∃ m1, isc_hashmap_add H m key value = some (HmRes.rexists, m1) ∧
      MapWF m1 ∧ m1.case_sensitive = m.case_sensitive ∧ m1.count = m.count ∧
      (∀ hv' k' v', mapKV m1 hv' k' v' ↔ mapKV m hv' k' v') := by
  obtain ⟨m1, hstep, hwf1, hcs1, hcnt1, hcont1, hub3, hub2⟩ := add_step1_run hwf
  have hk' : ¬ key.length > 65535 := by omega
  have hkv1 : mapKV m1 (H key) key v0 := (hcont1 _ _ _).mpr hkv
  cases hre1 : rehashing_in_progress m1 with
  | false =>
    have hst1 := not_rehashing_bits hre1
    obtain ⟨hall1, _⟩ := hwf1.steady hst1
    have heq := @isc_add_eq_steady H m m1 key value hk' hstep hre1
    rcases hkv1 with ⟨p, hp, x, hx, hm, _⟩ | ⟨p, hp, x, hx, hm, _⟩
    · have hfound := @add_m_found m1 m1.hindex (H key) key value p x
        hwf1.awf hp hx hm hk
      refine ⟨m1, ?_, hwf1, hcs1, hcnt1, hcont1⟩
      rw [heq, hfound]
    · rw [hall1 p] at hx
      exact Option.noConfusion hx
  | true =>
    have hob := (rehashing_eqv m1).mp hre1
    obtain ⟨holo, hohi, howf, hdisj, _⟩ := hwf1.rehash hob
    rcases hkv1 with ⟨p, hp, x, hx, hm, _⟩ | ⟨p, hp, x, hx, hm, _⟩
    · have habso : keyAbsent m1.case_sensitive (m1.tab (!m1.hindex)).hashbits
          (m1.tab (!m1.hindex)).slots (H key) key := by
        intro q hq y hy
        cases hmy : hashmap_match m1.case_sensitive y (H key) key
        · rfl
        · have hda := hdisj q hq y hy
          have htr := match_trans hm hmy
          rw [hda p hp x hx] at htr
          exact Bool.noConfusion htr
      have hfo : hashmap_find_table m1.case_sensitive
          (m1.tab (hashmap_nexttable m1.hindex)) (H key) key = some none :=
        find_table_eq_none howf.good habso
      have heq := @isc_add_eq_nodup H m m1 key value hk' hstep hre1 hfo
      have hfound := @add_m_found m1 m1.hindex (H key) key value p x
        hwf1.awf hp hx hm hk
      refine ⟨m1, ?_, hwf1, hcs1, hcnt1, hcont1⟩
      rw [heq, hfound]
    · have hfo : hashmap_find_table m1.case_sensitive
          (m1.tab (hashmap_nexttable m1.hindex)) (H key) key =
          some (some (x.psl, x)) := find_table_eq_found howf hp hx hm
      have heq := @isc_add_eq_dup H m m1 key value (x.psl, x) hk' hstep hre1 hfo
      exact ⟨m1, heq, hwf1, hcs1, hcnt1, hcont1⟩

theorem isc_del_success {H : List Nat → Nat} {m : Hashmap} {key : List Nat}
    {v0 : Nat} (hwf : MapWF m) (hk : key.length ≤ 65535)
    (hkv : mapKV m (H key) key v0) :
    ∃ m2 x0, isc_hashmap_delete H m key = some (HmRes.success, m2) ∧
      MapWF m2 ∧ m2.case_sensitive = m.case_sensitive ∧ m2.count + 1 = m.count ∧
      hashmap_match m.case_sensitive x0 (H key) key = true ∧
      (∀ hv' k' v', mapKV m2 hv' k' v' ↔ (mapKV m hv' k' v' ∧
        hashmap_match m.case_sensitive x0 hv' k' = false)) := by
  obtain ⟨m1, hstep, hwf1, hcs1, hcnt1, hcont1⟩ := del_step1_run hwf
  have hk' : ¬ key.length > 65535 := by omega
  have hkv1 : mapKV m1 (H key) key v0 := (hcont1 _ _ _).mpr hkv
  obtain ⟨idx2, psl, x, hf2, hmx, hval, hslot, hpsleq⟩ := find2_present hwf1 hkv1
  obtain ⟨m2, hdelm, hwf2, h2cs, h2cnt, h2cont⟩ := del_m_wf hwf1 hmx hslot
  have heq := isc_del_eq_found hk' hstep hf2 hdelm
  refine ⟨m2, x, heq, hwf2, h2cs.trans hcs1, by omega, ?_, ?_⟩
  · rw [← hcs1]
    exact hmx
  · intro hv' k' v'
    rw [h2cont hv' k' v', hcs1]
    exact and_congr (hcont1 hv' k' v') Iff.rfl

theorem isc_del_notfound {H : List Nat → Nat} {m : Hashmap} {key : List Nat}
    (hwf : MapWF m) (hk : key.length ≤ 65535) (habs : mapAbs m (H key) key) :
    ∃ m1, isc_hashmap_delete H m key = some (HmRes.notFound, m1) ∧ MapWF m1 ∧
      m1.case_sensitive = m.case_sensitive ∧ m1.count = m.count ∧
      (∀ hv' k' v', mapKV m1 hv' k' v' ↔ mapKV m hv' k' v') := by
  obtain ⟨m1, hstep, hwf1, hcs1, hcnt1, hcont1⟩ := del_step1_run hwf
  have hk' : ¬ key.length > 65535 := by omega
  have habs1 : mapAbs m1 (H key) key :=
    mapAbs_iff.mpr (fun v hkv => mapAbs_iff.mp habs v ((hcont1 _ _ v).mp hkv))
  have hf2 := find2_absent hwf1 habs1
  exact ⟨m1, isc_del_eq_missing hk' hstep hf2, hwf1, hcs1, hcnt1, hcont1⟩

end Bind9

namespace Bind9

theorem occT_full {n : Nat} {s : Nat → Option HNode}
    (h : ¬ occT n s < n) : ∀ p, p < n → s p ≠ none := by
  have hle := occT_le n s
  have heq : occT n s = n := by omega
  intro p hp hnone
  have hsub : (Finset.range n).filter (fun p => (s p).isSome) ⊆ Finset.range n :=
    Finset.filter_subset _ _
  have hcards : (Finset.range n).card ≤
      ((Finset.range n).filter (fun p => (s p).isSome)).card := by
    rw [Finset.card_range]
    unfold occT at heq
    omega
  have hfeq := Finset.eq_of_subset_of_card_le hsub hcards
  have hpmem : p ∈ (Finset.range n).filter (fun p => (s p).isSome) := by
    rw [hfeq]
    exact Finset.mem_range.mpr hp
  have hsome := (Finset.mem_filter.mp hpmem).2
  rw [hnone] at hsome
  exact Bool.noConfusion hsome

theorem add_loop_no_insert {cs : Bool} {n hv : Nat} {k : List Nat} {h : Nat}
    (hn : 0 < n) :
    ∀ fuel psl node slots, (∀ p, p < n → slots p ≠ none) →
    ∀ b s', hashmap_add_loop cs n hv k h fuel psl node slots = some (b, s') →
      b = false := by
  intro fuel
  induction fuel with
  | zero =>
    intro psl node slots hfull b s' hl
    exact Option.noConfusion hl
  | succ fuel ih =>
    intro psl node slots hfull b s' hl
    cases hs : slots ((h + psl) % n) with
    | none => exact absurd hs (hfull _ (Nat.mod_lt _ hn))
    | some current =>
      rw [add_loop_succ_some fuel hs] at hl
      by_cases hm : hashmap_match cs current hv k = true
      · rw [if_pos hm] at hl
        have hinj := Option.some.inj hl
        exact (congrArg Prod.fst hinj).symm
      · rw [if_neg hm] at hl
        refine ih _ _ _ ?_ b s' hl
        intro p hp
        by_cases hsw : node.psl > current.psl
        · rw [if_pos hsw]
          by_cases hpq : p = (h + psl) % n
          · subst hpq
            rw [updSlot_eq]
            exact fun hc => Option.noConfusion hc
          · rw [updSlot_ne _ _ _ hpq]
            exact hfull p hp
        · rw [if_neg hsw]
          exact hfull p hp

theorem add_m_false_inv {M : Hashmap} {hv : Nat} {k : List Nat} {v : Nat}
    {idx : Bool} {X : Hashmap}
    (h : hashmap_add_m M hv k v idx = some (false, X)) : X = M := by
  by_cases hk : k.length > 65535
  · unfold hashmap_add_m at h
    rw [if_pos hk] at h
    exact Option.noConfusion h
  · cases hl : hashmap_add_loop M.case_sensitive (HASHSIZE (M.tab idx).hashbits) hv k
        (isc_hash_bits32 hv (M.tab idx).hashbits) (HASHSIZE (M.tab idx).hashbits + 2)
        0 ⟨k, v, hv, 0⟩ (M.tab idx).slots with
    | none =>
      have h2 : hashmap_add_m M hv k v idx = none := by
        rw [add_m_eq M idx hv k v hk, hl]
      rw [h2] at h
      exact Option.noConfusion h
    | some pr =>
      obtain ⟨b, s'⟩ := pr
      cases b
      · have h2 : hashmap_add_m M hv k v idx = some (false, M) := by
          rw [add_m_eq M idx hv k v hk, hl]
        rw [h2] at h
        have hinj := Option.some.inj h
        exact (congrArg Prod.snd hinj).symm
      · have h2 : hashmap_add_m M hv k v idx = some (true,
            Hashmap.setTab { M with count := M.count + 1 } idx
              { M.tab idx with slots := s' }) := by
          rw [add_m_eq M idx hv k v hk, hl]
        rw [h2] at h
        have hinj := Option.some.inj h
        exact Bool.noConfusion (congrArg Prod.fst hinj)

theorem add_m_full {M : Hashmap} {hv : Nat} {k : List Nat} {v : Nat} {idx : Bool}
    (hk : ¬ k.length > 65535)
    (hfull : ¬ occT (HASHSIZE (M.tab idx).hashbits) (M.tab idx).slots <
      HASHSIZE (M.tab idx).hashbits) :
    hashmap_add_m M hv k v idx = none ∨
    hashmap_add_m M hv k v idx = some (false, M) := by
  cases hl : hashmap_add_loop M.case_sensitive (HASHSIZE (M.tab idx).hashbits) hv k
      (isc_hash_bits32 hv (M.tab idx).hashbits) (HASHSIZE (M.tab idx).hashbits + 2)
      0 ⟨k, v, hv, 0⟩ (M.tab idx).slots with
  | none =>
    left
    rw [add_m_eq M idx hv k v hk, hl]
  | some pr =>
    obtain ⟨b, s'⟩ := pr
    have hb := add_loop_no_insert (hashsize_pos (M.tab idx).hashbits) _ _ _ _
      (occT_full hfull) b s' hl
    subst hb
    right
    rw [add_m_eq M idx hv k v hk, hl]

end Bind9

namespace Bind9

theorem isc_add_any {H : List Nat → Nat} {m : Hashmap} {key : List Nat}
    {value : Nat} {res : HmRes} {m2 : Hashmap} (hwf : MapWF m)
    (h : isc_hashmap_add H m key value = some (res, m2)) :
    MapWF m2 ∧ m2.case_sensitive = m.case_sensitive ∧ m2.count ≤ m.count + 1 := by
  by_cases hk : key.length > 65535
  · unfold isc_hashmap_add at h
    rw [if_pos hk] at h
    exact Option.noConfusion h
  · have hk65 : key.length ≤ 65535 := by omega
    rcases Classical.em (∃ v0, mapKV m (H key) key v0) with ⟨v0, hkv⟩ | hno
    · obtain ⟨m1, heq, hwf1, hcs1, hcnt1, _⟩ :=
        @isc_add_exists H m key value v0 hwf hk65 hkv
      rw [heq] at h
      have h2 : m1 = m2 := congrArg Prod.snd (Option.some.inj h)
      subst h2
      exact ⟨hwf1, hcs1, by omega⟩
    · have habs : mapAbs m (H key) key := mapAbs_iff.mpr (fun v hv => hno ⟨v, hv⟩)
      obtain ⟨m1, hstep, hwf1, hcs1, hcnt1, hcont1, hub3, hub2⟩ := add_step1_run hwf
      have habs1 : mapAbs m1 (H key) key :=
        mapAbs_iff.mpr (fun v hkv => mapAbs_iff.mp habs v ((hcont1 _ _ v).mp hkv))
      by_cases hroom : occT (HASHSIZE (m1.tab m1.hindex).hashbits)
          (m1.tab m1.hindex).slots < HASHSIZE (m1.tab m1.hindex).hashbits
      · have hN : rehashing_in_progress m1 = false →
            (m1.tab m1.hindex).hashbits ≤ 31 →
            m1.count + 1 ≤ max (HASHSIZE (m1.tab m1.hindex).hashbits - 1)
              (APPROX_90_PERCENT (HASHSIZE (m1.tab m1.hindex).hashbits) + 1) := by
          intro hre1 hb31
          rcases hub2 hre1 with hc | ⟨heq1, hov, hrf⟩
          · refine le_trans ?_ (le_max_left _ _)
            omega
          · subst heq1
            rcases over_false hov with h32 | h90
            · exfalso
              have hmax : HASHMAP_MAX_BITS = 32 := rfl
              omega
            · refine le_trans ?_ (le_max_right _ _)
              omega
        cases hre1 : rehashing_in_progress m1 with
        | true =>
          have hob := (rehashing_eqv m1).mp hre1
          obtain ⟨holo, hohi, howf, _⟩ := hwf1.rehash hob
          have hfo : hashmap_find_table m1.case_sensitive
              (m1.tab (hashmap_nexttable m1.hindex)) (H key) key = some none :=
            find_table_eq_none howf.good habs1.2
          have heq := @isc_add_eq_nodup H m m1 key value hk hstep hre1 hfo
          obtain ⟨m2', haddf, hwf2, h2cs, h2cnt, _⟩ :=
            add_m_wf hwf1 habs1 hk65 hroom (fun _ => hub3 hre1) hN
          have h2 : isc_hashmap_add H m key value = some (HmRes.success, m2') := by
            rw [heq, haddf]
          rw [h2] at h
          have h3 : m2' = m2 := congrArg Prod.snd (Option.some.inj h)
          subst h3
          exact ⟨hwf2, h2cs.trans hcs1, by omega⟩
        | false =>
          have heq := @isc_add_eq_steady H m m1 key value hk hstep hre1
          obtain ⟨m2', haddf, hwf2, h2cs, h2cnt, _⟩ :=
            add_m_wf hwf1 habs1 hk65 hroom
              (fun hc => by rw [hre1] at hc; exact Bool.noConfusion hc) hN
          have h2 : isc_hashmap_add H m key value = some (HmRes.success, m2') := by
            rw [heq, haddf]
          rw [h2] at h
          have h3 : m2' = m2 := congrArg Prod.snd (Option.some.inj h)
          subst h3
          exact ⟨hwf2, h2cs.trans hcs1, by omega⟩
      · have hre1 : rehashing_in_progress m1 = false := by
          cases hr : rehashing_in_progress m1 with
          | false => rfl
          | true =>
            exfalso
            have h3 := hub3 hr
            obtain ⟨_, _, _, _, _, _, hcnt, _⟩ :=
              hwf1.rehash ((rehashing_eqv m1).mp hr)
            omega
        have heq := @isc_add_eq_steady H m m1 key value hk hstep hre1
        rcases add_m_full hk hroom with hnone | hfalse
        · have h2 : isc_hashmap_add H m key value = none := by
            rw [heq, hnone]
          rw [h2] at h
          exact Option.noConfusion h
        · have h2 : isc_hashmap_add H m key value = some (HmRes.rexists, m1) := by
            rw [heq, hfalse]
          rw [h2] at h
          have h3 : m1 = m2 := congrArg Prod.snd (Option.some.inj h)
          subst h3
          exact ⟨hwf1, hcs1, by omega⟩

theorem isc_del_any {H : List Nat → Nat} {m : Hashmap} {key : List Nat}
    {res : HmRes} {m2 : Hashmap} (hwf : MapWF m)
    (h : isc_hashmap_delete H m key = some (res, m2)) :
    MapWF m2 ∧ m2.case_sensitive = m.case_sensitive ∧ m2.count ≤ m.count := by
  by_cases hk : key.length > 65535
  · unfold isc_hashmap_delete at h
    rw [if_pos hk] at h
    exact Option.noConfusion h
  · have hk65 : key.length ≤ 65535 := by omega
    rcases Classical.em (∃ v0, mapKV m (H key) key v0) with ⟨v0, hkv⟩ | hno
    · obtain ⟨m2', x0, heq, hwf2, hcs2, hcnt2, _, _⟩ :=
        isc_del_success hwf hk65 hkv
      rw [heq] at h
      have h2 : m2' = m2 := congrArg Prod.snd (Option.some.inj h)
      subst h2
      exact ⟨hwf2, hcs2, by omega⟩
    · have habs : mapAbs m (H key) key := mapAbs_iff.mpr (fun v hv => hno ⟨v, hv⟩)
      obtain ⟨m1, heq, hwf1, hcs1, hcnt1, _⟩ := isc_del_notfound hwf hk65 habs
      rw [heq] at h
      have h2 : m1 = m2 := congrArg Prod.snd (Option.some.inj h)
      subst h2
      exact ⟨hwf1, hcs1, by omega⟩

end Bind9

namespace Bind9

theorem create_wf {cs : Bool} {bits : Nat} {m0 : Hashmap}
    (h : isc_hashmap_create cs bits = some m0) :
    MapWF m0 ∧ m0.count = 0 ∧ m0.case_sensitive = cs ∧
    (m0.tab m0.hindex).hashbits = bits ∧ (∀ hv k v, ¬ mapKV m0 hv k v) := by
  unfold isc_hashmap_create at h
  by_cases hc : HASHMAP_MIN_BITS ≤ bits ∧ bits ≤ HASHMAP_MAX_BITS
  · rw [if_pos hc] at h
    have hm0 := Option.some.inj h
    subst hm0
    have hmin : HASHMAP_MIN_BITS = 1 := rfl
    have hmax : HASHMAP_MAX_BITS = 32 := rfl
    obtain ⟨hc1, hc2⟩ := hc
    refine ⟨⟨?_, ?_, ?_, ?_, ?_⟩, rfl, rfl, rfl, ?_⟩
    · show 1 ≤ bits
      omega
    · show bits ≤ 32
      omega
    · exact TableWF_empty cs bits
    · intro _
      refine ⟨fun p => rfl, rfl, ?_, ?_⟩
      · show 0 = occT (HASHSIZE bits) (fun _ => none)
        rw [occT_zero (fun p _ => rfl)]
      · intro _
        exact Nat.zero_le _
    · intro hcz
      exact absurd rfl hcz
    · rintro hv k v (⟨p, hp, x, hx, _⟩ | ⟨p, hp, x, hx, _⟩)
      · exact Option.noConfusion hx
      · exact Option.noConfusion hx
  · rw [if_neg hc] at h
    exact Option.noConfusion h

theorem iter_del_wf {m : Hashmap} {idx : Bool} {i : Nat} {m2 : Hashmap}
    (hwf : MapWF m) (h : isc_hashmap_iter_delcurrent_next m idx i = some m2) :
    MapWF m2 ∧ m2.case_sensitive = m.case_sensitive ∧ m2.count ≤ m.count := by
  unfold isc_hashmap_iter_delcurrent_next at h
  by_cases hok : (idx == m.hindex || try_nexttable m m.hindex) = true
  case neg =>
    rw [if_neg hok] at h
    exact Option.noConfusion h
  rw [if_pos hok] at h
  by_cases hi : i < HASHSIZE (m.tab idx).hashbits
  case neg =>
    rw [if_neg hi] at h
    exact Option.noConfusion h
  rw [if_pos hi] at h
  cases hslot : (m.tab idx).slots i with
  | none =>
    simp only [hslot] at h
    exact Option.noConfusion h
  | some node =>
    simp only [hslot] at h
    have hgood : goodNode (m.tab idx).hashbits i node := by
      by_cases hidx : idx = m.hindex
      · rw [hidx] at hi hslot
        rw [hidx]
        exact hwf.awf.good i hi node hslot
      · have hd : ∀ a b : Bool, ¬ a = b → a = !b := by decide
        have h2 : idx = !m.hindex := hd idx m.hindex hidx
        have hre : rehashing_in_progress m = true := by
          rw [try_next_self] at hok
          cases hb : rehashing_in_progress m
          · rw [hb] at hok
            simp only [Bool.or_false] at hok
            exact absurd (eq_of_beq hok) hidx
          · rfl
        obtain ⟨_, _, howf, _⟩ := hwf.rehash ((rehashing_eqv m).mp hre)
        rw [h2] at hi hslot
        rw [h2]
        exact howf.good i hi node hslot
    obtain ⟨hpsl, hpos, _⟩ := hgood
    rw [hpos] at h hslot
    have hmx : hashmap_match m.case_sensitive node node.hashval node.key = true :=
      match_refl m.case_sensitive node
    obtain ⟨m2', hdel, hwf2, hcs2, hcnt2, _⟩ := del_m_wf hwf hmx hslot
    rw [hdel] at h
    have h2 : m2' = m2 := Option.some.inj h
    subst h2
    exact ⟨hwf2, hcs2, by omega⟩

theorem applyOp_wf {H : List Nat → Nat} {m m2 : Hashmap} {op : HmOp}
    (hwf : MapWF m) (h : applyOp H m op = some m2) :
    MapWF m2 ∧ m2.case_sensitive = m.case_sensitive ∧ m2.count ≤ m.count + 1 := by
  cases op with
  | add key value =>
    simp only [applyOp, Option.map_eq_some'] at h
    obtain ⟨⟨res, m2'⟩, haeq, hsnd⟩ := h
    have hsnd' : m2' = m2 := hsnd
    subst hsnd'
    exact isc_add_any hwf haeq
  | del key =>
    simp only [applyOp, Option.map_eq_some'] at h
    obtain ⟨⟨res, m2'⟩, haeq, hsnd⟩ := h
    have hsnd' : m2' = m2 := hsnd
    subst hsnd'
    obtain ⟨h1, h2, h3⟩ := isc_del_any hwf haeq
    exact ⟨h1, h2, by omega⟩
  | iterDel idx i =>
    simp only [applyOp] at h
    obtain ⟨h1, h2, h3⟩ := iter_del_wf hwf h
    exact ⟨h1, h2, by omega⟩

theorem foldlM_wf {H : List Nat → Nat} : ∀ (ops : List HmOp) (m0 m : Hashmap),
    MapWF m0 → List.foldlM (applyOp H) m0 ops = some m →
    MapWF m ∧ m.case_sensitive = m0.case_sensitive ∧
      m.count ≤ m0.count + ops.length := by
  intro ops
  induction ops with
  | nil =>
    intro m0 m hwf h
    simp only [List.foldlM_nil] at h
    have h2 : m0 = m := Option.some.inj h
    subst h2
    exact ⟨hwf, rfl, by omega⟩
  | cons op rest ih =>
    intro m0 m hwf h
    rw [List.foldlM_cons] at h
    cases happ : applyOp H m0 op with
    | none =>
      rw [happ] at h
      exact Option.noConfusion h
    | some m1 =>
      rw [happ] at h
      have h1 : List.foldlM (applyOp H) m1 rest = some m := h
      obtain ⟨hwf1, hcs1, hcnt1⟩ := applyOp_wf hwf happ
      obtain ⟨hwfm, hcsm, hcntm⟩ := ih m1 m hwf1 h1
      refine ⟨hwfm, hcsm.trans hcs1, ?_⟩
      simp only [List.length_cons]
      omega

theorem execOps_wf {H : List Nat → Nat} {cs : Bool} {bits : Nat} {ops : List HmOp}
    {m : Hashmap} (h : execOps H cs bits ops = some m) :
    MapWF m ∧ m.case_sensitive = cs ∧ m.count ≤ ops.length := by
  unfold execOps at h
  cases hcr : isc_hashmap_create cs bits with
  | none =>
    rw [hcr] at h
    exact Option.noConfusion h
  | some m0 =>
    rw [hcr] at h
    obtain ⟨hwf0, hcnt0, hcs0, _, _⟩ := create_wf hcr
    obtain ⟨hwfm, hcsm, hcntm⟩ := foldlM_wf ops m0 m hwf0 h
    exact ⟨hwfm, hcsm.trans hcs0, by omega⟩

end Bind9

namespace Bind9

/-! ### TLS: protocol-version mask (`isc_tlsctx_set_protocols`) -/

/-- `ISC_TLS_PROTO_VER_1_2`. The enum lives in `include/isc/tls.h`, which is
not part of this repository snapshot. Modelled from the spec: the versions
form a bitmask over `{1.2, 1.3}` and "are defined as powers of two"
(comment in the source loop). -/
def ISC_TLS_PROTO_VER_1_2 : Nat := 1

/-- `ISC_TLS_PROTO_VER_1_3`. Modelled from the spec (see
`ISC_TLS_PROTO_VER_1_2`). -/
def ISC_TLS_PROTO_VER_1_3 : Nat := 2

/-- `ISC_TLS_PROTO_VER_UNDEFINED`: the next power of two, the loop bound.
Modelled from the spec (see `ISC_TLS_PROTO_VER_1_2`). -/
def ISC_TLS_PROTO_VER_UNDEFINED : Nat := 4

/-- `get_tls_version_disable_bit`: the provider's disable-bit for a known
version, `none` on the `INSIST(0)` default branch. The OpenSSL constants
`SSL_OP_NO_TLSv1_2`/`SSL_OP_NO_TLSv1_3` are compile-time conditional
(0 when the build lacks them), so the model takes them as the parameters
`noTLS12`/`noTLS13`. -/
def get_tls_version_disable_bit (noTLS12 noTLS13 tls_ver : Nat) : Option Nat :=
  if tls_ver = ISC_TLS_PROTO_VER_1_2 then some noTLS12
  else if tls_ver = ISC_TLS_PROTO_VER_1_3 then some noTLS13
  else none

/-- `isc_tls_protocol_supported`. -/
def isc_tls_protocol_supported (noTLS12 noTLS13 tls_ver : Nat) : Option Bool :=
  (get_tls_version_disable_bit noTLS12 noTLS13 tls_ver).map (fun b => b != 0)

/-- The loop of `isc_tlsctx_set_protocols`: `tls_ver` starts at
`ISC_TLS_PROTO_VER_1_2` and doubles until `ISC_TLS_PROTO_VER_UNDEFINED`;
a version absent from the mask ORs its disable-bit into `set_options`, a
present version must be supported (`INSIST`, `none` otherwise) and ORs the
bit into `clear_options`; each round clears the version from `versions`
(32-bit `&= ~tls_ver`). State is `(versions, set_options, clear_options)`. -/
def set_protocols_loop (noTLS12 noTLS13 tls_versions : Nat) :
    Nat → Nat → Nat → Nat → Nat → Option (Nat × Nat × Nat)
  | 0, _, versions, so, co => some (versions, so, co)
  | fuel+1, tls_ver, versions, so, co =>
    if tls_ver < ISC_TLS_PROTO_VER_UNDEFINED then
      match get_tls_version_disable_bit noTLS12 noTLS13 tls_ver with
      | none => none
      | some bit =>
        if tls_versions &&& tls_ver = 0 then
          set_protocols_loop noTLS12 noTLS13 tls_versions fuel (tls_ver <<< 1)
            (versions &&& (4294967295 - tls_ver)) (so ||| bit) co
        else
          if bit != 0 then
            set_protocols_loop noTLS12 noTLS13 tls_versions fuel (tls_ver <<< 1)
              (versions &&& (4294967295 - tls_ver)) so (co ||| bit)
          else none
    else some (versions, so, co)

/-- `isc_tlsctx_set_protocols`: REQUIRE `tls_versions != 0`; run the loop;
INSIST the leftover `versions` is zero; the result models the pair passed
to `SSL_CTX_set_options` / `SSL_CTX_clear_options`. -/
def isc_tlsctx_set_protocols (noTLS12 noTLS13 tls_versions : Nat) :
    Option (Nat × Nat) :=
  if tls_versions = 0 then none
  else
    match set_protocols_loop noTLS12 noTLS13 tls_versions 33
        ISC_TLS_PROTO_VER_1_2 tls_versions 0 0 with
    | none => none
    | some (versions, so, co) =>
      if versions = 0 then some (so, co) else none

/-! ### TLS: ALPN scan (`protoneg_check_protocol`) -/

/-- The scan loop of `protoneg_check_protocol`: at offset `i`, while
`i + key_len ≤ in_len`, compare `key_len` bytes at `in[i]` against the
length-prefixed needle; on a match return the payload offset `i + 1` and
the length byte `in[i]`; otherwise advance by `in[i] + 1`. Outer `none`
is fuel exhaustion (the C loop always terminates: the step is ≥ 1). -/
def protoneg_loop (inp key : List Nat) : Nat → Nat → Option (Option (Nat × Nat))
  | 0, _ => none
  | fuel+1, i =>
    if i + key.length ≤ inp.length then
      if (inp.drop i).take key.length = key then
        some (some (i + 1, inp.getD i 0))
      else protoneg_loop inp key fuel (i + (inp.getD i 0 + 1))
    else some none

/-- `protoneg_check_protocol`: `some (some (off, len))` models
`true` with `*pout = &in[off]`, `*pout_len = len`; `some none` models
`false`. -/
def protoneg_check_protocol (inp key : List Nat) : Option (Option (Nat × Nat)) :=
  protoneg_loop inp key (inp.length + 1) 0

/-- `DOT_PROTO_ALPN`: `"\x3" "dot"`. -/
def DOT_PROTO_ALPN : List Nat := [3, 100, 111, 116]

/-- `dot_select_next_protocol`. -/
def dot_select_next_protocol (inp : List Nat) : Option (Option (Nat × Nat)) :=
  protoneg_check_protocol inp DOT_PROTO_ALPN

/-- The wire form of an ALPN list built from its records. -/
def alpnEncode : List (List Nat) → List Nat
  | [] => []
  | r :: rs => (r.length :: r) ++ alpnEncode rs

/-! ### TLS: context cache (`isc_tlsctx_cache_add` / `_find`) -/

/-- A cache entry: the dense `ctx[transport - 1][ipv6]` matrix of context
handles (`none` = NULL). Contexts are opaque nonzero handles. -/
def TlsEntry : Type := Nat → Bool → Option Nat

/-- The `isc_ht` payload of the cache, as an association list keyed by the
name bytes (`isc_ht_find` / `isc_ht_add`). -/
def htFind : List (List Nat × TlsEntry) → List Nat → Option TlsEntry
  | [], _ => none
  | (k, e) :: rest, name => if k = name then some e else htFind rest name

/-- In-place mutation of the named entry (the C writes through the entry
pointer obtained from `isc_ht_find`). -/
def htUpd : List (List Nat × TlsEntry) → List Nat → TlsEntry →
    List (List Nat × TlsEntry)
  | [], _, _ => []
  | (k, e) :: rest, name, e2 =>
    if k = name then (k, e2) :: rest else (k, e) :: htUpd rest name e2

/-- Store into one matrix slot of an entry. -/
def entUpd (e : TlsEntry) (t : Nat) (i : Bool) (c : Nat) : TlsEntry :=
  fun t2 i2 => if t2 = t ∧ i2 = i then some c else e t2 i2

/-- `struct isc_tlsctx_cache`: the refcount, lock and memory context are
irrelevant to the functional behaviour; only the `isc_ht_t *data` table
is modelled. -/
structure TlsCtxCache where
  data : List (List Nat × TlsEntry)

/-- `AF_INET`. Value from the system headers (not in this snapshot);
modelled from the spec: one of the two distinct families `{v4, v6}`. -/
def AF_INET : Nat := 2

/-- `AF_INET6` (see `AF_INET`). -/
def AF_INET6 : Nat := 10

/-- Results surfaced by the cache (subset of `isc_result_t`). -/
inductive TlsRes where
  | success
  | rexists
  | notFound
  deriving DecidableEq, Repr

/-- `isc_tlsctx_cache_add`. `cache_count` stands for the header constant
`isc_tlsctx_cache_count` (the enum is not in this snapshot). `pfound` is
the caller's cell: `none` = NULL pointer, `some cur` = pointer to `cur`;
the result carries the cell's final value. `none` overall models a
REQUIRE/INSIST violation. -/
def isc_tlsctx_cache_add (cache_count : Nat) (cache : TlsCtxCache)
    (name : List Nat) (transport : Nat) (family : Nat) (ctx : Nat)
    (pfound : Option (Option Nat)) :
    Option (TlsRes × TlsCtxCache × Option (Option Nat)) :=
  match name with
  | [] => none
  | b :: _ =>
    if b = 0 then none
    else if ¬ (0 < transport ∧ transport < cache_count) then none
    else if ¬ (family = AF_INET ∨ family = AF_INET6) then none
    else if ctx = 0 then none
    else
      let tr_offset := transport - 1
      let ipv6 := family = AF_INET6
      match htFind cache.data name with
      | some entry =>
        match entry tr_offset ipv6 with
        | some found =>
          match pfound with
          | none => some (.rexists, cache, none)
          | some (some _) => none
          | some none => some (.rexists, cache, some (some found))
        | none =>
          some (.success,
            ⟨htUpd cache.data name (entUpd entry tr_offset ipv6 ctx)⟩, pfound)
      | none =>
        some (.success,
          ⟨(name, entUpd (fun _ _ => none) tr_offset ipv6 ctx) :: cache.data⟩,
          pfound)

/-- `isc_tlsctx_cache_find`: the result value models `*pctx` (the caller's
cell starts NULL). -/
def isc_tlsctx_cache_find (cache_count : Nat) (cache : TlsCtxCache)
    (name : List Nat) (transport : Nat) (family : Nat) :
    Option (TlsRes × Option Nat) :=
  match name with
  | [] => none
  | b :: _ =>
    if b = 0 then none
    else if ¬ (0 < transport ∧ transport < cache_count) then none
    else if ¬ (family = AF_INET ∨ family = AF_INET6) then none
    else
      let tr_offset := transport - 1
      let ipv6 := family = AF_INET6
      match htFind cache.data name with
      | some entry =>
        match entry tr_offset ipv6 with
        | some c => some (.success, some c)
        | none => some (.notFound, none)
      | none => some (.notFound, none)

end Bind9

namespace Bind9

theorem pl_succ (inp key : List Nat) (fuel i : Nat) :
    protoneg_loop inp key (fuel + 1) i =
      if i + key.length ≤ inp.length then
        if (inp.drop i).take key.length = key then
          some (some (i + 1, inp.getD i 0))
        else protoneg_loop inp key fuel (i + (inp.getD i 0 + 1))
      else some none := by
  conv_lhs => rw [protoneg_loop]

theorem getD_of_drop {inp : List Nat} {i : Nat} {a : Nat} {tl : List Nat}
    (h : inp.drop i = a :: tl) : inp.getD i 0 = a := by
  have h2 : (inp.drop i)[0]? = inp[i + 0]? := List.getElem?_drop inp i 0
  rw [h] at h2
  simp only [List.getElem?_cons_zero, Nat.add_zero] at h2
  simp [List.getD, h2.symm]

theorem alpn_mem_len {p : List Nat} : ∀ rs, p ∈ rs →
    p.length + 1 ≤ (alpnEncode rs).length := by
  intro rs
  induction rs with
  | nil =>
    intro h
    exact absurd h (List.not_mem_nil p)
  | cons r rest ih =>
    intro h
    have hlen : (alpnEncode (r :: rest)).length =
        r.length + 1 + (alpnEncode rest).length := by
      simp [alpnEncode]
      omega
    rcases List.mem_cons.mp h with heq | h2
    · subst heq
      omega
    · have := ih h2
      omega

theorem protoneg_loop_spec (p : List Nat) (inp : List Nat) :
    ∀ rs fuel i, inp.drop i = alpnEncode rs → i ≤ inp.length →
      inp.length < i + fuel →
      ((p ∈ rs → ∃ off, protoneg_loop inp (p.length :: p) fuel i =
          some (some (off, p.length)) ∧ (inp.drop off).take p.length = p) ∧
       (p ∉ rs → protoneg_loop inp (p.length :: p) fuel i = some none)) := by
  intro rs
  induction rs with
  | nil =>
    intro fuel i hdrop hle hfuel
    have hlen0 : inp.length - i = 0 := by
      have hl := congrArg List.length hdrop
      rw [List.length_drop] at hl
      simpa [alpnEncode] using hl
    cases fuel with
    | zero => omega
    | succ f =>
      rw [pl_succ]
      rw [if_neg (by simp only [List.length_cons]; omega)]
      exact ⟨fun h => absurd h (List.not_mem_nil p), fun _ => rfl⟩
  | cons r rest ih =>
    intro fuel i hdrop hle hfuel
    have hlen := congrArg List.length hdrop
    rw [List.length_drop] at hlen
    have hlenc : (alpnEncode (r :: rest)).length =
        r.length + 1 + (alpnEncode rest).length := by
      simp [alpnEncode]
      omega
    have hdropc : inp.drop i = r.length :: (r ++ alpnEncode rest) := by
      rw [hdrop]
      simp [alpnEncode]
    have hgetD : inp.getD i 0 = r.length := getD_of_drop hdropc
    have hdrop1 : inp.drop (i + 1) = r ++ alpnEncode rest := by
      have hstep : inp.drop (i + 1) = (inp.drop i).drop 1 := by
        rw [List.drop_drop]
      rw [hstep, hdropc]
      simp
    have hdrop2 : inp.drop (i + (inp.getD i 0 + 1)) = alpnEncode rest := by
      rw [hgetD]
      calc inp.drop (i + (r.length + 1)) = (inp.drop (i + 1)).drop r.length := by
            rw [List.drop_drop]
            congr 1
            omega
      _ = (r ++ alpnEncode rest).drop r.length := by rw [hdrop1]
      _ = alpnEncode rest := List.drop_left r (alpnEncode rest)
    have hmatch_eq : (inp.drop i).take (p.length :: p).length = p.length :: p →
        r = p := by
      intro hcmp
      rw [hdropc] at hcmp
      simp only [List.length_cons, List.take_succ_cons, List.cons.injEq] at hcmp
      obtain ⟨h1, h2⟩ := hcmp
      rw [← h1] at h2
      rw [List.take_left] at h2
      exact h2
    have hmatched : (inp.drop i).take (p.length :: p).length = p.length :: p →
        inp.getD i 0 = p.length ∧ (inp.drop (i + 1)).take p.length = p := by
      intro hcmp
      have hre := hmatch_eq hcmp
      subst hre
      exact ⟨hgetD, by rw [hdrop1]; exact List.take_left r _⟩
    cases fuel with
    | zero => omega
    | succ f =>
      rw [pl_succ]
      by_cases hbound : i + (p.length :: p).length ≤ inp.length
      · rw [if_pos hbound]
        by_cases hcmp : (inp.drop i).take (p.length :: p).length = p.length :: p
        · rw [if_pos hcmp]
          have hre := hmatch_eq hcmp
          constructor
          · intro _
            exact ⟨i + 1, by rw [(hmatched hcmp).1], (hmatched hcmp).2⟩
          · intro hnot
            exact absurd (hre ▸ List.mem_cons_self r rest) hnot
        · rw [if_neg hcmp]
          have hih := ih f (i + (inp.getD i 0 + 1)) hdrop2
            (by rw [hgetD]; omega) (by rw [hgetD]; omega)
          constructor
          · intro hmem'
            rcases List.mem_cons.mp hmem' with heq | h2
            · exfalso
              apply hcmp
              rw [hdropc, ← heq]
              simp only [List.length_cons, List.take_succ_cons]
              rw [List.take_left]
            · exact hih.1 h2
          · intro hnot
            exact hih.2 (fun h2 => hnot (List.mem_cons_of_mem r h2))
      · rw [if_neg hbound]
        constructor
        · intro hmem'
          exfalso
          apply hbound
          simp only [List.length_cons]
          rcases List.mem_cons.mp hmem' with heq | h2
          · rw [heq]
            omega
          · have hml := alpn_mem_len rest h2
            omega
        · intro _
          rfl

end Bind9

namespace Bind9

theorem spl_succ (noTLS12 noTLS13 tls_versions fuel tls_ver versions so co : Nat) :
    set_protocols_loop noTLS12 noTLS13 tls_versions (fuel + 1) tls_ver versions
        so co =
      if tls_ver < ISC_TLS_PROTO_VER_UNDEFINED then
        match get_tls_version_disable_bit noTLS12 noTLS13 tls_ver with
        | none => none
        | some bit =>
          if tls_versions &&& tls_ver = 0 then
            set_protocols_loop noTLS12 noTLS13 tls_versions fuel (tls_ver <<< 1)
              (versions &&& (4294967295 - tls_ver)) (so ||| bit) co
          else
            if bit != 0 then
              set_protocols_loop noTLS12 noTLS13 tls_versions fuel (tls_ver <<< 1)
                (versions &&& (4294967295 - tls_ver)) so (co ||| bit)
            else none
      else some (versions, so, co) := by
  conv_lhs => rw [set_protocols_loop]

theorem spl_run (noTLS12 noTLS13 mask fuel versions so co : Nat)
    (hb12 : ¬ mask &&& ISC_TLS_PROTO_VER_1_2 = 0 → noTLS12 ≠ 0)
    (hb13 : ¬ mask &&& ISC_TLS_PROTO_VER_1_3 = 0 → noTLS13 ≠ 0) :
    set_protocols_loop noTLS12 noTLS13 mask (fuel + 1 + 1 + 1)
        ISC_TLS_PROTO_VER_1_2 versions so co =
      some (versions &&& (4294967295 - ISC_TLS_PROTO_VER_1_2) &&&
          (4294967295 - ISC_TLS_PROTO_VER_1_3),
        (if mask &&& ISC_TLS_PROTO_VER_1_3 = 0 then
          (if mask &&& ISC_TLS_PROTO_VER_1_2 = 0 then so ||| noTLS12 else so) |||
            noTLS13
        else (if mask &&& ISC_TLS_PROTO_VER_1_2 = 0 then so ||| noTLS12 else so)),
        (if mask &&& ISC_TLS_PROTO_VER_1_3 = 0 then
          (if mask &&& ISC_TLS_PROTO_VER_1_2 = 0 then co else co ||| noTLS12)
        else (if mask &&& ISC_TLS_PROTO_VER_1_2 = 0 then co else co ||| noTLS12) |||
          noTLS13)) := by
  rw [spl_succ]
  rw [if_pos (by decide : ISC_TLS_PROTO_VER_1_2 < ISC_TLS_PROTO_VER_UNDEFINED)]
  have hbit1 : get_tls_version_disable_bit noTLS12 noTLS13 ISC_TLS_PROTO_VER_1_2 =
      some noTLS12 := rfl
  simp only [hbit1]
  have hbit2 : get_tls_version_disable_bit noTLS12 noTLS13
      (ISC_TLS_PROTO_VER_1_2 <<< 1) = some noTLS13 := rfl
  have hv2 : ISC_TLS_PROTO_VER_1_2 <<< 1 = ISC_TLS_PROTO_VER_1_3 := rfl
  by_cases h1 : mask &&& ISC_TLS_PROTO_VER_1_2 = 0
  · rw [if_pos h1]
    rw [spl_succ]
    rw [if_pos (by decide :
      ISC_TLS_PROTO_VER_1_2 <<< 1 < ISC_TLS_PROTO_VER_UNDEFINED)]
    simp only [hbit2]
    rw [hv2]
    by_cases h2 : mask &&& ISC_TLS_PROTO_VER_1_3 = 0
    · rw [if_pos h2]
      rw [spl_succ, if_neg (by decide :
        ¬ ISC_TLS_PROTO_VER_1_3 <<< 1 < ISC_TLS_PROTO_VER_UNDEFINED)]
      simp only [if_pos h1, if_pos h2]
    · rw [if_neg h2, if_pos (bne_iff_ne.mpr (hb13 h2))]
      rw [spl_succ, if_neg (by decide :
        ¬ ISC_TLS_PROTO_VER_1_3 <<< 1 < ISC_TLS_PROTO_VER_UNDEFINED)]
      simp only [if_pos h1, if_neg h2]
  · rw [if_neg h1, if_pos (bne_iff_ne.mpr (hb12 h1))]
    rw [spl_succ]
    rw [if_pos (by decide :
      ISC_TLS_PROTO_VER_1_2 <<< 1 < ISC_TLS_PROTO_VER_UNDEFINED)]
    simp only [hbit2]
    rw [hv2]
    by_cases h2 : mask &&& ISC_TLS_PROTO_VER_1_3 = 0
    · rw [if_pos h2]
      rw [spl_succ, if_neg (by decide :
        ¬ ISC_TLS_PROTO_VER_1_3 <<< 1 < ISC_TLS_PROTO_VER_UNDEFINED)]
      simp only [if_neg h1, if_pos h2]
    · rw [if_neg h2, if_pos (bne_iff_ne.mpr (hb13 h2))]
      rw [spl_succ, if_neg (by decide :
        ¬ ISC_TLS_PROTO_VER_1_3 <<< 1 < ISC_TLS_PROTO_VER_UNDEFINED)]
      simp only [if_neg h1, if_neg h2]

theorem set_protocols_run (noTLS12 noTLS13 mask : Nat) (hmask : mask ≠ 0)
    (hlt : mask < 4)
    (hb12 : ¬ mask &&& ISC_TLS_PROTO_VER_1_2 = 0 → noTLS12 ≠ 0)
    (hb13 : ¬ mask &&& ISC_TLS_PROTO_VER_1_3 = 0 → noTLS13 ≠ 0) :
    isc_tlsctx_set_protocols noTLS12 noTLS13 mask =
      some ((if mask &&& ISC_TLS_PROTO_VER_1_2 = 0 then noTLS12 else 0) |||
            (if mask &&& ISC_TLS_PROTO_VER_1_3 = 0 then noTLS13 else 0),
            (if mask &&& ISC_TLS_PROTO_VER_1_2 = 0 then 0 else noTLS12) |||
            (if mask &&& ISC_TLS_PROTO_VER_1_3 = 0 then 0 else noTLS13)) := by
  unfold isc_tlsctx_set_protocols
  rw [if_neg hmask]
  rw [show (33 : Nat) = 30 + 1 + 1 + 1 by norm_num]
  simp only [spl_run noTLS12 noTLS13 mask 30 mask 0 0 hb12 hb13]
  have hv : mask &&& (4294967295 - ISC_TLS_PROTO_VER_1_2) &&&
      (4294967295 - ISC_TLS_PROTO_VER_1_3) = 0 := by
    interval_cases mask <;> decide
  rw [if_pos hv]
  by_cases h1 : mask &&& ISC_TLS_PROTO_VER_1_2 = 0 <;>
    by_cases h2 : mask &&& ISC_TLS_PROTO_VER_1_3 = 0 <;>
    simp [h1, h2, Nat.zero_or, Nat.or_zero]

end Bind9

namespace Bind9

theorem psl_dist {n h psl : Nat} (hn : 0 < n) (hpsl : psl < n) :
    psl = ((h + psl) % n + n - h % n) % n := by
  have hm : h % n < n := Nat.mod_lt _ hn
  have hp : (h + psl) % n = (h % n + psl) % n := by
    rw [Nat.add_mod, Nat.mod_eq_of_lt hpsl]
  rw [hp]
  by_cases hc : h % n + psl < n
  · rw [Nat.mod_eq_of_lt hc]
    have he : h % n + psl + n - h % n = psl + n := by omega
    rw [he, Nat.add_mod_right, Nat.mod_eq_of_lt hpsl]
  · have h2 : (h % n + psl) % n = h % n + psl - n := by
      have hlt : h % n + psl - n < n := by omega
      rw [Nat.mod_eq_sub_mod (by omega), Nat.mod_eq_of_lt hlt]
    rw [h2]
    have he : h % n + psl - n + n - h % n = psl := by omega
    rw [he, Nat.mod_eq_of_lt hpsl]

theorem htFind_upd (name : List Nat) (e2 : TlsEntry) :
    ∀ d, htFind (htUpd d name e2) name = (htFind d name).map (fun _ => e2) := by
  intro d
  induction d with
  | nil => rfl
  | cons kv rest ih =>
    obtain ⟨k, e⟩ := kv
    by_cases hk : k = name
    · simp [htUpd, htFind, hk]
    · simp [htUpd, htFind, hk, ih]

end Bind9

namespace Bind9

theorem grow_target_exists (b count : Nat) :
    ∃ n, b < n ∧ count ≤ APPROX_40_PERCENT (HASHSIZE n) :=
  ⟨b + 1 + (count + 34), by omega, grow_fuel_ok count (b + 1)⟩

/-- The grow target as the spec words it: the smallest width strictly above
the current one whose capacity keeps the count at or below the code's 40%
threshold, capped at 32 bits. This definition follows the spec sentence and
is compared against the code's `grow_bits`. -/
def specGrowTarget (b count : Nat) : Nat :=
  min 32 (Nat.find (grow_target_exists b count))

theorem grow_bits_eq_target (m : Hashmap) :
    grow_bits m = specGrowTarget (m.tab m.hindex).hashbits m.count := by
  rw [grow_bits_eq]
  have hge := grow_loop_ge m.count (m.count + 34) ((m.tab m.hindex).hashbits + 1)
  have hexit := grow_loop_exit m.count (m.count + 34)
    ((m.tab m.hindex).hashbits + 1)
    (grow_fuel_ok m.count ((m.tab m.hindex).hashbits + 1))
  have hRp : (m.tab m.hindex).hashbits < grow_bits_loop m.count (m.count + 34)
      ((m.tab m.hindex).hashbits + 1) ∧
      m.count ≤ APPROX_40_PERCENT (HASHSIZE (grow_bits_loop m.count
        (m.count + 34) ((m.tab m.hindex).hashbits + 1))) := ⟨by omega, hexit⟩
  have hLle := Nat.find_min'
    (grow_target_exists (m.tab m.hindex).hashbits m.count) hRp
  have hLp := Nat.find_spec (grow_target_exists (m.tab m.hindex).hashbits m.count)
  have hRle : grow_bits_loop m.count (m.count + 34)
      ((m.tab m.hindex).hashbits + 1) ≤
      Nat.find (grow_target_exists (m.tab m.hindex).hashbits m.count) := by
    by_contra hc
    push_neg at hc
    have hmin := grow_loop_min m.count (m.count + 34)
      ((m.tab m.hindex).hashbits + 1)
      (Nat.find (grow_target_exists (m.tab m.hindex).hashbits m.count))
      (by omega) hc
    omega
  have hRL : grow_bits_loop m.count (m.count + 34)
      ((m.tab m.hindex).hashbits + 1) =
      Nat.find (grow_target_exists (m.tab m.hindex).hashbits m.count) :=
    le_antisymm hRle hLle
  unfold specGrowTarget
  rw [← hRL]
  have hmax : HASHMAP_MAX_BITS = 32 := rfl
  by_cases h32 : grow_bits_loop m.count (m.count + 34)
      ((m.tab m.hindex).hashbits + 1) > HASHMAP_MAX_BITS
  · rw [if_pos h32, hmax]
    exact (min_eq_left (by omega)).symm
  · rw [if_neg h32]
    rw [hmax] at h32
    exact (min_eq_right (by omega)).symm

end Bind9

namespace Bind9

/-! ### Claim theorems -/

/-- C5 (counterexample to the claim as stated): the thresholds are not the
exact percentages but the floor approximations `(x*921)>>10`, `(x*409)>>10`,
`(x*205)>>10`. Concretely, on a reachable 32-slot map (`bits = 5`, above the
minimum width, no rehash in progress) holding 6 entries, the count is
strictly below the exact 20% of the capacity (`6 < 32/5`, i.e.
`6 * 5 < 32`), yet a delete issued in that state starts no shrink: the
post-state is not rehashing and keeps `bits = 5`, because the code compares
against `APPROX_20_PERCENT 32 = 6` and `6 < 6` fails. -/
theorem C5_counterexample :
    ((execOps (fun _ => 0) true 5
        [HmOp.add [0] 10, HmOp.add [1] 11, HmOp.add [2] 12,
         HmOp.add [3] 13, HmOp.add [4] 14, HmOp.add [5] 15]).bind
      (fun m => (isc_hashmap_delete (fun _ => 0) m [5]).map
        (fun r => (decide (m.count * 5 < HASHSIZE (m.tab m.hindex).hashbits),
          (m.tab m.hindex).hashbits,
          rehashing_in_progress m,
          r.1,
          rehashing_in_progress r.2,
          (r.2.tab r.2.hindex).hashbits)))) =
      some (true, 5, false, HmRes.success, false, 5) := by
  decide

/-- C5 (amended): on any reachable map with no rehash in progress, an add
starts a grow exactly when the count exceeds `APPROX_90_PERCENT` of the
active capacity (never at 32 bits), and the grown width is the smallest
`b' > b` with `count ≤ APPROX_40_PERCENT (2^b')`, capped at 32; a delete
starts a shrink exactly when the count is under `APPROX_20_PERCENT` of the
active capacity (never at 1 bit), and the shrunk width is `max (b-1) 1`.
The `APPROX_*` thresholds are the floor expressions `x*921/1024`,
`x*409/1024` and `x*205/1024` — not the exact percentages of the original
claim. Starting either rehash preserves the count and the contents. -/
theorem C5_amended_sizing {H : List Nat → Nat} {cs : Bool} {bits : Nat}
    {ops : List HmOp} {m : Hashmap}
    (hexec : execOps H cs bits ops = some m)
    (hst : rehashing_in_progress m = false) :
    (over_threshold m = true ↔ ((m.tab m.hindex).hashbits ≠ HASHMAP_MAX_BITS ∧
      APPROX_90_PERCENT (HASHSIZE (m.tab m.hindex).hashbits) < m.count)) ∧
    (under_threshold m = true ↔ ((m.tab m.hindex).hashbits ≠ HASHMAP_MIN_BITS ∧
      m.count < APPROX_20_PERCENT (HASHSIZE (m.tab m.hindex).hashbits))) ∧
    (∀ x, APPROX_90_PERCENT x = x * 921 / 1024 ∧
      APPROX_40_PERCENT x = x * 409 / 1024 ∧
      APPROX_20_PERCENT x = x * 205 / 1024) ∧
    (over_threshold m = true →
      ((hashmap_rehash_start_grow m).tab
          (hashmap_rehash_start_grow m).hindex).hashbits =
        specGrowTarget (m.tab m.hindex).hashbits m.count ∧
      rehashing_in_progress (hashmap_rehash_start_grow m) = true ∧
      (hashmap_rehash_start_grow m).count = m.count ∧
      (∀ hv k v, mapKV (hashmap_rehash_start_grow m) hv k v ↔ mapKV m hv k v)) ∧
    (under_threshold m = true →
      ((hashmap_rehash_start_shrink m).tab
          (hashmap_rehash_start_shrink m).hindex).hashbits =
        max ((m.tab m.hindex).hashbits - 1) 1 ∧
      rehashing_in_progress (hashmap_rehash_start_shrink m) = true ∧
      (hashmap_rehash_start_shrink m).count = m.count ∧
      (∀ hv k v, mapKV (hashmap_rehash_start_shrink m) hv k v ↔ mapKV m hv k v)) := by
  obtain ⟨hwf, _, _⟩ := execOps_wf hexec
  have hst0 := not_rehashing_bits hst
  refine ⟨⟨over_true, ?_⟩, ⟨under_true, ?_⟩, ?_, ?_, ?_⟩
  · intro h
    simp only [over_threshold]
    rw [if_neg h.1]
    exact decide_eq_true h.2
  · intro h
    simp only [under_threshold]
    rw [if_neg h.1]
    exact decide_eq_true h.2
  · intro x
    exact ⟨approx90_div x, approx40_div x, approx20_div x⟩
  · intro hov
    obtain ⟨_, hre, _, hcntg, hbits, hcont⟩ := start_grow_run hwf hst0 hov
    exact ⟨hbits.trans (grow_bits_eq_target m), hre, hcntg, hcont⟩
  · intro hun
    obtain ⟨_, hre, _, hcnts, hbits, hcont⟩ := start_shrink_run hwf hst0 hun
    obtain ⟨hne, _⟩ := under_true hun
    have hmin : HASHMAP_MIN_BITS = 1 := rfl
    have hlo := hwf.abits_lo
    have hs2 : 2 ≤ (m.tab m.hindex).hashbits := by
      rw [hmin] at hne
      omega
    refine ⟨?_, hre, hcnts, hcont⟩
    rw [hbits, shrink_bits_eq hs2]
    omega

theorem C5_amended_sizing_witness :
    ∃ m, execOps (fun _ => 0) true 5
        [HmOp.add [0] 10, HmOp.add [1] 11, HmOp.add [2] 12,
         HmOp.add [3] 13, HmOp.add [4] 14, HmOp.add [5] 15] = some m ∧
      ((over_threshold m = true ↔ ((m.tab m.hindex).hashbits ≠ HASHMAP_MAX_BITS ∧
        APPROX_90_PERCENT (HASHSIZE (m.tab m.hindex).hashbits) < m.count)) ∧
      (under_threshold m = true ↔ ((m.tab m.hindex).hashbits ≠ HASHMAP_MIN_BITS ∧
        m.count < APPROX_20_PERCENT (HASHSIZE (m.tab m.hindex).hashbits))) ∧
      (∀ x, APPROX_90_PERCENT x = x * 921 / 1024 ∧
        APPROX_40_PERCENT x = x * 409 / 1024 ∧
        APPROX_20_PERCENT x = x * 205 / 1024) ∧
      (over_threshold m = true →
        ((hashmap_rehash_start_grow m).tab
            (hashmap_rehash_start_grow m).hindex).hashbits =
          specGrowTarget (m.tab m.hindex).hashbits m.count ∧
        rehashing_in_progress (hashmap_rehash_start_grow m) = true ∧
        (hashmap_rehash_start_grow m).count = m.count ∧
        (∀ hv k v, mapKV (hashmap_rehash_start_grow m) hv k v ↔ mapKV m hv k v)) ∧
      (under_threshold m = true →
        ((hashmap_rehash_start_shrink m).tab
            (hashmap_rehash_start_shrink m).hindex).hashbits =
          max ((m.tab m.hindex).hashbits - 1) 1 ∧
        rehashing_in_progress (hashmap_rehash_start_shrink m) = true ∧
        (hashmap_rehash_start_shrink m).count = m.count ∧
        (∀ hv k v, mapKV (hashmap_rehash_start_shrink m) hv k v ↔ mapKV m hv k v))) := by
  refine ⟨_, rfl, ?_⟩
  exact @C5_amended_sizing (fun _ => 0) true 5
    [HmOp.add [0] 10, HmOp.add [1] 11, HmOp.add [2] 12,
     HmOp.add [3] 13, HmOp.add [4] 14, HmOp.add [5] 15] _ rfl (by decide)

end Bind9

namespace Bind9

/-- C1: from any reachable map (any prior add/delete history short enough
that two more entries still fit the 2^32-slot maximum table, including maps
with a rehash in progress), adding an absent key of at most 65535 bytes
returns SUCCESS; a subsequent find returns the added value; a subsequent
delete returns SUCCESS; and a final find reports the key absent. -/
theorem C1_add_find_delete_roundtrip {H : List Nat → Nat} {cs : Bool}
    {bits : Nat} {ops : List HmOp} {m : Hashmap} {key : List Nat} {value : Nat}
    (hexec : execOps H cs bits ops = some m)
    (hlen : ops.length + 2 ≤ HASHSIZE HASHMAP_MAX_BITS)
    (hk : key.length ≤ 65535)
    (habs : mapAbs m (H key) key) :
    ∃ m1, isc_hashmap_add H m key value = some (HmRes.success, m1) ∧
      isc_hashmap_find H m1 key = some (some value) ∧
      ∃ m2, isc_hashmap_delete H m1 key = some (HmRes.success, m2) ∧
        isc_hashmap_find H m2 key = some none := by
  obtain ⟨hwf, _, hcnt⟩ := execOps_wf hexec
  obtain ⟨m1, hadd, hwf1, hcs1, hcnt1, hcont1⟩ :=
    @isc_add_success H m key value hwf hk habs (by omega)
  have hkv1 : mapKV m1 (H key) key value := by
    refine (hcont1 (H key) key value).mpr (Or.inr ⟨?_, rfl⟩)
    exact match_refl m.case_sensitive ⟨key, value, H key, 0⟩
  have hfind1 : isc_hashmap_find H m1 key = some (some value) :=
    isc_find_present hwf1 hkv1
  obtain ⟨m2, x0, hdel, hwf2, hcs2, hcnt2, hmx0, hcont2⟩ :=
    @isc_del_success H m1 key value hwf1 hk hkv1
  refine ⟨m1, hadd, hfind1, m2, hdel, ?_⟩
  refine isc_find_absent hwf2 (mapAbs_iff.mpr ?_)
  intro v hv2
  obtain ⟨hkv1x, hmx⟩ := (hcont2 (H key) key v).mp hv2
  rw [hmx0] at hmx
  exact Bool.noConfusion hmx

theorem C1_roundtrip_witness :
    ∃ m, execOps (fun _ => 0) true 1 [] = some m ∧
      ∃ m1, isc_hashmap_add (fun _ => 0) m [1] 7 = some (HmRes.success, m1) ∧
        isc_hashmap_find (fun _ => 0) m1 [1] = some (some 7) ∧
        ∃ m2, isc_hashmap_delete (fun _ => 0) m1 [1] =
            some (HmRes.success, m2) ∧
          isc_hashmap_find (fun _ => 0) m2 [1] = some none := by
  refine ⟨_, rfl, ?_⟩
  exact @C1_add_find_delete_roundtrip (fun _ => 0) true 1 [] _ [1] 7 rfl
    (by decide) (by decide)
    ⟨fun p hp x hx => Option.noConfusion hx,
     fun p hp x hx => Option.noConfusion hx⟩

/-- C2: while a rehash is in progress on a reachable map, no `(hash, key)`
class is stored in both tables at once — every live key resides in exactly
one table — and the next migration step (`hashmap_rehash_one`, as performed
on add/delete) succeeds, preserves well-formedness and the count, and
leaves the abstract contents exactly unchanged: no key is lost or
duplicated. -/
theorem C2_rehash_preserves_contents {H : List Nat → Nat} {cs : Bool}
    {bits : Nat} {ops : List HmOp} {m : Hashmap}
    (hexec : execOps H cs bits ops = some m)
    (hre : rehashing_in_progress m = true) :
    (∀ hv k v v',
      keyVal m.case_sensitive (m.tab m.hindex).hashbits
        (m.tab m.hindex).slots hv k v →
      keyVal m.case_sensitive (m.tab (!m.hindex)).hashbits
        (m.tab (!m.hindex)).slots hv k v' → False) ∧
    ∃ mf, hashmap_rehash_one m = some mf ∧ MapWF mf ∧ mf.count = m.count ∧
      (∀ hv k v, mapKV mf hv k v ↔ mapKV m hv k v) := by
  obtain ⟨hwf, _, _⟩ := execOps_wf hexec
  constructor
  · rintro hv k v v' ⟨p, hp, x, hx, hmx, _⟩ ⟨q, hq, y, hy, hmy, _⟩
    obtain ⟨_, _, _, hdisj, _⟩ := hwf.rehash ((rehashing_eqv m).mp hre)
    have hfa := hdisj q hq y hy
    have hba := hfa p hp x hx
    rw [match_trans hmx hmy] at hba
    exact Bool.noConfusion hba
  · obtain ⟨mf, heq, hstep⟩ := rehash_one_run hwf hre
    exact ⟨mf, heq, hstep.1, hstep.2.2.2.1, hstep.2.2.2.2.2.1⟩

theorem C2_rehash_witness :
    ∃ m, execOps (fun _ => 0) true 1
        [HmOp.add [1] 1, HmOp.add [2] 2, HmOp.add [3] 3] = some m ∧
      rehashing_in_progress m = true ∧
      ((∀ hv k v v',
        keyVal m.case_sensitive (m.tab m.hindex).hashbits
          (m.tab m.hindex).slots hv k v →
        keyVal m.case_sensitive (m.tab (!m.hindex)).hashbits
          (m.tab (!m.hindex)).slots hv k v' → False) ∧
      ∃ mf, hashmap_rehash_one m = some mf ∧ MapWF mf ∧ mf.count = m.count ∧
        (∀ hv k v, mapKV mf hv k v ↔ mapKV m hv k v)) := by
  refine ⟨_, rfl, by decide, ?_⟩
  exact @C2_rehash_preserves_contents (fun _ => 0) true 1
    [HmOp.add [1] 1, HmOp.add [2] 2, HmOp.add [3] 3] _ rfl (by decide)

end Bind9

namespace Bind9

/-- C3: on any reachable map — after any sequence of add, delete and
iterator operations, where `HmOp.iterDel` is the mutating iterator step
`isc_hashmap_iter_delcurrent_next` (the other iterator calls only read the
tables) — every non-empty slot `p` of either table satisfies the Robin Hood
invariant: the stored `psl` is below the capacity and `p` is `psl` slots
past the node's home slot `isc_hash_bits32 hash bits`, so `psl` equals the
wrap-around distance `(p + size - home % size) % size` — the Nat form of
`(p - (h >> shift)) & m` for the power-of-two capacity. Insertion (with
displacement), deletion and iterator deletion (backward shift, without
threshold checks) all preserve this, since every reachable state satisfies
it. -/
theorem C3_psl_invariant {H : List Nat → Nat} {cs : Bool} {bits : Nat}
    {ops : List HmOp} {m : Hashmap}
    (hexec : execOps H cs bits ops = some m) :
    ∀ idx p x, p < HASHSIZE (m.tab idx).hashbits →
      (m.tab idx).slots p = some x →
      x.psl < HASHSIZE (m.tab idx).hashbits ∧
      p = (isc_hash_bits32 x.hashval (m.tab idx).hashbits + x.psl) %
          HASHSIZE (m.tab idx).hashbits ∧
      x.psl = (p + HASHSIZE (m.tab idx).hashbits -
          isc_hash_bits32 x.hashval (m.tab idx).hashbits %
            HASHSIZE (m.tab idx).hashbits) % HASHSIZE (m.tab idx).hashbits := by
  obtain ⟨hwf, _, _⟩ := execOps_wf hexec
  intro idx p x hp hx
  have hgood : goodNode (m.tab idx).hashbits p x := by
    by_cases hidx : idx = m.hindex
    · rw [hidx] at hp hx
      rw [hidx]
      exact hwf.awf.good p hp x hx
    · have h2 : idx = !m.hindex := by
        have hd : ∀ a b : Bool, ¬ a = b → a = !b := by decide
        exact hd idx m.hindex hidx
      rw [h2] at hp hx
      rw [h2]
      by_cases h0 : (m.tab (!m.hindex)).hashbits = 0
      · exfalso
        rw [(hwf.steady h0).1 p] at hx
        exact Option.noConfusion hx
      · obtain ⟨_, _, howf, _⟩ := hwf.rehash h0
        exact howf.good p hp x hx
  obtain ⟨h1, h2, _⟩ := hgood
  refine ⟨h1, h2, ?_⟩
  rw [h2]
  exact psl_dist (hashsize_pos _) h1

theorem C3_psl_witness :
    ∃ m, execOps (fun _ => 0) true 2
        [HmOp.add [5] 9, HmOp.add [6] 4, HmOp.iterDel false 0] = some m ∧
      ∀ idx p x, p < HASHSIZE (m.tab idx).hashbits →
        (m.tab idx).slots p = some x →
        x.psl < HASHSIZE (m.tab idx).hashbits ∧
        p = (isc_hash_bits32 x.hashval (m.tab idx).hashbits + x.psl) %
            HASHSIZE (m.tab idx).hashbits ∧
        x.psl = (p + HASHSIZE (m.tab idx).hashbits -
            isc_hash_bits32 x.hashval (m.tab idx).hashbits %
              HASHSIZE (m.tab idx).hashbits) % HASHSIZE (m.tab idx).hashbits := by
  refine ⟨_, rfl, ?_⟩
  exact @C3_psl_invariant (fun _ => 0) true 2
    [HmOp.add [5] 9, HmOp.add [6] 4, HmOp.iterDel false 0] _ rfl

/-- C4: on any reachable map already holding `(k, v)`, adding `k` with any
new value returns EXISTS, leaves the stored value unchanged (find still
returns `v`), leaves the count unchanged, and in fact leaves the whole
abstract content unchanged. -/
theorem C4_add_exists_no_mutation {H : List Nat → Nat} {cs : Bool}
    {bits : Nat} {ops : List HmOp} {m : Hashmap} {k : List Nat} {v vNew : Nat}
    (hexec : execOps H cs bits ops = some m)
    (hk : k.length ≤ 65535)
    (hkv : mapKV m (H k) k v) :
    ∃ m1, isc_hashmap_add H m k vNew = some (HmRes.rexists, m1) ∧
      isc_hashmap_find H m1 k = some (some v) ∧
      isc_hashmap_count m1 = isc_hashmap_count m ∧
      (∀ hv kk vv, mapKV m1 hv kk vv ↔ mapKV m hv kk vv) := by
  obtain ⟨hwf, _, _⟩ := execOps_wf hexec
  obtain ⟨m1, heq, hwf1, hcs1, hcnt1, hcont1⟩ :=
    @isc_add_exists H m k vNew v hwf hk hkv
  exact ⟨m1, heq, isc_find_present hwf1 ((hcont1 _ _ _).mpr hkv), hcnt1, hcont1⟩

theorem C4_add_exists_witness :
    ∃ m, execOps (fun _ => 0) true 2 [HmOp.add [4] 9] = some m ∧
      ∃ m1, isc_hashmap_add (fun _ => 0) m [4] 1 = some (HmRes.rexists, m1) ∧
        isc_hashmap_find (fun _ => 0) m1 [4] = some (some 9) ∧
        isc_hashmap_count m1 = isc_hashmap_count m ∧
        (∀ hv kk vv, mapKV m1 hv kk vv ↔ mapKV m hv kk vv) := by
  refine ⟨_, rfl, ?_⟩
  exact @C4_add_exists_no_mutation (fun _ => 0) true 2 [HmOp.add [4] 9] _
    [4] 9 1 rfl (by decide)
    (Or.inl ⟨0, by decide, ⟨[4], 9, 0, 0⟩, rfl, by decide, rfl⟩)

/-- C9: on any reachable map, an add that fails with EXISTS and a delete
that fails with NOT_FOUND still return a successor state (whose internal
layout may differ: the call may have migrated a slot or started a resize),
but the abstract key-to-value mapping and the count of that state are
exactly those of the pre-state — so the mapping is a function of the
successful add/delete history only. -/
theorem C9_failed_ops_frame {H : List Nat → Nat} {cs : Bool} {bits : Nat}
    {ops : List HmOp} {m : Hashmap} {k : List Nat} {vNew : Nat}
    (hexec : execOps H cs bits ops = some m)
    (hk : k.length ≤ 65535) :
    (∀ v0, mapKV m (H k) k v0 →
      ∃ m1, isc_hashmap_add H m k vNew = some (HmRes.rexists, m1) ∧
        m1.count = m.count ∧
        (∀ hv kk v, mapKV m1 hv kk v ↔ mapKV m hv kk v)) ∧
    (mapAbs m (H k) k →
      ∃ m1, isc_hashmap_delete H m k = some (HmRes.notFound, m1) ∧
        m1.count = m.count ∧
        (∀ hv kk v, mapKV m1 hv kk v ↔ mapKV m hv kk v)) := by
  obtain ⟨hwf, _, _⟩ := execOps_wf hexec
  constructor
  · intro v0 hkv
    obtain ⟨m1, heq, _, _, hcnt1, hcont1⟩ := @isc_add_exists H m k vNew v0 hwf hk hkv
    exact ⟨m1, heq, hcnt1, hcont1⟩
  · intro habs
    obtain ⟨m1, heq, _, _, hcnt1, hcont1⟩ := isc_del_notfound hwf hk habs
    exact ⟨m1, heq, hcnt1, hcont1⟩

theorem C9_failed_ops_witness :
    ∃ m, execOps (fun _ => 0) true 1 [] = some m ∧
      ((∀ v0, mapKV m 0 [7] v0 →
        ∃ m1, isc_hashmap_add (fun _ => 0) m [7] 3 =
            some (HmRes.rexists, m1) ∧
          m1.count = m.count ∧
          (∀ hv kk v, mapKV m1 hv kk v ↔ mapKV m hv kk v)) ∧
      (mapAbs m 0 [7] →
        ∃ m1, isc_hashmap_delete (fun _ => 0) m [7] =
            some (HmRes.notFound, m1) ∧
          m1.count = m.count ∧
          (∀ hv kk v, mapKV m1 hv kk v ↔ mapKV m hv kk v))) := by
  refine ⟨_, rfl, ?_⟩
  exact @C9_failed_ops_frame (fun _ => 0) true 1 [] _ [7] 3 rfl (by decide)

/-- C10: on any reachable map the active table's bit width lies in
`[1, 32]` (so its capacity lies in `[2, 2^32]`), the old table's width —
when a rehash is in progress — lies in `[1, 32]` too, an add at 32 bits
never trips the grow threshold, and a delete at 1 bit never trips the
shrink threshold. -/
theorem C10_bits_bounds {H : List Nat → Nat} {cs : Bool} {bits : Nat}
    {ops : List HmOp} {m : Hashmap}
    (hexec : execOps H cs bits ops = some m) :
    1 ≤ (m.tab m.hindex).hashbits ∧ (m.tab m.hindex).hashbits ≤ 32 ∧
    2 ≤ HASHSIZE (m.tab m.hindex).hashbits ∧
    HASHSIZE (m.tab m.hindex).hashbits ≤ HASHSIZE 32 ∧
    ((m.tab (!m.hindex)).hashbits ≠ 0 →
      1 ≤ (m.tab (!m.hindex)).hashbits ∧ (m.tab (!m.hindex)).hashbits ≤ 32) ∧
    ((m.tab m.hindex).hashbits = HASHMAP_MAX_BITS → over_threshold m = false) ∧
    ((m.tab m.hindex).hashbits = HASHMAP_MIN_BITS → under_threshold m = false) := by
  obtain ⟨hwf, _, _⟩ := execOps_wf hexec
  refine ⟨hwf.abits_lo, hwf.abits_hi, hashsize_two_le hwf.abits_lo,
    hashsize_mono hwf.abits_hi, ?_, ?_, ?_⟩
  · intro h0
    obtain ⟨h1, h2, _⟩ := hwf.rehash h0
    exact ⟨h1, h2⟩
  · intro h32
    simp only [over_threshold]
    rw [if_pos h32]
  · intro h1
    simp only [under_threshold]
    rw [if_pos h1]

theorem C10_bits_witness :
    ∃ m, execOps (fun _ => 0) true 1 [HmOp.add [1] 1] = some m ∧
      (1 ≤ (m.tab m.hindex).hashbits ∧ (m.tab m.hindex).hashbits ≤ 32 ∧
      2 ≤ HASHSIZE (m.tab m.hindex).hashbits ∧
      HASHSIZE (m.tab m.hindex).hashbits ≤ HASHSIZE 32 ∧
      ((m.tab (!m.hindex)).hashbits ≠ 0 →
        1 ≤ (m.tab (!m.hindex)).hashbits ∧ (m.tab (!m.hindex)).hashbits ≤ 32) ∧
      ((m.tab m.hindex).hashbits = HASHMAP_MAX_BITS →
        over_threshold m = false) ∧
      ((m.tab m.hindex).hashbits = HASHMAP_MIN_BITS →
        under_threshold m = false)) := by
  refine ⟨_, rfl, ?_⟩
  exact @C10_bits_bounds (fun _ => 0) true 1 [HmOp.add [1] 1] _ rfl

end Bind9

namespace Bind9

theorem spl_fail13 (noTLS12 mask fuel versions so co : Nat)
    (h12 : noTLS12 ≠ 0) (h13 : ¬ mask &&& ISC_TLS_PROTO_VER_1_3 = 0) :
    set_protocols_loop noTLS12 0 mask (fuel + 1 + 1)
      ISC_TLS_PROTO_VER_1_2 versions so co = none := by
  rw [spl_succ]
  rw [if_pos (by decide : ISC_TLS_PROTO_VER_1_2 < ISC_TLS_PROTO_VER_UNDEFINED)]
  have hbit1 : get_tls_version_disable_bit noTLS12 0 ISC_TLS_PROTO_VER_1_2 =
      some noTLS12 := rfl
  simp only [hbit1]
  have hbit2 : get_tls_version_disable_bit noTLS12 0
      (ISC_TLS_PROTO_VER_1_2 <<< 1) = some 0 := rfl
  have hv2 : ISC_TLS_PROTO_VER_1_2 <<< 1 = ISC_TLS_PROTO_VER_1_3 := rfl
  have hstep2 : ∀ versions2 so2 co2,
      set_protocols_loop noTLS12 0 mask (fuel + 1)
        (ISC_TLS_PROTO_VER_1_2 <<< 1) versions2 so2 co2 = none := by
    intro versions2 so2 co2
    rw [spl_succ]
    rw [if_pos (by decide :
      ISC_TLS_PROTO_VER_1_2 <<< 1 < ISC_TLS_PROTO_VER_UNDEFINED)]
    simp only [hbit2]
    rw [hv2]
    rw [if_neg h13]
    rw [if_neg (by decide : ¬ ((0 : Nat) != 0) = true)]
  by_cases h1 : mask &&& ISC_TLS_PROTO_VER_1_2 = 0
  · rw [if_pos h1, hstep2]
  · rw [if_neg h1, if_pos (bne_iff_ne.mpr h12), hstep2]

/-- C8: with both disable-bits available in the build (nonzero `SSL_OP_NO_*`
constants), `isc_tlsctx_set_protocols` on any nonzero mask over `{1.2, 1.3}`
ORs the disable-bit of each version absent from the mask into the options
to set, and the disable-bit of each version present in the mask into the
options to clear; a zero mask is a contract violation (REQUIRE), and
selecting a version whose disable-bit is unavailable in the build (here 1.3
with a zero bit) is a contract violation (INSIST). -/
theorem C8_set_protocols (noTLS12 noTLS13 : Nat)
    (h12 : noTLS12 ≠ 0) (h13 : noTLS13 ≠ 0) :
    (∀ mask, mask ≠ 0 → mask < 4 →
      isc_tlsctx_set_protocols noTLS12 noTLS13 mask =
        some ((if mask &&& ISC_TLS_PROTO_VER_1_2 = 0 then noTLS12 else 0) |||
              (if mask &&& ISC_TLS_PROTO_VER_1_3 = 0 then noTLS13 else 0),
              (if mask &&& ISC_TLS_PROTO_VER_1_2 = 0 then 0 else noTLS12) |||
              (if mask &&& ISC_TLS_PROTO_VER_1_3 = 0 then 0 else noTLS13))) ∧
    isc_tlsctx_set_protocols noTLS12 noTLS13 0 = none ∧
    (∀ mask, ¬ mask &&& ISC_TLS_PROTO_VER_1_3 = 0 →
      isc_tlsctx_set_protocols noTLS12 0 mask = none) := by
  refine ⟨?_, ?_, ?_⟩
  · intro mask hm hlt
    exact set_protocols_run noTLS12 noTLS13 mask hm hlt
      (fun _ => h12) (fun _ => h13)
  · unfold isc_tlsctx_set_protocols
    rw [if_pos rfl]
  · intro mask hm13
    have hm0 : mask ≠ 0 := by
      intro h
      apply hm13
      rw [h]
      decide
    unfold isc_tlsctx_set_protocols
    rw [if_neg hm0]
    rw [show (33 : Nat) = 31 + 1 + 1 from by norm_num]
    simp only [spl_fail13 noTLS12 mask 31 mask 0 0 h12 hm13]

theorem C8_set_protocols_witness :
    isc_tlsctx_set_protocols 4 8 2 = some (4, 8) := by
  have h := (C8_set_protocols 4 8 (by decide) (by decide)).1 2
    (by decide) (by decide)
  exact h.trans (by decide)

/-- C7: for every well-formed wire-format ALPN list (the encoding of a
record list `rs`, each record a `(len, bytes)` unit) and every
length-prefixed needle `p.length :: p`, the scan returns true together with
the payload offset and the length byte of the matching record when `p` is a
complete record of the list, and returns false when it is not; the returned
offset points at the needle's payload bytes. `dot_select_next_protocol` is
exactly this scan with the `"\x3dot"` needle. -/
theorem C7_alpn_scan (rs : List (List Nat)) (p : List Nat)
    (hwf : ∀ r ∈ rs, r.length ≤ 255) (hp : p.length ≤ 255) :
    (p ∈ rs → ∃ off, protoneg_check_protocol (alpnEncode rs)
        (p.length :: p) = some (some (off, p.length)) ∧
      ((alpnEncode rs).drop off).take p.length = p) ∧
    (p ∉ rs → protoneg_check_protocol (alpnEncode rs) (p.length :: p) =
      some none) ∧
    dot_select_next_protocol (alpnEncode rs) =
      protoneg_check_protocol (alpnEncode rs) (3 :: [100, 111, 116]) := by
  have hspec := protoneg_loop_spec p (alpnEncode rs) rs
    ((alpnEncode rs).length + 1) 0 (by rw [List.drop_zero]) (Nat.zero_le _)
    (by omega)
  exact ⟨hspec.1, hspec.2, rfl⟩

theorem C7_alpn_witness :
    (∃ off, protoneg_check_protocol (alpnEncode [[104, 50], [100, 111, 116]])
        ([100, 111, 116].length :: [100, 111, 116]) =
      some (some (off, [100, 111, 116].length)) ∧
      ((alpnEncode [[104, 50], [100, 111, 116]]).drop off).take
        [100, 111, 116].length = [100, 111, 116]) := by
  exact (C7_alpn_scan [[104, 50], [100, 111, 116]] [100, 111, 116]
    (by decide) (by decide)).1 (by decide)

end Bind9

namespace Bind9

/-- C6: for every cache, a name with a nonzero first byte, a transport in
range, a family in `{AF_INET, AF_INET6}` and a nonzero context: add returns
EXISTS — exposing the pre-existing context through the caller's `*pfound`
cell exactly when that cell is a NULL-initialised pointer — precisely when
the `(transport, family)` slot of the name's entry is already occupied,
leaving the cache unchanged; when the name's entry exists but that slot is
null, the context is installed, OK is returned and `pfound` is untouched;
when the name has no entry a zeroed entry is created, the context installed,
OK returned and `pfound` untouched. A find after either installation
returns the installed context, and a find on an absent name or an empty
slot returns NOT_FOUND with a NULL result. -/
theorem C6_tlsctx_cache (cache_count : Nat) (cache : TlsCtxCache) (b : Nat)
    (rest : List Nat) (transport family ctx : Nat)
    (hb : b ≠ 0) (ht : 0 < transport ∧ transport < cache_count)
    (hf : family = AF_INET ∨ family = AF_INET6) (hc : ctx ≠ 0) :
    (∀ entry found, htFind cache.data (b :: rest) = some entry →
      entry (transport - 1) (decide (family = AF_INET6)) = some found →
      isc_tlsctx_cache_add cache_count cache (b :: rest) transport family ctx
          (some none) = some (TlsRes.rexists, cache, some (some found)) ∧
      isc_tlsctx_cache_add cache_count cache (b :: rest) transport family ctx
          none = some (TlsRes.rexists, cache, none) ∧
      isc_tlsctx_cache_find cache_count cache (b :: rest) transport family =
        some (TlsRes.success, some found)) ∧
    (∀ entry pf, htFind cache.data (b :: rest) = some entry →
      entry (transport - 1) (decide (family = AF_INET6)) = none →
      ∃ cache2, isc_tlsctx_cache_add cache_count cache (b :: rest) transport
          family ctx pf = some (TlsRes.success, cache2, pf) ∧
        isc_tlsctx_cache_find cache_count cache2 (b :: rest) transport
          family = some (TlsRes.success, some ctx)) ∧
    (∀ pf, htFind cache.data (b :: rest) = none →
      ∃ cache2, isc_tlsctx_cache_add cache_count cache (b :: rest) transport
          family ctx pf = some (TlsRes.success, cache2, pf) ∧
        isc_tlsctx_cache_find cache_count cache2 (b :: rest) transport
          family = some (TlsRes.success, some ctx)) ∧
    (htFind cache.data (b :: rest) = none →
      isc_tlsctx_cache_find cache_count cache (b :: rest) transport family =
        some (TlsRes.notFound, none)) ∧
    (∀ entry, htFind cache.data (b :: rest) = some entry →
      entry (transport - 1) (decide (family = AF_INET6)) = none →
      isc_tlsctx_cache_find cache_count cache (b :: rest) transport family =
        some (TlsRes.notFound, none)) := by
  refine ⟨?_, ?_, ?_, ?_, ?_⟩
  · intro entry found hfind hslot
    refine ⟨?_, ?_, ?_⟩
    · simp only [isc_tlsctx_cache_add]
      rw [if_neg hb, if_neg (not_not_intro ht), if_neg (not_not_intro hf),
        if_neg hc]
      simp only [hfind, hslot]
    · simp only [isc_tlsctx_cache_add]
      rw [if_neg hb, if_neg (not_not_intro ht), if_neg (not_not_intro hf),
        if_neg hc]
      simp only [hfind, hslot]
    · simp only [isc_tlsctx_cache_find]
      rw [if_neg hb, if_neg (not_not_intro ht), if_neg (not_not_intro hf)]
      simp only [hfind, hslot]
  · intro entry pf hfind hslot
    refine ⟨⟨htUpd cache.data (b :: rest)
      (entUpd entry (transport - 1) (decide (family = AF_INET6)) ctx)⟩, ?_, ?_⟩
    · simp only [isc_tlsctx_cache_add]
      rw [if_neg hb, if_neg (not_not_intro ht), if_neg (not_not_intro hf),
        if_neg hc]
      simp only [hfind, hslot]
    · simp only [isc_tlsctx_cache_find]
      rw [if_neg hb, if_neg (not_not_intro ht), if_neg (not_not_intro hf)]
      simp [htFind_upd, hfind, entUpd]
  · intro pf hfind
    refine ⟨⟨((b :: rest), entUpd (fun _ _ => none) (transport - 1)
      (decide (family = AF_INET6)) ctx) :: cache.data⟩, ?_, ?_⟩
    · simp only [isc_tlsctx_cache_add]
      rw [if_neg hb, if_neg (not_not_intro ht), if_neg (not_not_intro hf),
        if_neg hc]
      simp only [hfind]
    · simp only [isc_tlsctx_cache_find]
      rw [if_neg hb, if_neg (not_not_intro ht), if_neg (not_not_intro hf)]
      simp [htFind, entUpd]
  · intro hfind
    simp only [isc_tlsctx_cache_find]
    rw [if_neg hb, if_neg (not_not_intro ht), if_neg (not_not_intro hf)]
    simp only [hfind]
  · intro entry hfind hslot
    simp only [isc_tlsctx_cache_find]
    rw [if_neg hb, if_neg (not_not_intro ht), if_neg (not_not_intro hf)]
    simp only [hfind, hslot]

theorem C6_tlsctx_cache_witness :
    ∃ cache2, isc_tlsctx_cache_add 2 ⟨[]⟩ [97] 1 AF_INET 5 none =
        some (TlsRes.success, cache2, none) ∧
      isc_tlsctx_cache_find 2 cache2 [97] 1 AF_INET =
        some (TlsRes.success, some 5) := by
  exact (C6_tlsctx_cache 2 ⟨[]⟩ 97 [] 1 AF_INET 5 (by decide) (by decide)
    (Or.inl rfl) (by decide)).2.2.1 none rfl

end Bind9
